import Mathlib

/-!
Verification development for a crawler that mirrors pinned scholarship
announcements into an external document database (src/main.py).

Python strings are modelled as lists of characters (`Str`), machine
integers as `Nat`, fallible operations as `Option`/`Except`.  Regular
expression searches from the source are modelled as explicit left-to-right
scanning functions.  Network effects are modelled by passing explicit
response values / oracles.
-/

set_option maxHeartbeats 1000000

abbrev Str := List Char

/-- Whitespace set used to model Python str.strip (ASCII whitespace). -/
def pyWs (c : Char) : Bool :=
  c = ' ' || c = '\t' || c = '\n' || c = '\r' || c = '\x0b' || c = '\x0c'

/-- Model of Python str.strip: drop leading and trailing whitespace. -/
def pyStrip (s : Str) : Str :=
  (s.dropWhile pyWs).reverse.dropWhile pyWs |>.reverse

/-- ASCII lower-casing of one character (model of str.lower on ASCII data). -/
def lowerChar (c : Char) : Char :=
  if 'A' ≤ c ∧ c ≤ 'Z' then Char.ofNat (c.toNat + 32) else c

/-- ASCII lower-casing of a string. -/
def lowerAscii (s : Str) : Str := s.map lowerChar

/-- ASCII upper-casing of one character (model of str.upper on ASCII data). -/
def upperChar (c : Char) : Char :=
  if 'a' ≤ c ∧ c ≤ 'z' then Char.ofNat (c.toNat - 32) else c

/-- ASCII upper-casing of a string. -/
def upperAscii (s : Str) : Str := s.map upperChar

/-- Decidable test for an ASCII decimal digit, modelling the regex class \d. -/
def isDig (c : Char) : Bool := '0' ≤ c && c ≤ '9'

/-- Separator class [.-] from the date regex of the source. -/
def isSep (c : Char) : Bool := c = '.' || c = '-'

/-- Attempt to match the source's date regex (\d«4»)[.-](\d«2»)[.-](\d«2»)
at the head of the string, returning (year, month, day) digit groups. -/
def matchDateAt : Str → Option (Str × Str × Str)
  | y1 :: y2 :: y3 :: y4 :: s1 :: m1 :: m2 :: s2 :: d1 :: d2 :: _ =>
    if isDig y1 && isDig y2 && isDig y3 && isDig y4 && isSep s1 &&
       isDig m1 && isDig m2 && isSep s2 && isDig d1 && isDig d2 then
      some ([y1, y2, y3, y4], [m1, m2], [d1, d2])
    else none
  | _ => none

/-- Leftmost match of the date regex, as performed by re.search. -/
def dateSearch : Str → Option (Str × Str × Str)
  | [] => none
  | c :: rest =>
    match matchDateAt (c :: rest) with
    | some r => some r
    | none => dateSearch rest

/-- Attempt to match the time regex (\d«2»):(\d«2»)(?::(\d«2»))? at the head
of the string; the seconds group is optional (greedy). -/
def matchTimeAt : Str → Option (Str × Str × Option Str)
  | h1 :: h2 :: c1 :: m1 :: m2 :: rest =>
    if isDig h1 && isDig h2 && c1 = ':' && isDig m1 && isDig m2 then
      match rest with
      | c2 :: s1 :: s2 :: _ =>
        if c2 = ':' && isDig s1 && isDig s2 then
          some ([h1, h2], [m1, m2], some [s1, s2])
        else some ([h1, h2], [m1, m2], none)
      | _ => some ([h1, h2], [m1, m2], none)
    else none
  | _ => none

/-- Leftmost match of the optional time regex over the whole text. -/
def timeSearch : Str → Option (Str × Str × Option Str)
  | [] => none
  | c :: rest =>
    match matchTimeAt (c :: rest) with
    | some r => some r
    | none => timeSearch rest

/-- Model of parse_datetime (src/main.py lines 71-82): search for a
YYYY[.-]MM[.-]DD date; if found, search for an optional hh:mm[:ss] time
anywhere in the text, default seconds to 00, default the time to midnight,
and attach the fixed +09:00 offset. -/
def parse_datetime (s : Str) : Option Str :=
  match dateSearch s with
  | none => none
  | some (y, m, d) =>
    match timeSearch s with
    | some (hh, mm, ss) =>
      some (y ++ '-' :: m ++ '-' :: d ++ 'T' :: hh ++ ':' :: mm ++ ':' ::
        ss.getD ['0', '0'] ++ "+09:00".toList)
    | none =>
      some (y ++ '-' :: m ++ '-' :: d ++ "T00:00:00+09:00".toList)

/-- Model of normalize_date_key (src/main.py lines 85-91): empty input maps
to the empty key; otherwise the leftmost YYYY-MM-DD match, falling back to
the first ten characters. -/
def matchDashDateAt : Str → Option Str
  | y1 :: y2 :: y3 :: y4 :: s1 :: m1 :: m2 :: s2 :: d1 :: d2 :: _ =>
    if isDig y1 && isDig y2 && isDig y3 && isDig y4 && s1 = '-' &&
       isDig m1 && isDig m2 && s2 = '-' && isDig d1 && isDig d2 then
      some [y1, y2, y3, y4, s1, m1, m2, s2, d1, d2]
    else none
  | _ => none

/-- Leftmost match of the plain dashed-date regex \d«4»-\d«2»-\d«2». -/
def dashDateSearch : Str → Option Str
  | [] => none
  | c :: rest =>
    match matchDashDateAt (c :: rest) with
    | some r => some r
    | none => dashDateSearch rest

/-- Model of normalize_date_key: day-precision key of a stored timestamp. -/
def normalize_date_key (o : Option Str) : Str :=
  match o with
  | none => []
  | some s =>
    if s = [] then []
    else
      match dashDateSearch s with
      | some m => m
      | none => s.take 10

/-- Model of parse_int (src/main.py lines 145-149): strip non-digits and
parse the remaining digits, absent when no digit remains. -/
def digitsToNat (s : Str) : Nat :=
  s.foldl (fun a c => a * 10 + (c.toNat - 48)) 0

/-- Model of parse_int from the source. -/
def parse_int (s : Str) : Option Nat :=
  let ds := s.filter isDig
  if ds = [] then none else some (digitsToNat ds)

/-! URL machinery: models of the urllib.parse primitives used by
normalize_detail_url and is_detail_url. -/

/-- Hexadecimal value of a character, as used by percent-decoding. -/
def hexVal (c : Char) : Option Nat :=
  if '0' ≤ c && c ≤ '9' then some (c.toNat - 48)
  else if 'a' ≤ c && c ≤ 'f' then some (c.toNat - 87)
  else if 'A' ≤ c && c ≤ 'F' then some (c.toNat - 55)
  else none

/-- Uppercase hexadecimal digit for a value below 16 (percent-encoding). -/
def hexDigitChar (n : Nat) : Char :=
  if n < 10 then Char.ofNat (48 + n) else Char.ofNat (55 + n)

/-- UTF-8 encoding of one code point, as a list of byte values. -/
def utf8EncodeChar (n : Nat) : List Nat :=
  if n < 0x80 then [n]
  else if n < 0x800 then [0xC0 + n / 64, 0x80 + n % 64]
  else if n < 0x10000 then [0xE0 + n / 4096, 0x80 + (n / 64) % 64, 0x80 + n % 64]
  else [0xF0 + n / 262144, 0x80 + (n / 4096) % 64, 0x80 + (n / 64) % 64, 0x80 + n % 64]

/-- Continuation-byte test for UTF-8 decoding. -/
def utf8Cont (b : Nat) : Bool := 0x80 ≤ b && b < 0xC0

/-- Replacement character emitted for invalid byte sequences. -/
def replChar : Char := Char.ofNat 0xFFFD

/-- UTF-8 decoding with replacement of invalid sequences (model of
bytes.decode with errors replace): on an invalid byte the decoder emits one
replacement character for the consumed prefix and resumes at the offending
byte. -/
def utf8Decode : List Nat → List Char
  | [] => []
  | b0 :: rest =>
    if b0 < 0x80 then Char.ofNat b0 :: utf8Decode rest
    else if b0 < 0xC2 then replChar :: utf8Decode rest
    else if b0 < 0xE0 then
      match rest with
      | b1 :: rest1 =>
        if utf8Cont b1 then
          Char.ofNat ((b0 - 0xC0) * 64 + (b1 - 0x80)) :: utf8Decode rest1
        else replChar :: utf8Decode (b1 :: rest1)
      | [] => [replChar]
    else if b0 < 0xF0 then
      match rest with
      | b1 :: rest1 =>
        if (if b0 = 0xE0 then 0xA0 ≤ b1 && b1 < 0xC0
            else if b0 = 0xED then 0x80 ≤ b1 && b1 < 0xA0
            else utf8Cont b1) then
          match rest1 with
          | b2 :: rest2 =>
            if utf8Cont b2 then
              Char.ofNat ((b0 - 0xE0) * 4096 + (b1 - 0x80) * 64 + (b2 - 0x80)) ::
                utf8Decode rest2
            else replChar :: utf8Decode (b2 :: rest2)
          | [] => [replChar]
        else replChar :: utf8Decode (b1 :: rest1)
      | [] => [replChar]
    else if b0 < 0xF5 then
      match rest with
      | b1 :: rest1 =>
        if (if b0 = 0xF0 then 0x90 ≤ b1 && b1 < 0xC0
            else if b0 = 0xF4 then 0x80 ≤ b1 && b1 < 0x90
            else utf8Cont b1) then
          match rest1 with
          | b2 :: rest2 =>
            if utf8Cont b2 then
              match rest2 with
              | b3 :: rest3 =>
                if utf8Cont b3 then
                  Char.ofNat ((b0 - 0xF0) * 262144 + (b1 - 0x80) * 4096 +
                    (b2 - 0x80) * 64 + (b3 - 0x80)) :: utf8Decode rest3
                else replChar :: utf8Decode (b3 :: rest3)
              | [] => [replChar]
            else replChar :: utf8Decode (b2 :: rest2)
          | [] => [replChar]
        else replChar :: utf8Decode (b1 :: rest1)
      | [] => [replChar]
    else replChar :: utf8Decode rest

/-- Byte stream of a percent-encoded string: a percent followed by two hex
digits yields that byte, any other character contributes its UTF-8 bytes
(model of urllib.parse.unquote's conversion to bytes before decoding). -/
def pctBytes : Str → List Nat
  | [] => []
  | c :: rest =>
    if c = '%' then
      match rest with
      | h1 :: h2 :: rest2 =>
        (match hexVal h1, hexVal h2 with
         | some a, some b => (a * 16 + b) :: pctBytes rest2
         | _, _ => utf8EncodeChar c.toNat ++ pctBytes (h1 :: h2 :: rest2))
      | [h1] => utf8EncodeChar c.toNat ++ utf8EncodeChar h1.toNat
      | [] => utf8EncodeChar c.toNat
    else utf8EncodeChar c.toNat ++ pctBytes rest

/-- Model of urllib.parse.unquote with UTF-8 and errors replace. -/
def pyUnquote (s : Str) : Str := utf8Decode (pctBytes s)

/-- Plus-to-space replacement done before unquoting in parse_qsl. -/
def plusToSpace (s : Str) : Str := s.map (fun c => if c = '+' then ' ' else c)

/-- Model of urllib.parse.unquote_plus. -/
def unquote_plus (s : Str) : Str := pyUnquote (plusToSpace s)

/-- ASCII letter test. -/
def isAsciiAlpha (c : Char) : Bool :=
  ('a' ≤ c && c ≤ 'z') || ('A' ≤ c && c ≤ 'Z')

/-- Characters never percent-encoded by urllib.parse.quote. -/
def isQuoteSafe (c : Char) : Bool :=
  isAsciiAlpha c || isDig c || c = '_' || c = '.' || c = '-' || c = '~'

/-- Percent-encoding of one byte, uppercase hex. -/
def pctEncByte (b : Nat) : Str := ['%', hexDigitChar (b / 16), hexDigitChar (b % 16)]

/-- Encoding of one character by quote_plus with empty safe set. -/
def quoteChar (c : Char) : Str :=
  if c = ' ' then ['+']
  else if isQuoteSafe c then [c]
  else (utf8EncodeChar c.toNat).flatMap pctEncByte

/-- Model of urllib.parse.quote_plus with safe set empty, as used by
urlencode. -/
def quote_plus (s : Str) : Str := s.flatMap quoteChar

/-- Split a string at the first character satisfying p; the second
component is none when no such character occurs. -/
def splitAtFirst (p : Char → Bool) : Str → Str × Option Str
  | [] => ([], none)
  | c :: rest =>
    if p c then ([], some rest)
    else
      let r := splitAtFirst p rest
      (c :: r.1, r.2)

/-- Split a string at the last occurrence of a character: returns (a, b)
with s = a ++ ch :: b and ch not in b, or none when ch does not occur. -/
def splitLast (ch : Char) : Str → Option (Str × Str)
  | [] => none
  | c :: rest =>
    match splitLast ch rest with
    | some (a, b) => some (c :: a, b)
    | none => if c = ch then some ([], rest) else none

/-- Model of Python str.split on a single character: the empty string
yields one empty field. -/
def splitOnChar (ch : Char) : Str → List Str
  | [] => [[]]
  | c :: rest =>
    let r := splitOnChar ch rest
    if c = ch then [] :: r
    else
      match r with
      | h :: t => (c :: h) :: t
      | [] => [[c]]

/-- Valid non-initial scheme characters of urllib (letters, digits, +-.). -/
def isSchemeChar (c : Char) : Bool :=
  isAsciiAlpha c || isDig c || c = '+' || c = '-' || c = '.'

/-- Characters terminating the network-location component. -/
def isNetlocEnd (c : Char) : Bool := c = '/' || c = '?' || c = '#'

/-- Removal of tab, carriage return and line feed done first by urlsplit. -/
def removeUnsafe (s : Str) : Str :=
  s.filter (fun c => !(c = '\t' || c = '\r' || c = '\n'))

/-- Scheme extraction of urlsplit: the text before the first colon is a
scheme when it starts with a letter and continues with scheme characters;
the scheme is lower-cased. -/
def schemeSplit (url : Str) : Str × Str :=
  match splitAtFirst (fun c => c = ':') url with
  | (before, some after) =>
    (match before with
     | c :: rest =>
       if isAsciiAlpha c && rest.all isSchemeChar then (lowerAscii before, after)
       else ([], url)
     | [] => ([], url))
  | (_, none) => ([], url)

/-- Netloc extraction of urlsplit: after a leading //, up to the first
slash, question mark or hash. -/
def netlocSplit (url : Str) : Str × Str :=
  if url.take 2 = ['/', '/'] then
    let rest := url.drop 2
    (rest.takeWhile (fun c => !isNetlocEnd c), rest.dropWhile (fun c => !isNetlocEnd c))
  else ([], url)

/-- Split at the first occurrence of ch, keeping everything when absent. -/
def cutAtFirst (ch : Char) (url : Str) : Str × Str :=
  match splitAtFirst (fun c => c = ch) url with
  | (a, some b) => (a, b)
  | (a, none) => (a, [])

/-- Result of urlsplit. -/
structure PySplit where
  scheme : Str
  netloc : Str
  path : Str
  query : Str
  fragment : Str
deriving DecidableEq, Repr

/-- Model of urllib.parse.urlsplit with fragments allowed: remove unsafe
bytes, split scheme, netloc, fragment, then query. -/
def pyUrlsplit (url0 : Str) : PySplit :=
  let url1 := removeUnsafe url0
  let sp := schemeSplit url1
  let np := netlocSplit sp.2
  let fp := cutAtFirst '#' np.2
  let qp := cutAtFirst '?' fp.1
  ⟨sp.1, np.1, qp.1, qp.2, fp.2⟩

/-- Schemes for which urlparse splits path parameters. -/
def usesParams : List Str :=
  ["", "ftp", "hdl", "prospero", "http", "imap", "https", "shttp", "rtsp",
   "rtspu", "sip", "sips", "mms", "sftp", "tel"].map String.toList

/-- Model of the params split of urlparse: parameters follow the first
semicolon of the last path segment. -/
def splitparams (url : Str) : Str × Str :=
  match splitLast '/' url with
  | some (a, b) =>
    (match splitAtFirst (fun c => c = ';') b with
     | (b1, some b2) => (a ++ '/' :: b1, b2)
     | (_, none) => (url, []))
  | none =>
    (match splitAtFirst (fun c => c = ';') url with
     | (u1, some u2) => (u1, u2)
     | (_, none) => (url, []))

/-- Result of urlparse. -/
structure PyURL where
  scheme : Str
  netloc : Str
  path : Str
  params : Str
  query : Str
  fragment : Str
deriving DecidableEq, Repr

/-- Model of urllib.parse.urlparse. -/
def pyUrlparse (u : Str) : PyURL :=
  let s := pyUrlsplit u
  if s.scheme ∈ usesParams ∧ ';' ∈ s.path then
    let pr := splitparams s.path
    ⟨s.scheme, s.netloc, pr.1, pr.2, s.query, s.fragment⟩
  else ⟨s.scheme, s.netloc, s.path, [], s.query, s.fragment⟩

/-- Model of urllib.parse.parse_qsl with default options: split on
ampersands, drop fields without an equals sign or with an empty raw value,
then unquote names and values. -/
def parse_qsl (qs : Str) : List (Str × Str) :=
  (splitOnChar '&' qs).foldr (fun nv acc =>
    if nv = [] then acc
    else
      match splitAtFirst (fun c => c = '=') nv with
      | (_, none) => acc
      | (k, some v) =>
        if v = [] then acc else (unquote_plus k, unquote_plus v) :: acc) []

/-- Insertion into an association list grouping values by key, preserving
first-occurrence key order (model of dict insertion in parse_qs). -/
def groupInsert (k v : Str) : List (Str × List Str) → List (Str × List Str)
  | [] => [(k, [v])]
  | (k2, vs) :: rest =>
    if k2 = k then (k2, vs ++ [v]) :: rest else (k2, vs) :: groupInsert k v rest

/-- Model of urllib.parse.parse_qs. -/
def parse_qs (qs : Str) : List (Str × List Str) :=
  (parse_qsl qs).foldl (fun acc kv => groupInsert kv.1 kv.2 acc) []

/-- Lookup in the grouped query (model of dict indexing). -/
def qsLookup (k : Str) : List (Str × List Str) → Option (List Str)
  | [] => none
  | (k2, vs) :: rest => if k2 = k then some vs else qsLookup k rest

/-- Code-point lexicographic order on strings (Python string comparison). -/
def lexLe : Str → Str → Bool
  | [], _ => true
  | _ :: _, [] => false
  | a :: as, b :: bs => if a < b then true else if a = b then lexLe as bs else false

/-- The order as a decidable relation, for sorting. -/
def lexLeP (a b : Str) : Prop := lexLe a b = true

instance : DecidableRel lexLeP := fun a b => instDecidableEqBool (lexLe a b) true

/-- Model of Python sorted on a list of strings. -/
def sortStrs (l : List Str) : List Str := List.insertionSort lexLeP l

instance : IsTotal Str lexLeP :=
  ⟨fun a b => by
    unfold lexLeP
    induction a generalizing b with
    | nil => exact Or.inl rfl
    | cons x xs ih =>
      cases b with
      | nil => exact Or.inr rfl
      | cons y ys =>
        by_cases hxy : x < y
        · exact Or.inl (by simp [lexLe, hxy])
        · by_cases hyx : y < x
          · exact Or.inr (by simp [lexLe, hyx])
          · have hxy2 : x = y := le_antisymm (not_lt.mp hyx) (not_lt.mp hxy)
            subst hxy2
            rcases ih ys with h | h
            · exact Or.inl (by simp [lexLe, lt_irrefl, h])
            · exact Or.inr (by simp [lexLe, lt_irrefl, h])⟩

instance : IsTrans Str lexLeP :=
  ⟨fun a b c h1 h2 => by
    unfold lexLeP at h1 h2 ⊢
    induction a generalizing b c with
    | nil => rfl
    | cons x xs ih =>
      cases b with
      | nil => simp [lexLe] at h1
      | cons y ys =>
        cases c with
        | nil => simp [lexLe] at h2
        | cons z zs =>
          by_cases hxy : x < y
          · by_cases hyz : y < z
            · simp [lexLe, lt_trans hxy hyz]
            · by_cases hyz2 : y = z
              · subst hyz2
                simp [lexLe, hxy]
              · simp [lexLe, hyz, hyz2] at h2
          · by_cases hxy2 : x = y
            · subst hxy2
              have h1b : lexLe xs ys = true := by
                simpa [lexLe, lt_irrefl] using h1
              by_cases hxz : x < z
              · simp [lexLe, hxz]
              · by_cases hxz2 : x = z
                · subst hxz2
                  have h2b : lexLe ys zs = true := by
                    simpa [lexLe, lt_irrefl] using h2
                  simp [lexLe, lt_irrefl, ih ys zs h1b h2b]
                · simp [lexLe, hxz, hxz2] at h2
            · simp [lexLe, hxy, hxy2] at h1⟩

/-- Listing-only query keys dropped by normalize_detail_url. -/
def dropKeys : List Str := ["introPkId", "option", "page"].map String.toList

/-- Sorted, filtered groups of the parsed query, as iterated by
normalize_detail_url. -/
def buildQueryGroups (g : List (Str × List Str)) : List (Str × List Str) :=
  ((sortStrs (g.map Prod.fst)).filter (fun k => k ∉ dropKeys)).map
    (fun k => (k, (qsLookup k g).getD []))

/-- Flat key-value list submitted to urlencode by normalize_detail_url. -/
def buildQueryItems (g : List (Str × List Str)) : List (Str × Str) :=
  (buildQueryGroups g).flatMap (fun kv => kv.2.map (fun v => (kv.1, v)))

/-- Join of encoded key-value fields on an ampersand (str.join model). -/
def joinChar (ch : Char) : List Str → Str
  | [] => []
  | [p] => p
  | p :: ps => p ++ ch :: joinChar ch ps

/-- Model of urllib.parse.urlencode with doseq on string values. -/
def urlencodeItems (items : List (Str × Str)) : Str :=
  joinChar '&' (items.map (fun kv => quote_plus kv.1 ++ '=' :: quote_plus kv.2))

/-- Model of urllib.parse.urlunsplit. -/
def urlunsplit (scheme netloc path query fragment : Str) : Str :=
  let u1 :=
    if netloc ≠ [] ∨ (path ≠ [] ∧ path.take 2 = ['/', '/']) then
      '/' :: '/' :: netloc ++ (if path ≠ [] ∧ path.take 1 ≠ ['/'] then '/' :: path else path)
    else path
  let u2 := if scheme ≠ [] then scheme ++ ':' :: u1 else u1
  let u3 := if query ≠ [] then u2 ++ '?' :: query else u2
  if fragment ≠ [] then u3 ++ '#' :: fragment else u3

/-- Model of urllib.parse.urlunparse. -/
def urlunparse (scheme netloc path params query fragment : Str) : Str :=
  urlunsplit scheme netloc (if params ≠ [] then path ++ ';' :: params else path)
    query fragment

/-- Fixed source listing URL of the crawler. -/
def baseUrlStr : Str := "https://www.sogang.ac.kr/ko/scholarship-notice".toList

/-- Exact placeholder strings rejected by normalize_detail_url. -/
def rejectExact : List Str :=
  ["#", "#/", "javascript:void(0)", "javascript:void(0);"].map String.toList

/-- Schemes rejected by normalize_detail_url after parsing. -/
def rejectSchemes : List Str := ["javascript", "mailto", "tel", "data"].map String.toList

/-- Scheme prefixes rejected by normalize_detail_url before parsing. -/
def rejectPrefixes : List Str :=
  ["javascript:", "mailto:", "tel:", "data:"].map String.toList

/-- Model of normalize_detail_url (src/main.py lines 94-123): reject empty
and non-navigational inputs, resolve protocol-relative and root-relative
URLs against the fixed origin, drop listing-only query keys, sort the rest
by key, and rebuild the URL without params and fragment. -/
def normalize_detail_url (raw : Option Str) : Option Str :=
  match raw with
  | none => none
  | some r0 =>
    if r0 = [] then none
    else
      let r := pyStrip r0
      let low := lowerAscii r
      if low ∈ rejectExact then none
      else if rejectPrefixes.any (fun p => p.isPrefixOf low) then none
      else
        let r2 := if ['/', '/'].isPrefixOf r then "https:".toList ++ r else r
        let p := pyUrlparse r2
        if p.scheme ∈ rejectSchemes then none
        else
          let pp? :=
            if p.scheme = [] ∨ p.netloc = [] then
              if ['/'].isPrefixOf r2 then
                let base := pyUrlparse baseUrlStr
                some (pyUrlparse (base.scheme ++ ':' :: '/' :: '/' :: base.netloc ++ r2))
              else none
            else some p
          match pp? with
          | none => none
          | some pp =>
            let items := buildQueryItems (parse_qs pp.query)
            some (urlunparse pp.scheme pp.netloc pp.path [] (urlencodeItems items) [])

/-- Match of the regex /detail/\d+ at the head of the string. -/
def detailPathAt : Str → Bool
  | '/' :: 'd' :: 'e' :: 't' :: 'a' :: 'i' :: 'l' :: '/' :: c :: _ => isDig c
  | _ => false

/-- Leftmost search of the regex /detail/\d+. -/
def detailPathSearch : Str → Bool
  | [] => false
  | c :: rest => detailPathAt (c :: rest) || detailPathSearch rest

/-- Model of is_detail_url (src/main.py lines 126-134). -/
def is_detail_url (u : Str) : Bool :=
  if u = [] then false
  else
    let p := pyUrlparse u
    detailPathSearch p.path ||
      (parse_qs p.query).any (fun kv => kv.1 = "bbsConfigFk".toList)

/-! Row extraction: the per-row bodies of parse_rows (static mode) and
extract_list_rows (interactive mode).  The HTML / DOM dissection that
produces the cell texts and link candidates is taken as input. -/

/-- Python truthiness of an optional string. -/
def optTruthy : Option Str → Bool
  | some s => !s.isEmpty
  | none => false

/-- Record produced by the static extraction path (parse_rows item). -/
structure StaticItem where
  title : Str
  author : Str
  date : Str
  views : Nat
  top : Bool
  url : Option Str
deriving DecidableEq, Repr

/-- Model of the per-row body of parse_rows (src/main.py lines 157-190),
given the cleaned cell texts and the detail URL extracted from the row
markup: rows with fewer than five cells, an unparseable date, unparseable
views or an empty title are dropped. -/
def staticRowStep (cleaned : List Str) (rowUrl : Option Str) : Option StaticItem :=
  if cleaned.length < 5 then none
  else
    let numOrTop := cleaned.headD []
    let title := (cleaned.drop 1).headD []
    let author := (cleaned.drop 2).headD []
    let dateText := (cleaned.drop (cleaned.length - 2)).headD []
    let viewsText := (cleaned.drop (cleaned.length - 1)).headD []
    match parse_datetime dateText, parse_int viewsText with
    | some dateIso, some views =>
      if title = [] then none
      else
        some ⟨title, author, dateIso, views,
          upperAscii (pyStrip numOrTop) = "TOP".toList, rowUrl⟩
    | _, _ => none

/-- Record produced by the interactive extraction path (extract_list_rows
item); its date is optional and it carries DOM bookkeeping fields. -/
structure InterItem where
  title : Str
  author : Str
  date : Option Str
  views : Nat
  top : Bool
  row_index : Nat
  detail_url : Option Str
deriving DecidableEq, Repr

/-- First row link whose normalized form qualifies as a detail URL
(src/main.py lines 262-273). -/
def firstDetailHref : List (Option Str) → Option Str
  | [] => none
  | none :: rest => firstDetailHref rest
  | some h :: rest =>
    if h = [] then firstDetailHref rest
    else
      match normalize_detail_url (some h) with
      | some c => if c ≠ [] ∧ is_detail_url c then some c else firstDetailHref rest
      | none => firstDetailHref rest

/-- Model of the per-row body of extract_list_rows (src/main.py lines
243-284), given the raw cell texts, the href attributes of the row links
and the row index: rows with fewer than five cells, an empty title or
unparseable views are dropped; an unparseable date is kept as absent. -/
def interRowStep (cells : List Str) (hrefs : List (Option Str)) (index : Nat) :
    Option InterItem :=
  if cells.length < 5 then none
  else
    let numOrTop := pyStrip (cells.headD [])
    let title := pyStrip ((cells.drop 1).headD [])
    let author := pyStrip ((cells.drop 2).headD [])
    let dateText := pyStrip ((cells.drop (cells.length - 2)).headD [])
    let viewsText := pyStrip ((cells.drop (cells.length - 1)).headD [])
    let dateIso := parse_datetime dateText
    match parse_int viewsText with
    | none => none
    | some views =>
      if title = [] then none
      else
        some ⟨title, author, dateIso, views,
          upperAscii (pyStrip numOrTop) = "TOP".toList, index, firstDetailHref hrefs⟩

/-! Identity resolution against the mirror (find_existing_page) and the
create-or-update decision of the main loop. -/

/-- A mirror document, reduced to the fields identity resolution reads. -/
structure NotionPage where
  id : Str
  urlProp : Option Str
  titleText : Str
  dateStart : Option Str
deriving DecidableEq, Repr

/-- Mirror query filtering on URL equality. -/
def queryByUrl (db : List NotionPage) (u : Str) : List NotionPage :=
  db.filter fun p => decide (p.urlProp = some u)

/-- Mirror query filtering on title equality. -/
def queryByTitle (db : List NotionPage) (t : Str) : List NotionPage :=
  db.filter fun p => decide (p.titleText = t)

/-- Mirror query filtering on title and date equality. -/
def queryByTitleDate (db : List NotionPage) (t d : Str) : List NotionPage :=
  db.filter fun p => decide (p.titleText = t ∧ p.dateStart = some d)

/-- Log events emitted by identity resolution. -/
inductive SyncLog
  | ambiguousUrl (u : Str)
  | ambiguousTitleDate (t d : Str)
deriving DecidableEq, Repr

/-- Third lookup tier: title alone, accepted only on a unique match; an
ambiguous result falls through to no match without a log. -/
def findTier3 (db : List NotionPage) (title : Str) : Option Str × List SyncLog :=
  if title ≠ [] then
    match queryByTitle db title with
    | [p] => (some p.id, [])
    | _ => (none, [])
  else (none, [])

/-- Second lookup tier: title plus exact date; more than one match aborts
resolution with a log, zero matches falls through to the third tier. -/
def findTier2 (db : List NotionPage) (title : Str) (dateIso : Option Str) :
    Option Str × List SyncLog :=
  match dateIso with
  | some d =>
    if title ≠ [] ∧ d ≠ [] then
      match queryByTitleDate db title d with
      | [p] => (some p.id, [])
      | [] => findTier3 db title
      | _ :: _ :: _ => (none, [SyncLog.ambiguousTitleDate title d])
    else findTier3 db title
  | none => findTier3 db title

/-- Model of find_existing_page (src/main.py lines 809-853): three-tier
lookup; each tier is accepted on a unique match, more than one match at
the URL or title-date tier aborts with a log, zero matches falls through. -/
def find_existing_page (db : List NotionPage) (detailUrl : Option Str)
    (title : Str) (dateIso : Option Str) : Option Str × List SyncLog :=
  match detailUrl with
  | some u =>
    if u ≠ [] then
      match queryByUrl db u with
      | [p] => (some p.id, [])
      | [] => findTier2 db title dateIso
      | _ :: _ :: _ => (none, [SyncLog.ambiguousUrl u])
    else findTier2 db title dateIso
  | none => findTier2 db title dateIso

/-- Action the main loop takes for one record. -/
inductive SyncAction
  | create
  | update (pid : Str)
deriving DecidableEq, Repr

/-- Model of the create-or-update decision in main (src/main.py lines
979-993): an existing page id leads to an update, no page id to a create. -/
def syncDecision (db : List NotionPage) (url : Option Str) (title : Str)
    (dateIso : Option Str) : SyncAction :=
  match (find_existing_page db url title dateIso).1 with
  | some pid => SyncAction.update pid
  | none => SyncAction.create

/-! Mirror schema pre-flight: ensure_url_property and
validate_required_properties, with the schema writes they perform. -/

/-- Notion property types relevant to the pre-flight. -/
inductive NType
  | title | checkbox | date | select | url | number | richText | other
deriving DecidableEq, Repr

/-- A mirror database schema: property name to property type. -/
structure DBSchema where
  props : List (Str × NType)
deriving DecidableEq, Repr

/-- Lookup of a property's type in the schema. -/
def getPropType (db : DBSchema) (name : Str) : Option NType :=
  ((db.props.find? fun kv => decide (kv.1 = name)).map Prod.snd)

/-- Property-name constants of the source. -/
def TITLE_PROPERTY : Str := "제목".toList

/-- Author property name. -/
def AUTHOR_PROPERTY : Str := "작성자".toList

/-- Date property name. -/
def DATE_PROPERTY : Str := "작성일".toList

/-- Pinned checkbox property name. -/
def TOP_PROPERTY : Str := "TOP".toList

/-- URL property name. -/
def URL_PROPERTY : Str := "URL".toList

/-- Views property name. -/
def VIEWS_PROPERTY : Str := "조회수".toList

/-- Writes performed against the mirror during pre-flight. -/
inductive MirrorWrite
  | schemaWrite
deriving DecidableEq, Repr

/-- Errors raised by the schema pre-flight. -/
inductive SchemaErr
  | missing (name : Str)
  | mismatch (name : Str)
deriving DecidableEq, Repr

/-- Effect of the update_database call that adds the URL property. -/
def addUrlProperty (db : DBSchema) : DBSchema :=
  ⟨db.props ++ [(URL_PROPERTY, NType.url)]⟩

/-- Model of ensure_url_property (src/main.py lines 641-648): a present
URL property of the wrong type is fatal; a missing URL property is added
by a schema write and the run continues. -/
def ensure_url_property (db : DBSchema) :
    Except SchemaErr (DBSchema × List MirrorWrite) :=
  match getPropType db URL_PROPERTY with
  | some t =>
    if t ≠ NType.url then Except.error (SchemaErr.mismatch URL_PROPERTY)
    else Except.ok (db, [])
  | none => Except.ok (addUrlProperty db, [MirrorWrite.schemaWrite])

/-- Model of require_property_type (src/main.py lines 651-661). -/
def require_property_type (db : DBSchema) (name : Str) (expected : NType) :
    Except SchemaErr Unit :=
  match getPropType db name with
  | none => Except.error (SchemaErr.missing name)
  | some t =>
    if t ≠ expected then Except.error (SchemaErr.mismatch name) else Except.ok ()

/-- Model of validate_required_properties (src/main.py lines 664-669). -/
def validate_required_properties (db : DBSchema) : Except SchemaErr Unit := do
  require_property_type db TITLE_PROPERTY NType.title
  require_property_type db TOP_PROPERTY NType.checkbox
  require_property_type db DATE_PROPERTY NType.date
  require_property_type db AUTHOR_PROPERTY NType.select
  require_property_type db URL_PROPERTY NType.url

/-- The schema pre-flight of main (src/main.py lines 949-951): fetch is
taken as input, then ensure_url_property and validate_required_properties
run in order; the first component records the mirror writes performed. -/
def schemaPreflight (db : DBSchema) : List MirrorWrite × Except SchemaErr DBSchema :=
  match ensure_url_property db with
  | Except.error e => ([], Except.error e)
  | Except.ok (db2, w) =>
    match validate_required_properties db2 with
    | Except.error e => (w, Except.error e)
    | Except.ok _ => (w, Except.ok db2)

/-! Author-option enrichment: sanitize_select_options and
ensure_select_option. -/

/-- One choice of a select property. -/
structure SelOption where
  name : Option Str
  id : Option Str
  color : Option Str
deriving DecidableEq, Repr

/-- Model of sanitize_select_options (src/main.py lines 720-733): options
without a truthy name are dropped; id and color are kept when truthy. -/
def sanitize_select_options (l : List SelOption) : List SelOption :=
  l.filterMap fun o =>
    match o.name with
    | some n =>
      if n = [] then none
      else
        some ⟨some n, if optTruthy o.id then o.id else none,
          if optTruthy o.color then o.color else none⟩
    | none => none

/-- Names present in a list of options. -/
def selNames (l : List SelOption) : List Str := l.filterMap fun o => o.name

/-- Model of ensure_select_option (src/main.py lines 736-756): returns the
new cache and, when an update was submitted, its options payload. -/
def ensure_select_option (optionName : Str) (optionsCache : List SelOption) :
    List SelOption × Option (List SelOption) :=
  if optionName = [] then (optionsCache, none)
  else
    let sanitized := sanitize_select_options optionsCache
    if optionName ∈ selNames sanitized then (optionsCache, none)
    else
      let updated := sanitized ++ [⟨some optionName, none, none⟩]
      (updated, some updated)

/-! Retry policy of notion_request. -/

/-- Response of one attempt of the remote call: success, an HTTP error
with the optional raw Retry-After header text, or a transport error. -/
inductive NetResp (α : Type)
  | ok (v : α)
  | httpErr (code : Nat) (retryAfter : Option Str)
  | netErr
deriving DecidableEq, Repr

/-- Status codes retried by notion_request: exactly 429, 500, 502, 503 and
504 (src/main.py line 579); any other status, including other 5xx codes,
is not retried. -/
def retryableCode (c : Nat) : Bool :=
  c = 429 || c = 500 || c = 502 || c = 503 || c = 504

/-- Python str.isdigit: nonempty and all decimal digits. -/
def pyIsDigit : Str → Bool
  | [] => false
  | c :: rest => (c :: rest).all isDig

/-- Sleep chosen for a retryable failure (src/main.py lines 582-585): the
integral Retry-After value when the header is present, truthy and all
digits, the current backoff otherwise (so a non-integral Retry-After such
as 2.5 falls back to the backoff). -/
def retrySleep (ra : Option Str) (backoff : Nat) : Nat :=
  match ra with
  | some s => if pyIsDigit s then digitsToNat s else backoff
  | none => backoff

/-- Fatal failure surfaced by notion_request. -/
inductive ReqFail
  | http (code : Nat)
  | net
deriving DecidableEq, Repr

/-- Outcome of notion_request: the result, the sleeps performed in order,
and the index of the attempt on which the call finished. -/
structure ReqOutcome (α : Type) where
  result : Except ReqFail α
  sleeps : List Nat
  retries : Nat
deriving Repr

/-- Attempt loop of notion_request (src/main.py lines 556-607), with the
per-attempt responses supplied as a function: on a retryable HTTP status
with attempts left, sleep the Retry-After value when that header is a
digit string and the current backoff otherwise, then double the backoff
capping at 8; transport errors are retried with the backoff; anything
else is fatal. -/
def notionAttempt (resp : Nat → NetResp α) :
    Nat → Nat → Nat → List Nat → ReqOutcome α
  | 0, attempt, _, acc => ⟨Except.error ReqFail.net, acc.reverse, attempt⟩
  | fuel + 1, attempt, backoff, acc =>
    match resp attempt with
    | NetResp.ok v => ⟨Except.ok v, acc.reverse, attempt⟩
    | NetResp.httpErr code ra =>
      if retryableCode code ∧ attempt < 3 then
        notionAttempt resp fuel (attempt + 1) (min (backoff * 2) 8)
          (retrySleep ra backoff :: acc)
      else ⟨Except.error (ReqFail.http code), acc.reverse, attempt⟩
    | NetResp.netErr =>
      if attempt < 3 then
        notionAttempt resp fuel (attempt + 1) (min (backoff * 2) 8) (backoff :: acc)
      else ⟨Except.error ReqFail.net, acc.reverse, attempt⟩

/-- Model of notion_request: up to three retries beyond the first attempt,
initial backoff one time unit. -/
def notion_request (resp : Nat → NetResp α) : ReqOutcome α :=
  notionAttempt resp 4 0 1 []

/-! Pagination loops of crawl_top_items_http and crawl_top_items. -/

/-- Deduplication key of the HTTP loop (src/main.py line 540). -/
def httpItemKey (it : StaticItem) : Str :=
  match it.url with
  | some u => if u = [] then it.title ++ '|' :: it.date else u
  | none => it.title ++ '|' :: it.date

/-- Date enrichment of one pinned item in the HTTP loop (lines 536-539). -/
def enrichHttp (oracle : Str → Option Str) (it : StaticItem) : StaticItem :=
  match it.url with
  | some u =>
    if u = [] then it
    else
      match oracle u with
      | some w => if w = [] then it else { it with date := w }
      | none => it
  | none => it

/-- Per-page processing of pinned items in the HTTP loop, threading the
seen-key set (src/main.py lines 535-545). -/
def processTopsHttp (oracle : Str → Option Str) :
    List StaticItem → List Str → List StaticItem × List Str
  | [], seen => ([], seen)
  | it :: rest, seen =>
    let it2 := enrichHttp oracle it
    let key := httpItemKey it2
    if key ∈ seen then processTopsHttp oracle rest seen
    else
      let r := processTopsHttp oracle rest (seen ++ [key])
      (it2 :: r.1, r.2)

/-- Pagination loop of crawl_top_items_http (src/main.py lines 515-553):
pages are consumed in increasing order; a failed fetch, an empty parse or
a page containing a non-pinned row stops the loop.  Pages beyond the
supplied list are modelled as fetch failures.  Returns the collected items
and the list of page numbers fetched. -/
def crawlHttpGo (oracle : Str → Option Str) :
    List (Option (List StaticItem)) → Nat → List Str → List StaticItem × List Nat
  | [], n, _ => ([], [n])
  | none :: _, n, _ => ([], [n])
  | some rows :: rest, n, seen =>
    if rows = [] then ([], [n])
    else
      let tops := rows.filter fun r => r.top
      let hasNonTop := rows.any fun r => !r.top
      let pr := processTopsHttp oracle tops seen
      if hasNonTop then (pr.1, [n])
      else
        let r := crawlHttpGo oracle rest (n + 1) pr.2
        (pr.1 ++ r.1, n :: r.2)

/-- Model of crawl_top_items_http. -/
def crawl_top_items_http (oracle : Str → Option Str)
    (pages : List (Option (List StaticItem))) : List StaticItem × List Nat :=
  crawlHttpGo oracle pages 1 []

/-- Item collected by the interactive loop, after detail enrichment which
may add a url entry. -/
structure PwItem where
  title : Str
  author : Str
  date : Option Str
  views : Nat
  top : Bool
  row_index : Nat
  detail_url : Option Str
  url : Option Str
deriving DecidableEq, Repr

/-- Detail enrichment of one pinned item in the interactive loop
(src/main.py lines 486-496), given the result of fetch_detail_for_row. -/
def enrichPw (res : Option Str × Option Str) (it : InterItem) : PwItem :=
  let date2 :=
    match res.1 with
    | some w => if w = [] then it.date else some w
    | none => it.date
  let url2 :=
    match res.2 with
    | some d => if d = [] then none else normalize_detail_url (some d)
    | none => none
  ⟨it.title, it.author, date2, it.views, it.top, it.row_index, it.detail_url, url2⟩

/-- Deduplication key of the interactive loop (src/main.py line 497). -/
def pwItemKey (it : PwItem) : Str :=
  match it.url with
  | some u => if u = [] then it.title ++ '|' :: (it.date.getD []) else u
  | none => it.title ++ '|' :: (it.date.getD [])

/-- Per-page processing of pinned items in the interactive loop. -/
def processTopsPw (oracle : Nat → InterItem → Option Str × Option Str) (n : Nat) :
    List InterItem → List Str → List PwItem × List Str
  | [], seen => ([], seen)
  | it :: rest, seen =>
    let p := enrichPw (oracle n it) it
    let key := pwItemKey p
    if key ∈ seen then processTopsPw oracle n rest seen
    else
      let r := processTopsPw oracle n rest (seen ++ [key])
      (p :: r.1, r.2)

/-- Pagination loop of crawl_top_items (src/main.py lines 467-508), with
page loads and detail resolution supplied as inputs; a page-load timeout
is modelled as none, and pages beyond the supplied list load nothing. -/
def crawlPwGo (oracle : Nat → InterItem → Option Str × Option Str) :
    List (Option (List InterItem)) → Nat → List Str → List PwItem × List Nat
  | [], n, _ => ([], [n])
  | none :: _, n, _ => ([], [n])
  | some rows :: rest, n, seen =>
    if rows = [] then ([], [n])
    else
      let tops := rows.filter fun r => r.top
      let hasNonTop := rows.any fun r => !r.top
      let pr := processTopsPw oracle n tops seen
      if hasNonTop then (pr.1, [n])
      else
        let r := crawlPwGo oracle rest (n + 1) pr.2
        (pr.1 ++ r.1, n :: r.2)

/-- Model of crawl_top_items. -/
def crawl_top_items (oracle : Nat → InterItem → Option Str × Option Str)
    (pages : List (Option (List InterItem))) : List PwItem × List Nat :=
  crawlPwGo oracle pages 1 []

/-! Retirement pass: disable_missing_top. -/

/-- A mirror document currently marked pinned, as read by the retirement
pass: its id, the plain-text parts of its title, its stored date start and
its stored URL value. -/
structure TopPage where
  id : Str
  titleParts : List Str
  dateStart : Option Str
  urlValue : Option Str
deriving DecidableEq, Repr

/-- Model of extract_title (src/main.py lines 783-787). -/
def extract_title (p : TopPage) : Str := pyStrip p.titleParts.flatten

/-- Model of extract_date (src/main.py lines 790-798). -/
def extract_date (p : TopPage) : Option Str :=
  match p.dateStart with
  | some s => if s = [] then none else some s
  | none => none

/-- Model of extract_url (src/main.py lines 801-806). -/
def extract_url (p : TopPage) : Option Str :=
  match p.urlValue with
  | some s => if s = [] then none else normalize_detail_url (some s)
  | none => none

/-- Decision of the retirement pass for one pinned document (src/main.py
lines 897-913): true when its pinned flag is cleared. -/
def disableStep (urls : List Str) (dates : List (Str × List Str)) (p : TopPage) :
    Bool :=
  let pu := extract_url p
  if optTruthy pu ∧ urls ≠ [] ∧ pu.getD [] ∈ urls then false
  else
    let title := extract_title p
    if title = [] then false
    else
      let dateKey := normalize_date_key (extract_date p)
      match qsLookup title dates with
      | some tds => if dateKey ∈ tds then false else true
      | none => true

/-- Model of disable_missing_top (src/main.py lines 890-914): the ids of
the pinned documents whose flag is cleared, and their count. -/
def disable_missing_top (pages : List TopPage) (urls : List Str)
    (dates : List (Str × List Str)) : List Str × Nat :=
  let cleared := (pages.filter fun p => disableStep urls dates p).map fun p => p.id
  (cleared, cleared.length)


/-- Stop condition of the HTTP pagination loop at a given fetch slot:
nothing to fetch, a fetch failure, an empty parse, or a non-pinned row. -/
def stopPageHttp : Option (Option (List StaticItem)) → Prop
  | none => True
  | some none => True
  | some (some rows) => rows = [] ∨ ∃ r ∈ rows, r.top = false

/-- Stop condition of the interactive pagination loop at a given slot. -/
def stopPagePw : Option (Option (List InterItem)) → Prop
  | none => True
  | some none => True
  | some (some rows) => rows = [] ∨ ∃ r ∈ rows, r.top = false

/-- All required mirror fields present with their required types. -/
def requiredOk (db : DBSchema) : Prop :=
  getPropType db TITLE_PROPERTY = some NType.title ∧
  getPropType db TOP_PROPERTY = some NType.checkbox ∧
  getPropType db DATE_PROPERTY = some NType.date ∧
  getPropType db AUTHOR_PROPERTY = some NType.select ∧
  getPropType db URL_PROPERTY = some NType.url

/-- Concrete stripped five-cell row used as a witness input. -/
def sampleRowCells : List Str :=
  ["TOP".toList, "Row S".toList, "A".toList, "2024.03.05".toList, "120".toList]

/-- Concrete three-page synthetic listing for the pagination witness: two
all-pinned pages, then a page with a non-pinned row. -/
def samplePagesHttp : List (Option (List StaticItem)) :=
  [some [⟨"a".toList, "x".toList, "2024-01-01T00:00:00+09:00".toList, 1, true, none⟩],
   some [⟨"b".toList, "x".toList, "2024-01-02T00:00:00+09:00".toList, 2, true, none⟩],
   some [⟨"c".toList, "x".toList, "2024-01-03T00:00:00+09:00".toList, 3, false, none⟩]]

/-- Interactive variant of the synthetic listing. -/
def samplePagesPw : List (Option (List InterItem)) :=
  [some [⟨"a".toList, "x".toList, none, 1, true, 0, none⟩],
   some [⟨"b".toList, "x".toList, none, 2, true, 0, none⟩],
   some [⟨"c".toList, "x".toList, none, 3, false, 0, none⟩]]

/-- Mirror document A of the retirement witness, observed by URL. -/
def retireA : TopPage :=
  ⟨"pA".toList, ["A title".toList], none, some "https://h/detail/1".toList⟩

/-- Mirror document B of the retirement witness, not observed. -/
def retireB : TopPage :=
  ⟨"pB".toList, ["T".toList], some "2024-03-05T00:00:00+09:00".toList, none⟩

/-- Observed pinned URLs of the witness run. -/
def retireUrls : List Str := ["https://h/detail/1".toList]

/-- Observed pinned title-to-day-keys of the witness run. -/
def retireDates : List (Str × List Str) := [("A title".toList, ["2024-03-01".toList])]

/-- Well-formedness of a scheme string: a letter followed by scheme
characters. -/
def validScheme (s : Str) : Prop :=
  match s with
  | [] => False
  | c :: rest => isAsciiAlpha c = true ∧ rest.all isSchemeChar = true

/-- The last path segment carries no semicolon. -/
def noSemiLast (p : Str) : Prop :=
  match splitLast '/' p with
  | some (_, b) => ';' ∉ b
  | none => ';' ∉ p

/-- Freedom from the unsafe bytes removed by urlsplit. -/
def cleanStr (s : Str) : Prop := ∀ x ∈ s, x ≠ '\t' ∧ x ≠ '\r' ∧ x ≠ '\n'

/-- Raw link whose normalization is not a fixed point of normalize. -/
def sampleC8 : Str := "https://h/a ?".toList

/-! Theorems. -/

/-- Boolean prefix test agrees with the prefix relation. -/
theorem isPrefixOf_spec {a b : Str} : a.isPrefixOf b = true ↔ a <+: b :=
  List.isPrefixOf_iff_prefix

/-- Membership of the headD of a dropped list in the original list. -/
theorem headD_drop_mem (l : List Str) (k : Nat) (h : k < l.length) :
    (l.drop k).headD [] ∈ l := by
  cases e : l.drop k with
  | nil =>
    have := List.drop_eq_nil_iff.mp e
    omega
  | cons a t =>
    have ha : a ∈ l.drop k := by rw [e]; exact List.mem_cons_self a t
    simpa using List.drop_subset k l ha

/-- C7: for every input text containing a YYYY[.-]MM[.-]DD date,
parse_datetime returns a timestamp carrying the fixed +09:00 offset, with
seconds defaulting to 00 when the matched time has no seconds group and
the time defaulting to midnight when no time is present; the two examples
from the specification hold, and text with no date match yields none. -/
theorem parse_datetime_spec :
    (∀ s y m d, dateSearch s = some (y, m, d) →
      ∃ t, parse_datetime s = some t ∧ "+09:00".toList <:+ t ∧
        (timeSearch s = none →
          t = y ++ '-' :: m ++ '-' :: d ++ "T00:00:00+09:00".toList) ∧
        (∀ hh mm, timeSearch s = some (hh, mm, none) →
          t = y ++ '-' :: m ++ '-' :: d ++ 'T' :: hh ++ ':' :: mm ++ ":00+09:00".toList)) ∧
    (∀ s, dateSearch s = none → parse_datetime s = none) ∧
    parse_datetime "2024.03.05 09:30".toList = some "2024-03-05T09:30:00+09:00".toList ∧
    parse_datetime "2024-03-05".toList = some "2024-03-05T00:00:00+09:00".toList := by
  have e1 : (":00+09:00".toList : Str) = ':' :: '0' :: '0' :: "+09:00".toList := by decide
  have e2 : ("T00:00:00+09:00".toList : Str) = "T00:00:00".toList ++ "+09:00".toList := by
    decide
  refine ⟨?_, ?_, by decide, by decide⟩
  · intro s y m d h
    unfold parse_datetime
    rw [h]
    cases e : timeSearch s with
    | none =>
      refine ⟨_, rfl, ⟨y ++ '-' :: m ++ '-' :: d ++ "T00:00:00".toList, ?_⟩,
        fun _ => rfl, fun hh mm hc => Option.noConfusion hc⟩
      simp [List.append_assoc, e2]
    | some r =>
      obtain ⟨hh0, mm0, ss0⟩ := r
      refine ⟨_, rfl, ⟨y ++ '-' :: m ++ '-' :: d ++ 'T' :: hh0 ++ ':' :: mm0 ++ ':' ::
        ss0.getD ['0', '0'], ?_⟩, fun hc => Option.noConfusion hc, ?_⟩
      · simp [List.append_assoc]
      · intro hh mm hc
        obtain ⟨h1, h2, h3⟩ : hh0 = hh ∧ mm0 = mm ∧ ss0 = none := by
          injection hc with hc'
          injection hc' with ha hb
          injection hb with hb1 hb2
          exact ⟨ha, hb1, hb2⟩
        subst h1; subst h2; subst h3
        simp [List.append_assoc, e1]
  · intro s h
    unfold parse_datetime
    rw [h]

/-- Witness for parse_datetime_spec at concrete inputs. -/
theorem parse_datetime_spec_witness :
    (∃ t, parse_datetime "2024.03.05 09:30".toList = some t ∧
      "+09:00".toList <:+ t ∧
      (timeSearch "2024.03.05 09:30".toList = none →
        t = "2024".toList ++ '-' :: "03".toList ++ '-' :: "05".toList ++
          "T00:00:00+09:00".toList) ∧
      (∀ hh mm, timeSearch "2024.03.05 09:30".toList = some (hh, mm, none) →
        t = "2024".toList ++ '-' :: "03".toList ++ '-' :: "05".toList ++ 'T' :: hh ++
          ':' :: mm ++ ":00+09:00".toList)) ∧
    parse_datetime "x".toList = none :=
  ⟨parse_datetime_spec.1 "2024.03.05 09:30".toList "2024".toList "03".toList
      "05".toList (by decide),
    parse_datetime_spec.2.1 "x".toList (by decide)⟩

/-- C4 counterexample: a logical five-cell row whose date text does not
parse is dropped by the static path but kept, with an absent date, by the
interactive path. -/
theorem undated_row_kept_interactively :
    parse_datetime "no date".toList = none ∧
    staticRowStep ["TOP".toList, "Row T".toList, "A".toList, "no date".toList,
      "120".toList] none = none ∧
    interRowStep ["TOP".toList, "Row T".toList, "A".toList, "no date".toList,
      "120".toList] [] 0 =
      some ⟨"Row T".toList, "A".toList, none, 120, true, 0, none⟩ := by
  decide

/-- C4 amended: a row whose date text does not parse is dropped by the
static path, while the interactive path keeps it with an absent date; on a
logical row whose cells are already stripped and where both paths produce
a record, the records agree on title, author, date, views and pinned flag
(the interactive record additionally carries DOM bookkeeping fields). -/
theorem row_extraction_modes (cells : List Str) (hrefs : List (Option Str))
    (idx : Nat) (rowUrl : Option Str) (hs : ∀ c ∈ cells, pyStrip c = c) :
    (parse_datetime ((cells.drop (cells.length - 2)).headD []) = none →
      staticRowStep cells rowUrl = none ∧
      ∀ it, interRowStep cells hrefs idx = some it → it.date = none) ∧
    (∀ s it, staticRowStep cells rowUrl = some s →
      interRowStep cells hrefs idx = some it →
      s.title = it.title ∧ s.author = it.author ∧ some s.date = it.date ∧
      s.views = it.views ∧ s.top = it.top) := by
  by_cases hlen : cells.length < 5
  · refine ⟨fun _ => ⟨by simp [staticRowStep, hlen], fun it hit => ?_⟩,
      fun s it hsome hit => ?_⟩
    · simp [interRowStep, hlen] at hit
    · simp [staticRowStep, hlen] at hsome
  · have h0 : (0 : Nat) < cells.length := by omega
    have h1 : (1 : Nat) < cells.length := by omega
    have h2 : (2 : Nat) < cells.length := by omega
    have hm2 : cells.length - 2 < cells.length := by omega
    have hm1 : cells.length - 1 < cells.length := by omega
    have hmem0 := headD_drop_mem cells 0 h0
    rw [List.drop_zero] at hmem0
    have e0 := hs _ hmem0
    have e1 := hs _ (headD_drop_mem cells 1 h1)
    have e2 := hs _ (headD_drop_mem cells 2 h2)
    have em2 := hs _ (headD_drop_mem cells (cells.length - 2) hm2)
    have em1 := hs _ (headD_drop_mem cells (cells.length - 1) hm1)
    constructor
    · intro hdate
      refine ⟨?_, ?_⟩
      · simp only [staticRowStep, if_neg hlen, hdate]
      · intro it hit
        simp only [interRowStep, if_neg hlen, em2, hdate] at hit
        split at hit
        · exact Option.noConfusion hit
        · split at hit
          · exact Option.noConfusion hit
          · cases hit
            rfl
    · intro s it hsome hit
      simp only [staticRowStep, if_neg hlen, e0, e1] at hsome
      simp only [interRowStep, if_neg hlen, e0, e1, e2, em2, em1] at hit
      split at hsome
      · rename_i dateIso views heq1 heq2
        simp only [heq2] at hit
        split at hsome
        · exact Option.noConfusion hsome
        · rename_i htitle
          rw [if_neg htitle, heq1] at hit
          cases hsome
          cases hit
          exact ⟨rfl, rfl, rfl, rfl, rfl⟩
      · exact Option.noConfusion hsome

/-- Witness for row_extraction_modes at a concrete stripped row. -/
theorem row_extraction_modes_witness :
    (parse_datetime ((sampleRowCells.drop (sampleRowCells.length - 2)).headD []) = none →
      staticRowStep sampleRowCells none = none ∧
      ∀ it, interRowStep sampleRowCells [] 1 = some it → it.date = none) ∧
    (∀ s it, staticRowStep sampleRowCells none = some s →
      interRowStep sampleRowCells [] 1 = some it →
      s.title = it.title ∧ s.author = it.author ∧ some s.date = it.date ∧
      s.views = it.views ∧ s.top = it.top) :=
  row_extraction_modes sampleRowCells [] 1 none (by decide)

/-- Names distribute over list append. -/
theorem selNames_append (a b : List SelOption) :
    selNames (a ++ b) = selNames a ++ selNames b :=
  List.filterMap_append a b _

/-- Every nonempty name of the input survives sanitizing. -/
theorem selNames_sanitize_mem {options : List SelOption} {o : SelOption} {n : Str}
    (ho : o ∈ options) (hn : o.name = some n) (hne : n ≠ []) :
    n ∈ selNames (sanitize_select_options options) := by
  have hmem : (⟨some n, if optTruthy o.id then o.id else none,
      if optTruthy o.color then o.color else none⟩ : SelOption) ∈
      sanitize_select_options options := by
    unfold sanitize_select_options
    exact List.mem_filterMap.mpr ⟨o, ho, by rw [hn]; simp [hne]⟩
  unfold selNames
  exact List.mem_filterMap.mpr ⟨_, hmem, rfl⟩

/-- C9: when a nonempty author name is not already a known choice, the
options payload submitted to the mirror is exactly the sanitized existing
choices with the new name appended once, so every existing option name is
preserved and the new name occurs exactly once; when the name is empty or
already known, no options update is submitted at all. -/
theorem ensure_select_option_spec (options : List SelOption) (name : Str) :
    (∀ payload, (ensure_select_option name options).2 = some payload →
      (∀ o ∈ options, ∀ n, o.name = some n → n ≠ [] → n ∈ selNames payload) ∧
      (selNames payload).count name = 1 ∧
      selNames payload = selNames (sanitize_select_options options) ++ [name]) ∧
    ((name = [] ∨ name ∈ selNames (sanitize_select_options options)) →
      (ensure_select_option name options).2 = none) := by
  constructor
  · intro payload hp
    by_cases hne : name = []
    · simp [ensure_select_option, hne] at hp
    · by_cases hmem : name ∈ selNames (sanitize_select_options options)
      · simp [ensure_select_option, hne, hmem] at hp
      · simp only [ensure_select_option, if_neg hne, if_neg hmem] at hp
        cases hp
        have hnames : selNames (sanitize_select_options options ++
            [⟨some name, none, none⟩]) =
            selNames (sanitize_select_options options) ++ [name] := by
          rw [selNames_append]; rfl
        refine ⟨?_, ?_, hnames⟩
        · intro o ho n hn hne2
          rw [hnames]
          exact List.mem_append_left _ (selNames_sanitize_mem ho hn hne2)
        · rw [hnames, List.count_append]
          have : (selNames (sanitize_select_options options)).count name = 0 :=
            List.count_eq_zero.mpr hmem
          simp [this, List.count_cons]
  · intro h
    rcases h with h | h
    · simp [ensure_select_option, h]
    · by_cases hne : name = []
      · simp [ensure_select_option, hne]
      · simp [ensure_select_option, hne, h]

/-- Witness for ensure_select_option_spec: a concrete new author is
appended once while the existing choice survives. -/
theorem ensure_select_option_spec_witness :
    (∀ payload,
      (ensure_select_option "B".toList [⟨some "A".toList, some "id1".toList, none⟩]).2 =
        some payload →
      (∀ o ∈ [(⟨some "A".toList, some "id1".toList, none⟩ : SelOption)],
        ∀ n, o.name = some n → n ≠ [] → n ∈ selNames payload) ∧
      (selNames payload).count "B".toList = 1 ∧
      selNames payload = selNames (sanitize_select_options
        [⟨some "A".toList, some "id1".toList, none⟩]) ++ ["B".toList]) ∧
    (("B".toList = ([] : Str) ∨ "B".toList ∈ selNames (sanitize_select_options
        [⟨some "A".toList, some "id1".toList, none⟩])) →
      (ensure_select_option "B".toList [⟨some "A".toList, some "id1".toList, none⟩]).2 =
        none) :=
  ensure_select_option_spec [⟨some "A".toList, some "id1".toList, none⟩] "B".toList

/-- Counterexample to the claimed retry policy: a 501 response, although
a server-side 5xx status, is fatal on the first attempt with no retry and
no sleep even though every later attempt would succeed; and a present but
non-integral Retry-After of 2.5 is slept over with the backoff of 1, not
the server-supplied delay. -/
theorem retry_policy_counterexample :
    notion_request (fun n =>
      if n = 0 then NetResp.httpErr 501 none else NetResp.ok 7) =
      ⟨Except.error (ReqFail.http 501), [], 0⟩ ∧
    retryableCode 501 = false ∧
    notion_request (fun n =>
      if n = 0 then NetResp.httpErr 429 (some "2.5".toList) else NetResp.ok 7) =
      ⟨Except.ok 7, [1], 1⟩ ∧
    pyIsDigit "2.5".toList = false := by
  refine ⟨rfl, by decide, rfl, by decide⟩

/-- C6: the remote call wrapper retries exactly the statuses 429, 500,
502, 503, 504, up to three additional attempts, sleeping the integral
Retry-After value when the header is a digit string and the doubling
backoff 1, 2, 4 otherwise; three such failures followed by a success
yield exactly three retries and the successful result; a fourth
consecutive retryable failure is fatal after the same three sleeps; and
any HTTP failure outside that status set, including other 5xx codes,
is fatal on the first attempt with no retry and no sleep. -/
theorem notion_request_retry_amended {α : Type} (resp : Nat → NetResp α) :
    (∀ c, retryableCode c = true ↔
      (c = 429 ∨ c = 500 ∨ c = 502 ∨ c = 503 ∨ c = 504)) ∧
    (∀ c0 c1 c2 r0 r1 r2 v,
      resp 0 = NetResp.httpErr c0 r0 → resp 1 = NetResp.httpErr c1 r1 →
      resp 2 = NetResp.httpErr c2 r2 → resp 3 = NetResp.ok v →
      retryableCode c0 = true → retryableCode c1 = true → retryableCode c2 = true →
      notion_request resp =
        ⟨Except.ok v, [retrySleep r0 1, retrySleep r1 2, retrySleep r2 4], 3⟩) ∧
    (∀ c0 c1 c2 c3 r0 r1 r2 r3,
      resp 0 = NetResp.httpErr c0 r0 → resp 1 = NetResp.httpErr c1 r1 →
      resp 2 = NetResp.httpErr c2 r2 → resp 3 = NetResp.httpErr c3 r3 →
      retryableCode c0 = true → retryableCode c1 = true → retryableCode c2 = true →
      notion_request resp =
        ⟨Except.error (ReqFail.http c3),
          [retrySleep r0 1, retrySleep r1 2, retrySleep r2 4], 3⟩) ∧
    (∀ c r, resp 0 = NetResp.httpErr c r → retryableCode c = false →
      notion_request resp = ⟨Except.error (ReqFail.http c), [], 0⟩) := by
  refine ⟨?_, ?_, ?_, ?_⟩
  · intro c
    simp only [retryableCode, Bool.or_eq_true, decide_eq_true_eq]
    tauto
  · intro c0 c1 c2 r0 r1 r2 v h0 h1 h2 h3 hr0 hr1 hr2
    simp [notion_request, notionAttempt, h0, h1, h2, h3, hr0, hr1, hr2]
  · intro c0 c1 c2 c3 r0 r1 r2 r3 h0 h1 h2 h3 hr0 hr1 hr2
    simp [notion_request, notionAttempt, h0, h1, h2, h3, hr0, hr1, hr2]
  · intro c r h0 hr
    simp [notion_request, notionAttempt, h0, hr]

/-- Concrete retry run: an integral Retry-After of 5 is slept, an absent
and a non-integral header fall back to the backoffs 2 and 4, and the
fourth attempt succeeds after three retries. -/
theorem notion_request_retry_amended_witness :
    notion_request (fun n =>
      if n = 0 then NetResp.httpErr 429 (some "5".toList)
      else if n = 1 then NetResp.httpErr 503 none
      else if n = 2 then NetResp.httpErr 500 (some "1.5".toList)
      else NetResp.ok 77) =
      ⟨Except.ok 77, [retrySleep (some "5".toList) 1, retrySleep none 2,
        retrySleep (some "1.5".toList) 4], 3⟩ ∧
    retrySleep (some "5".toList) 1 = 5 ∧ retrySleep none 2 = 2 ∧
    retrySleep (some "1.5".toList) 4 = 4 :=
  ⟨(notion_request_retry_amended _).2.1 429 503 500 (some "5".toList) none
      (some "1.5".toList) 77 rfl rfl rfl rfl (by decide) (by decide) (by decide),
    by decide, by decide, by decide⟩

/-- Shifted range-map identity used by the pagination lemmas. -/
theorem range_map_shift (n k : Nat) :
    n :: (List.range (k + 1)).map (fun i => n + 1 + i) =
      (List.range (k + 1 + 1)).map (fun i => n + i) := by
  apply List.ext_getElem
  · simp
  · intro i h1 h2
    cases i with
    | zero => simp
    | succ j =>
      simp only [List.getElem_cons_succ, List.getElem_map, List.getElem_range]
      omega

/-- Pagination lemma for the HTTP loop: if the first k fetch slots hold
nonempty all-pinned pages and slot k stops the loop, the fetched page
numbers starting at n are n, n+1, ..., n+k. -/
theorem crawlHttpGo_pages (oracle : Str → Option Str) :
    ∀ (k : Nat) (pages : List (Option (List StaticItem))) (n : Nat) (seen : List Str),
      (∀ i, i < k → ∃ rows, pages.get? i = some (some rows) ∧ rows ≠ [] ∧
        ∀ r ∈ rows, r.top = true) →
      stopPageHttp (pages.get? k) →
      (crawlHttpGo oracle pages n seen).2 = (List.range (k + 1)).map (fun i => n + i) := by
  intro k
  induction k with
  | zero =>
    intro pages n seen _ hstop
    cases pages with
    | nil => simp [crawlHttpGo, List.range_succ]
    | cons p rest =>
      cases p with
      | none => simp [crawlHttpGo, List.range_succ]
      | some rows =>
        simp only [List.get?_cons_zero, stopPageHttp] at hstop
        rcases hstop with he | ⟨r, hr, hrt⟩
        · subst he; simp [crawlHttpGo, List.range_succ]
        · have hany : rows.any (fun r => !r.top) = true := by
            simp only [List.any_eq_true]
            exact ⟨r, hr, by simp [hrt]⟩
          have hne : rows ≠ [] := by
            intro hc; subst hc; simp at hr
          simp [crawlHttpGo, if_neg hne, hany, List.range_succ]
  | succ k ih =>
    intro pages n seen hall hstop
    obtain ⟨rows, hp, hne, htop⟩ := hall 0 (Nat.succ_pos k)
    cases pages with
    | nil => simp at hp
    | cons p rest =>
      simp only [List.get?_cons_zero] at hp
      cases hp
      have hany : rows.any (fun r => !r.top) = false := by
        simp only [List.any_eq_false]
        intro r hr
        simp [htop r hr]
      have ihr := ih rest (n + 1) (processTopsHttp oracle
        (rows.filter fun r => r.top) seen).2
        (fun i hi => hall (i + 1) (Nat.succ_lt_succ hi)) hstop
      simp only [crawlHttpGo, if_neg hne, hany, Bool.false_eq_true, if_false, ihr]
      exact range_map_shift n k

/-- Pagination lemma for the interactive loop, identical in structure. -/
theorem crawlPwGo_pages (oracle : Nat → InterItem → Option Str × Option Str) :
    ∀ (k : Nat) (pages : List (Option (List InterItem))) (n : Nat) (seen : List Str),
      (∀ i, i < k → ∃ rows, pages.get? i = some (some rows) ∧ rows ≠ [] ∧
        ∀ r ∈ rows, r.top = true) →
      stopPagePw (pages.get? k) →
      (crawlPwGo oracle pages n seen).2 = (List.range (k + 1)).map (fun i => n + i) := by
  intro k
  induction k with
  | zero =>
    intro pages n seen _ hstop
    cases pages with
    | nil => simp [crawlPwGo, List.range_succ]
    | cons p rest =>
      cases p with
      | none => simp [crawlPwGo, List.range_succ]
      | some rows =>
        simp only [List.get?_cons_zero, stopPagePw] at hstop
        rcases hstop with he | ⟨r, hr, hrt⟩
        · subst he; simp [crawlPwGo, List.range_succ]
        · have hany : rows.any (fun r => !r.top) = true := by
            simp only [List.any_eq_true]
            exact ⟨r, hr, by simp [hrt]⟩
          have hne : rows ≠ [] := by
            intro hc; subst hc; simp at hr
          simp [crawlPwGo, if_neg hne, hany, List.range_succ]
  | succ k ih =>
    intro pages n seen hall hstop
    obtain ⟨rows, hp, hne, htop⟩ := hall 0 (Nat.succ_pos k)
    cases pages with
    | nil => simp at hp
    | cons p rest =>
      simp only [List.get?_cons_zero] at hp
      cases hp
      have hany : rows.any (fun r => !r.top) = false := by
        simp only [List.any_eq_false]
        intro r hr
        simp [htop r hr]
      have ihr := ih rest (n + 1) (processTopsPw oracle n
        (rows.filter fun r => r.top) seen).2
        (fun i hi => hall (i + 1) (Nat.succ_lt_succ hi)) hstop
      simp only [crawlPwGo, if_neg hne, hany, Bool.false_eq_true, if_false, ihr]
      exact range_map_shift n k

/-- C5: both fetch loops consume pages in increasing order starting at
page 1 and stop with the first page that fails to fetch, parses to
nothing, or contains a non-pinned row: when the first k pages are nonempty
and all-pinned and page k+1 stops the loop, exactly pages 1 .. k+1 are
fetched; with k = 2 this is the specification's page-3 scenario. -/
theorem crawl_pagination_spec (oracleH : Str → Option Str)
    (oracleP : Nat → InterItem → Option Str × Option Str)
    (pagesH : List (Option (List StaticItem)))
    (pagesP : List (Option (List InterItem))) (k : Nat)
    (hallH : ∀ i, i < k → ∃ rows, pagesH.get? i = some (some rows) ∧ rows ≠ [] ∧
      ∀ r ∈ rows, r.top = true)
    (hstopH : stopPageHttp (pagesH.get? k))
    (hallP : ∀ i, i < k → ∃ rows, pagesP.get? i = some (some rows) ∧ rows ≠ [] ∧
      ∀ r ∈ rows, r.top = true)
    (hstopP : stopPagePw (pagesP.get? k)) :
    (crawl_top_items_http oracleH pagesH).2 = (List.range (k + 1)).map (fun i => 1 + i) ∧
    (crawl_top_items oracleP pagesP).2 = (List.range (k + 1)).map (fun i => 1 + i) :=
  ⟨crawlHttpGo_pages oracleH k pagesH 1 [] hallH hstopH,
   crawlPwGo_pages oracleP k pagesP 1 [] hallP hstopP⟩

/-- Witness for crawl_pagination_spec: page 3 holds the first non-pinned
row and exactly pages 1, 2, 3 are fetched by both loops. -/
theorem crawl_pagination_spec_witness :
    (crawl_top_items_http (fun _ => none) samplePagesHttp).2 =
      (List.range 3).map (fun i => 1 + i) ∧
    (crawl_top_items (fun _ _ => (none, none)) samplePagesPw).2 =
      (List.range 3).map (fun i => 1 + i) :=
  by
  refine crawl_pagination_spec (fun _ => none) (fun _ _ => (none, none))
    samplePagesHttp samplePagesPw 2 ?_ ?_ ?_ ?_
  · intro i hi
    interval_cases i
    · exact ⟨_, rfl, by decide, by decide⟩
    · exact ⟨_, rfl, by decide, by decide⟩
  · exact Or.inr ⟨⟨"c".toList, "x".toList, "2024-01-03T00:00:00+09:00".toList, 3,
      false, none⟩, by decide, rfl⟩
  · intro i hi
    interval_cases i
    · exact ⟨_, rfl, by decide, by decide⟩
    · exact ⟨_, rfl, by decide, by decide⟩
  · exact Or.inr ⟨⟨"c".toList, "x".toList, none, 3, false, 0, none⟩, by decide, rfl⟩

/-- C1 counterexample: with two mirror documents sharing the record's URL,
the URL tier is ambiguous (two matches), yet the sync engine performs a
create for the record instead of skipping it. -/
theorem ambiguous_record_is_created :
    (queryByUrl
      [⟨"p1".toList, some "https://x/detail/1".toList, "T1".toList, none⟩,
       ⟨"p2".toList, some "https://x/detail/1".toList, "T2".toList, none⟩]
      "https://x/detail/1".toList).length = 2 ∧
    syncDecision
      [⟨"p1".toList, some "https://x/detail/1".toList, "T1".toList, none⟩,
       ⟨"p2".toList, some "https://x/detail/1".toList, "T2".toList, none⟩]
      (some "https://x/detail/1".toList) "T".toList none = SyncAction.create := by
  decide

/-- C1 amended: an ambiguous identity resolution yields no match, so the
engine never updates but instead creates the record; the ambiguity is
logged when it occurs at the URL or title-and-date tier (the title-only
tier yields no match without a log). -/
theorem ambiguity_amended (db : List NotionPage) (url : Option Str) (title : Str)
    (dateIso : Option Str) :
    (∀ u, url = some u → u ≠ [] → 2 ≤ (queryByUrl db u).length →
      find_existing_page db url title dateIso = (none, [SyncLog.ambiguousUrl u]) ∧
      syncDecision db url title dateIso = SyncAction.create) ∧
    ((∀ u, url = some u → u ≠ [] → queryByUrl db u = []) →
      ∀ d, dateIso = some d → title ≠ [] → d ≠ [] →
      2 ≤ (queryByTitleDate db title d).length →
      find_existing_page db url title dateIso =
        (none, [SyncLog.ambiguousTitleDate title d]) ∧
      syncDecision db url title dateIso = SyncAction.create) ∧
    ((∀ u, url = some u → u ≠ [] → queryByUrl db u = []) →
      (∀ d, dateIso = some d → d ≠ [] → queryByTitleDate db title d = []) →
      title ≠ [] → 2 ≤ (queryByTitle db title).length →
      find_existing_page db url title dateIso = (none, []) ∧
      syncDecision db url title dateIso = SyncAction.create) := by
  have tier3amb : ∀ h : title ≠ [], 2 ≤ (queryByTitle db title).length →
      findTier3 db title = (none, []) := by
    intro ht hlen
    unfold findTier3
    rw [if_pos ht]
    rcases e : queryByTitle db title with _ | ⟨a, _ | ⟨b, t⟩⟩
    · rfl
    · rw [e] at hlen; simp at hlen
    · rfl
  have tier2amb : ∀ d, dateIso = some d → title ≠ [] → d ≠ [] →
      2 ≤ (queryByTitleDate db title d).length →
      findTier2 db title dateIso = (none, [SyncLog.ambiguousTitleDate title d]) := by
    intro d hd ht hde hlen
    subst hd
    simp only [findTier2]
    rw [if_pos ⟨ht, hde⟩]
    rcases e : queryByTitleDate db title d with _ | ⟨a, _ | ⟨b, t⟩⟩
    · rw [e] at hlen; simp at hlen
    · rw [e] at hlen; simp at hlen
    · rfl
  have tier2from3 : ∀ d, dateIso = some d → d ≠ [] →
      queryByTitleDate db title d = [] →
      findTier2 db title dateIso = findTier3 db title := by
    intro d hd hde he
    subst hd
    simp only [findTier2]
    by_cases ht : title ≠ []
    · rw [if_pos ⟨ht, hde⟩, he]
    · rw [if_neg (by tauto)]
  refine ⟨?_, ?_, ?_⟩
  · intro u hu hne hlen
    subst hu
    have hfind : find_existing_page db (some u) title dateIso =
        (none, [SyncLog.ambiguousUrl u]) := by
      simp only [find_existing_page]
      rw [if_pos hne]
      rcases e : queryByUrl db u with _ | ⟨a, _ | ⟨b, t⟩⟩
      · rw [e] at hlen; simp at hlen
      · rw [e] at hlen; simp at hlen
      · rfl
    exact ⟨hfind, by unfold syncDecision; rw [hfind]⟩
  · intro hurl d hd ht hde hlen
    have ht2 := tier2amb d hd ht hde hlen
    have hfind : find_existing_page db url title dateIso =
        (none, [SyncLog.ambiguousTitleDate title d]) := by
      cases url with
      | none => simp only [find_existing_page]; exact ht2
      | some u =>
        simp only [find_existing_page]
        by_cases hne : u ≠ []
        · rw [if_pos hne, hurl u rfl hne]
          exact ht2
        · rw [if_neg hne]
          exact ht2
    exact ⟨hfind, by unfold syncDecision; rw [hfind]⟩
  · intro hurl hdt ht hlen
    have ht3 := tier3amb ht hlen
    have hfall : findTier2 db title dateIso = (none, []) := by
      cases dateIso with
      | none => simp only [findTier2]; exact ht3
      | some d =>
        by_cases hde : d ≠ []
        · rw [tier2from3 d rfl hde (hdt d rfl hde)]
          exact ht3
        · simp only [findTier2]
          rw [if_neg (by tauto)]
          exact ht3
    have hfind : find_existing_page db url title dateIso = (none, []) := by
      cases url with
      | none => simp only [find_existing_page]; exact hfall
      | some u =>
        simp only [find_existing_page]
        by_cases hne : u ≠ []
        · rw [if_pos hne, hurl u rfl hne]
          exact hfall
        · rw [if_neg hne]
          exact hfall
    exact ⟨hfind, by unfold syncDecision; rw [hfind]⟩

/-- Witness for ambiguity_amended: the URL tier returns two matches for a
concrete mirror and the engine creates. -/
theorem ambiguity_amended_witness :
    find_existing_page
      [⟨"q1".toList, some "https://y/detail/2".toList, "S1".toList, none⟩,
       ⟨"q2".toList, some "https://y/detail/2".toList, "S2".toList, none⟩]
      (some "https://y/detail/2".toList) "S".toList none =
      (none, [SyncLog.ambiguousUrl "https://y/detail/2".toList]) ∧
    syncDecision
      [⟨"q1".toList, some "https://y/detail/2".toList, "S1".toList, none⟩,
       ⟨"q2".toList, some "https://y/detail/2".toList, "S2".toList, none⟩]
      (some "https://y/detail/2".toList) "S".toList none = SyncAction.create :=
  (ambiguity_amended _ _ _ _).1 "https://y/detail/2".toList rfl (by decide) (by decide)

/-- Unfolding of a successful Except sequencing step. -/
theorem except_seq_ok {ε α β : Type} (x : Except ε α) (f : α → Except ε β) (v : β)
    (h : (x >>= f) = Except.ok v) : ∃ a, x = Except.ok a ∧ f a = Except.ok v := by
  cases x with
  | error e => simp [Bind.bind, Except.bind] at h
  | ok a => exact ⟨a, rfl, h⟩

/-- A required-property check succeeds exactly when the property has the
expected type. -/
theorem require_ok_iff (db : DBSchema) (name : Str) (expected : NType) :
    require_property_type db name expected = Except.ok () ↔
    getPropType db name = some expected := by
  unfold require_property_type
  rcases e : getPropType db name with _ | t2
  · simp
  · by_cases ht : t2 = expected
    · subst ht; simp
    · simp [ht]

/-- The validation pass succeeds exactly when all required fields are
present with their required types. -/
theorem validate_ok_iff (db : DBSchema) :
    validate_required_properties db = Except.ok () ↔ requiredOk db := by
  constructor
  · intro h
    unfold validate_required_properties at h
    obtain ⟨a1, h1, h⟩ := except_seq_ok _ _ _ h
    obtain ⟨a2, h2, h⟩ := except_seq_ok _ _ _ h
    obtain ⟨a3, h3, h⟩ := except_seq_ok _ _ _ h
    obtain ⟨a4, h4, h5⟩ := except_seq_ok _ _ _ h
    exact ⟨(require_ok_iff db _ _).mp h1, (require_ok_iff db _ _).mp h2,
      (require_ok_iff db _ _).mp h3, (require_ok_iff db _ _).mp h4,
      (require_ok_iff db _ _).mp h5⟩
  · intro h
    obtain ⟨h1, h2, h3, h4, h5⟩ := h
    have r1 := (require_ok_iff db TITLE_PROPERTY NType.title).mpr h1
    have r2 := (require_ok_iff db TOP_PROPERTY NType.checkbox).mpr h2
    have r3 := (require_ok_iff db DATE_PROPERTY NType.date).mpr h3
    have r4 := (require_ok_iff db AUTHOR_PROPERTY NType.select).mpr h4
    have r5 := (require_ok_iff db URL_PROPERTY NType.url).mpr h5
    simp only [validate_required_properties, r1, r2, r3, r4, r5]
    rfl

/-- Adding the URL property when absent does not disturb other lookups. -/
theorem getPropType_addUrl (db : DBSchema) (h : getPropType db URL_PROPERTY = none) :
    getPropType (addUrlProperty db) URL_PROPERTY = some NType.url ∧
    ∀ name, name ≠ URL_PROPERTY →
      getPropType (addUrlProperty db) name = getPropType db name := by
  constructor
  · have hfn : db.props.find? (fun kv => decide (kv.1 = URL_PROPERTY)) = none := by
      unfold getPropType at h
      exact Option.map_eq_none'.mp h
    unfold getPropType addUrlProperty
    rw [List.find?_append, hfn]
    simp
  · intro name hne
    have hd : (decide (URL_PROPERTY = name)) = false :=
      decide_eq_false fun hc => hne hc.symm
    have hfs : List.find? (fun kv => decide (kv.1 = name))
        ([(URL_PROPERTY, NType.url)] : List (Str × NType)) = none := by
      simp [List.find?_cons, hd]
    unfold getPropType addUrlProperty
    rw [List.find?_append, hfs, Option.or_none]

/-- C3 counterexample: a schema that is missing only the required URL
field does not abort; the pre-flight performs a schema write adding the
field and succeeds. -/
theorem missing_url_field_not_fatal :
    schemaPreflight ⟨[(TITLE_PROPERTY, NType.title), (TOP_PROPERTY, NType.checkbox),
      (DATE_PROPERTY, NType.date), (AUTHOR_PROPERTY, NType.select)]⟩ =
    ([MirrorWrite.schemaWrite],
      Except.ok (addUrlProperty ⟨[(TITLE_PROPERTY, NType.title),
        (TOP_PROPERTY, NType.checkbox), (DATE_PROPERTY, NType.date),
        (AUTHOR_PROPERTY, NType.select)]⟩)) := rfl

/-- C3 amended: a mis-typed URL field, or a missing or mis-typed
title, pinned, date or author field, aborts the run before any document
write, and the only mirror write that can precede the abort is the schema
write auto-creating a missing URL field; a missing URL field alone is not
fatal: the field is created by a schema write and the pre-flight succeeds. -/
theorem schema_preflight_amended (db : DBSchema) :
    ((schemaPreflight db).1 =
      if getPropType db URL_PROPERTY = none then [MirrorWrite.schemaWrite] else []) ∧
    (∀ t, getPropType db URL_PROPERTY = some t → t ≠ NType.url →
      schemaPreflight db = ([], Except.error (SchemaErr.mismatch URL_PROPERTY))) ∧
    (∀ db2, (schemaPreflight db).2 = Except.ok db2 → requiredOk db2) ∧
    (getPropType db URL_PROPERTY = none →
      getPropType db TITLE_PROPERTY = some NType.title →
      getPropType db TOP_PROPERTY = some NType.checkbox →
      getPropType db DATE_PROPERTY = some NType.date →
      getPropType db AUTHOR_PROPERTY = some NType.select →
      schemaPreflight db = ([MirrorWrite.schemaWrite], Except.ok (addUrlProperty db))) := by
  refine ⟨?_, ?_, ?_, ?_⟩
  · rcases e : getPropType db URL_PROPERTY with _ | t
    · rcases ev : validate_required_properties (addUrlProperty db) with er | v <;>
        simp [schemaPreflight, ensure_url_property, e, ev]
    · by_cases ht : t = NType.url
      · subst ht
        rcases ev : validate_required_properties db with er | v <;>
          simp [schemaPreflight, ensure_url_property, e, ev]
      · simp [schemaPreflight, ensure_url_property, e, if_pos ht]
  · intro t he ht
    simp only [schemaPreflight, ensure_url_property, he, if_pos ht]
  · intro db2 h2
    rcases e : getPropType db URL_PROPERTY with _ | t
    · rcases ev : validate_required_properties (addUrlProperty db) with er | v
      · simp [schemaPreflight, ensure_url_property, e, ev] at h2
      · simp [schemaPreflight, ensure_url_property, e, ev] at h2
        subst h2
        exact (validate_ok_iff _).mp ev
    · by_cases ht : t = NType.url
      · subst ht
        rcases ev : validate_required_properties db with er | v
        · simp [schemaPreflight, ensure_url_property, e, ev] at h2
        · simp [schemaPreflight, ensure_url_property, e, ev] at h2
          subst h2
          exact (validate_ok_iff _).mp ev
      · simp [schemaPreflight, ensure_url_property, e, if_pos ht] at h2
  · intro he h1 h2 h3 h4
    obtain ⟨hu, hoth⟩ := getPropType_addUrl db he
    have hok : requiredOk (addUrlProperty db) := by
      refine ⟨?_, ?_, ?_, ?_, hu⟩
      · rw [hoth TITLE_PROPERTY (by decide)]; exact h1
      · rw [hoth TOP_PROPERTY (by decide)]; exact h2
      · rw [hoth DATE_PROPERTY (by decide)]; exact h3
      · rw [hoth AUTHOR_PROPERTY (by decide)]; exact h4
    have hv := (validate_ok_iff (addUrlProperty db)).mpr hok
    simp only [schemaPreflight, ensure_url_property, he, hv]

/-- Witness for schema_preflight_amended: on a complete correct schema the
pre-flight succeeds without writes, shown via the write characterization. -/
theorem schema_preflight_amended_witness :
    (schemaPreflight ⟨[(TITLE_PROPERTY, NType.title), (TOP_PROPERTY, NType.checkbox),
      (DATE_PROPERTY, NType.date), (AUTHOR_PROPERTY, NType.select),
      (URL_PROPERTY, NType.url)]⟩).1 =
      (if getPropType ⟨[(TITLE_PROPERTY, NType.title), (TOP_PROPERTY, NType.checkbox),
        (DATE_PROPERTY, NType.date), (AUTHOR_PROPERTY, NType.select),
        (URL_PROPERTY, NType.url)]⟩ URL_PROPERTY = none
       then [MirrorWrite.schemaWrite] else []) ∧
    ∀ db2, (schemaPreflight ⟨[(TITLE_PROPERTY, NType.title),
      (TOP_PROPERTY, NType.checkbox), (DATE_PROPERTY, NType.date),
      (AUTHOR_PROPERTY, NType.select), (URL_PROPERTY, NType.url)]⟩).2 =
        Except.ok db2 → requiredOk db2 :=
  ⟨(schema_preflight_amended _).1, (schema_preflight_amended _).2.2.1⟩

/-- Membership in the cleared-id list is pointwise the retirement
decision, for pages with pairwise distinct ids. -/
theorem mem_disable_iff (pages : List TopPage) (urls : List Str)
    (dates : List (Str × List Str)) (hids : (pages.map (fun p => p.id)).Nodup)
    (p : TopPage) (hp : p ∈ pages) :
    p.id ∈ (disable_missing_top pages urls dates).1 ↔
      disableStep urls dates p = true := by
  unfold disable_missing_top
  simp only [List.mem_map, List.mem_filter]
  constructor
  · rintro ⟨q, ⟨hq, hstep⟩, hid⟩
    have hqp : q = p := List.inj_on_of_nodup_map hids hq hp hid
    subst hqp
    exact hstep
  · intro hstep
    exact ⟨p, ⟨hp, hstep⟩, rfl⟩

/-- The title-and-day-key part of the retirement decision. -/
theorem titleDatePart (dates : List (Str × List Str)) (title key : Str) :
    (match qsLookup title dates with
      | some tds => if key ∈ tds then false else true
      | none => true) = true ↔
    ¬ ∃ tds, qsLookup title dates = some tds ∧ key ∈ tds := by
  rcases el : qsLookup title dates with _ | tds
  · simp
  · by_cases hk : key ∈ tds
    · simp [hk]
    · simp [hk]

/-- Pointwise characterization of the retirement decision for a document
with a nonempty extracted title, provided the observed URL set does not
contain the empty string (observed URLs are canonical, hence nonempty). -/
theorem disableStep_iff (urls : List Str) (dates : List (Str × List Str))
    (p : TopPage) (hnil : ([] : Str) ∉ urls) (ht : extract_title p ≠ []) :
    disableStep urls dates p = true ↔
      (∀ u, extract_url p = some u → u ∉ urls) ∧
      ¬ ∃ tds, qsLookup (extract_title p) dates = some tds ∧
        normalize_date_key (extract_date p) ∈ tds := by
  unfold disableStep
  rcases e : extract_url p with _ | u
  · rw [if_neg (by simp [optTruthy])]
    rw [if_neg ht]
    rw [titleDatePart]
    constructor
    · intro h
      exact ⟨fun u hu => Option.noConfusion hu, h⟩
    · intro h
      exact h.2
  · by_cases hu0 : u = []
    · subst hu0
      rw [if_neg (by simp [optTruthy])]
      rw [if_neg ht]
      rw [titleDatePart]
      constructor
      · intro h
        refine ⟨?_, h⟩
        intro u' hu'
        cases hu'
        exact hnil
      · intro h
        exact h.2
    · by_cases hmem : u ∈ urls
      · rw [if_pos ⟨by simp [optTruthy, hu0], by rintro rfl; simp at hmem, by
          simpa using hmem⟩]
        constructor
        · intro h
          exact absurd h (by simp)
        · rintro ⟨h1, _⟩
          exact absurd hmem (h1 u rfl)
      · rw [if_neg (by
          rintro ⟨-, -, hin⟩
          exact hmem (by simpa using hin))]
        rw [if_neg ht]
        rw [titleDatePart]
        constructor
        · intro h
          refine ⟨?_, h⟩
          intro u' hu'
          cases hu'
          exact hmem
        · intro h
          exact h.2

/-- C2: in the retirement pass, a pinned document with a nonempty
extracted title has its pinned flag cleared exactly when its canonical URL
is not among the run's observed pinned URLs and its (title, day-key) pair
is not in the observed title-to-day-key map; a document whose title
extraction yields an empty title is left untouched. -/
theorem retirement_spec (pages : List TopPage) (urls : List Str)
    (dates : List (Str × List Str)) (hids : (pages.map (fun p => p.id)).Nodup)
    (hnil : ([] : Str) ∉ urls) :
    ∀ p ∈ pages,
      (extract_title p = [] → p.id ∉ (disable_missing_top pages urls dates).1) ∧
      (extract_title p ≠ [] →
        (p.id ∈ (disable_missing_top pages urls dates).1 ↔
          (∀ u, extract_url p = some u → u ∉ urls) ∧
          ¬ ∃ tds, qsLookup (extract_title p) dates = some tds ∧
            normalize_date_key (extract_date p) ∈ tds)) := by
  intro p hp
  constructor
  · intro htitle hmem
    have hstep := (mem_disable_iff pages urls dates hids p hp).mp hmem
    unfold disableStep at hstep
    rcases e : extract_url p with _ | u
    · rw [e] at hstep
      rw [if_neg (by simp [optTruthy])] at hstep
      rw [if_pos htitle] at hstep
      exact Bool.noConfusion hstep
    · rw [e] at hstep
      by_cases hcond : optTruthy (some u) ∧ urls ≠ [] ∧ (some u).getD [] ∈ urls
      · rw [if_pos hcond] at hstep
        exact Bool.noConfusion hstep
      · rw [if_neg hcond] at hstep
        rw [if_pos htitle] at hstep
        exact Bool.noConfusion hstep
  · intro ht
    rw [mem_disable_iff pages urls dates hids p hp]
    exact disableStep_iff urls dates p hnil ht

/-- Witness for retirement_spec: with pinned documents A (matched by URL)
and B (unmatched), the pass keeps A pinned and clears B. -/
theorem retirement_spec_witness :
    "pA".toList ∉ (disable_missing_top [retireA, retireB] retireUrls retireDates).1 ∧
    "pB".toList ∈ (disable_missing_top [retireA, retireB] retireUrls retireDates).1 := by
  have hspecA := (retirement_spec [retireA, retireB] retireUrls retireDates
    (by decide) (by decide) retireA (by simp)).2 (by decide)
  have hspecB := (retirement_spec [retireA, retireB] retireUrls retireDates
    (by decide) (by decide) retireB (by simp)).2 (by decide)
  constructor
  · intro hmem
    have h1 := (hspecA.mp hmem).1 "https://h/detail/1".toList (by decide)
    exact h1 (by decide)
  · refine hspecB.mpr ⟨?_, ?_⟩
    · intro u hu
      exact Option.noConfusion hu
    · rintro ⟨tds, hl, -⟩
      exact Option.noConfusion hl

/-- Unsafe-byte removal distributes over append. -/
theorem removeUnsafe_append (a b : Str) :
    removeUnsafe (a ++ b) = removeUnsafe a ++ removeUnsafe b :=
  List.filter_append _ _

/-- splitAtFirst finds nothing when no character satisfies the test. -/
theorem splitAtFirst_none (p : Char → Bool) (l : Str) (h : ∀ x ∈ l, p x = false) :
    splitAtFirst p l = (l, none) := by
  induction l with
  | nil => rfl
  | cons c rest ih =>
    have hc := h c (List.mem_cons_self c rest)
    simp [splitAtFirst, hc, ih fun x hx => h x (List.mem_cons_of_mem c hx)]

/-- splitAtFirst splits at the first satisfying character. -/
theorem splitAtFirst_found (p : Char → Bool) (a : Str) (c : Char) (b : Str)
    (ha : ∀ x ∈ a, p x = false) (hc : p c = true) :
    splitAtFirst p (a ++ c :: b) = (a, some b) := by
  induction a with
  | nil => simp [splitAtFirst, hc]
  | cons d rest ih =>
    have hd := ha d (List.mem_cons_self d rest)
    simp [splitAtFirst, hd, ih fun x hx => ha x (List.mem_cons_of_mem d hx)]

/-- takeWhile keeps a list all of whose elements pass. -/
theorem takeWhile_all (q : Char → Bool) (l : Str) (h : ∀ x ∈ l, q x = true) :
    l.takeWhile q = l := by
  induction l with
  | nil => rfl
  | cons c rest ih =>
    simp [List.takeWhile_cons, h c (List.mem_cons_self c rest),
      ih fun x hx => h x (List.mem_cons_of_mem c hx)]

/-- dropWhile erases a list all of whose elements pass. -/
theorem dropWhile_all (q : Char → Bool) (l : Str) (h : ∀ x ∈ l, q x = true) :
    l.dropWhile q = [] := by
  induction l with
  | nil => rfl
  | cons c rest ih =>
    simp [List.dropWhile_cons, h c (List.mem_cons_self c rest),
      ih fun x hx => h x (List.mem_cons_of_mem c hx)]

/-- takeWhile never crosses a failing separator. -/
theorem takeWhile_append_sep (q : Char → Bool) (a : Str) (c : Char) (b : Str)
    (hc : q c = false) : (a ++ c :: b).takeWhile q = a.takeWhile q := by
  induction a with
  | nil => simp [List.takeWhile_cons, hc]
  | cons d rest ih =>
    by_cases hd : q d
    · simp [List.takeWhile_cons, hd, ih]
    · simp [List.takeWhile_cons, hd]

/-- dropWhile stops no later than a failing separator. -/
theorem dropWhile_append_sep (q : Char → Bool) (a : Str) (c : Char) (b : Str)
    (hc : q c = false) : (a ++ c :: b).dropWhile q = a.dropWhile q ++ c :: b := by
  induction a with
  | nil => simp [List.dropWhile_cons, hc]
  | cons d rest ih =>
    by_cases hd : q d
    · simp [List.dropWhile_cons, hd, ih]
    · simp [List.dropWhile_cons, hd]

/-- splitLast finds a split whenever the character occurs. -/
theorem splitLast_ch_mem (ch : Char) (pre suf : Str) :
    splitLast ch (pre ++ ch :: suf) ≠ none := by
  induction pre with
  | nil =>
    simp only [List.nil_append, splitLast]
    rcases splitLast ch suf with _ | p
    · simp
    · simp
  | cons d rest ih =>
    simp only [List.cons_append, splitLast]
    rcases e : splitLast ch (rest ++ ch :: suf) with _ | p
    · exact absurd e ih
    · simp

/-- Specification of splitLast on a successful split. -/
theorem splitLast_spec (ch : Char) (l a b : Str) (h : splitLast ch l = some (a, b)) :
    l = a ++ ch :: b ∧ ch ∉ b := by
  induction l generalizing a with
  | nil => simp [splitLast] at h
  | cons c rest ih =>
    simp only [splitLast] at h
    rcases e : splitLast ch rest with _ | ⟨a2, b2⟩
    · rw [e] at h
      by_cases hc : c = ch
      · rw [if_pos hc] at h
        injection h with h'
        have h1 := (Prod.ext_iff.mp h').1
        have h2 := (Prod.ext_iff.mp h').2
        subst h1
        subst h2
        have hnm : ch ∉ rest := by
          intro hmem
          obtain ⟨pre, suf, hrest⟩ := List.append_of_mem hmem
          rw [hrest] at e
          exact splitLast_ch_mem ch pre suf e
        exact ⟨by rw [hc]; rfl, hnm⟩
      · rw [if_neg hc] at h
        exact Option.noConfusion h
    · rw [e] at h
      injection h with h'
      have h1 := (Prod.ext_iff.mp h').1
      have h2 := (Prod.ext_iff.mp h').2
      subst h1
      subst h2
      obtain ⟨h3, h4⟩ := ih a2 e
      exact ⟨by rw [h3]; rfl, h4⟩

/-- splitLast recovers an explicitly placed last separator. -/
theorem splitLast_append_cons (ch : Char) (a b : Str) (hb : ch ∉ b) :
    splitLast ch (a ++ ch :: b) = some (a, b) := by
  induction a with
  | nil =>
    have hnone : splitLast ch b = none := by
      rcases e : splitLast ch b with _ | ⟨x, y⟩
      · rfl
      · obtain ⟨hb1, _⟩ := splitLast_spec ch b x y e
        rw [hb1] at hb
        exact absurd (List.mem_append_right x (List.mem_cons_self ch y)) hb
    simp only [List.nil_append, splitLast, hnone]
    simp
  | cons d rest ih =>
    simp only [List.cons_append, splitLast, List.append_eq, ih]

/-- cutAtFirst is the identity when the separator is absent. -/
theorem cutAtFirst_no (ch : Char) (l : Str) (h : ch ∉ l) : cutAtFirst ch l = (l, []) := by
  unfold cutAtFirst
  rw [splitAtFirst_none _ l (fun x hx => decide_eq_false (fun hc : x = ch => h (hc ▸ hx)))]

/-- cutAtFirst splits at an explicitly placed first separator. -/
theorem cutAtFirst_found (ch : Char) (a b : Str) (ha : ch ∉ a) :
    cutAtFirst ch (a ++ ch :: b) = (a, b) := by
  unfold cutAtFirst
  rw [splitAtFirst_found _ a ch b
    (fun x hx => decide_eq_false (fun hc : x = ch => ha (hc ▸ hx))) (by simp)]

/-- Scheme extraction recovers an explicitly placed valid scheme. -/
theorem schemeSplit_mk (s rest : Str) (hv : validScheme s) (hnc : ':' ∉ s) :
    schemeSplit (s ++ ':' :: rest) = (lowerAscii s, rest) := by
  cases s with
  | nil => exact absurd hv (by simp [validScheme])
  | cons c cs =>
    obtain ⟨h1, h2⟩ := hv
    unfold schemeSplit
    rw [splitAtFirst_found _ (c :: cs) ':' rest
      (fun x hx => decide_eq_false (fun hc : x = ':' => hnc (hc ▸ hx))) (by simp)]
    simp [h1, h2]

/-- Netloc extraction recovers an explicitly placed netloc when the
remainder is empty or starts with a delimiter. -/
theorem netlocSplit_mk (n rest : Str) (hn : ∀ x ∈ n, isNetlocEnd x = false)
    (hrest : rest = [] ∨ ∃ c rest2, rest = c :: rest2 ∧ isNetlocEnd c = true) :
    netlocSplit ('/' :: '/' :: (n ++ rest)) = (n, rest) := by
  unfold netlocSplit
  have hcond : List.take 2 ('/' :: '/' :: (n ++ rest)) = ['/', '/'] := rfl
  rw [if_pos hcond]
  simp only [List.drop_succ_cons, List.drop_zero]
  rcases hrest with rfl | ⟨c, rest2, rfl, hc⟩
  · rw [List.append_nil, takeWhile_all _ n (fun x hx => by simp [hn x hx]),
      dropWhile_all _ n (fun x hx => by simp [hn x hx])]
  · rw [takeWhile_append_sep _ n c rest2 (by simp [hc]),
      dropWhile_append_sep _ n c rest2 (by simp [hc]),
      takeWhile_all _ n (fun x hx => by simp [hn x hx]),
      dropWhile_all _ n (fun x hx => by simp [hn x hx])]
    simp

/-- Specification of splitAtFirst when nothing is found. -/
theorem splitAtFirst_spec_none (p : Char → Bool) (l a : Str)
    (h : splitAtFirst p l = (a, none)) : a = l ∧ ∀ x ∈ l, p x = false := by
  induction l generalizing a with
  | nil =>
    simp only [splitAtFirst] at h
    cases h
    exact ⟨rfl, by simp⟩
  | cons c rest ih =>
    simp only [splitAtFirst] at h
    by_cases hc : p c
    · rw [if_pos hc] at h
      exact absurd (congrArg Prod.snd h) (by simp)
    · rw [if_neg hc] at h
      have h2 : (splitAtFirst p rest).2 = none := congrArg Prod.snd h
      rcases e : splitAtFirst p rest with ⟨a2, _ | b2⟩
      · obtain ⟨ha2, hall⟩ := ih a2 e
        rw [e] at h
        have : a = c :: a2 := (congrArg Prod.fst h).symm
        subst this
        refine ⟨by rw [ha2], ?_⟩
        intro x hx
        rcases List.mem_cons.mp hx with rfl | hx2
        · simpa using hc
        · exact hall x hx2
      · rw [e] at h2
        simp at h2

/-- Specification of splitAtFirst on a successful find. -/
theorem splitAtFirst_spec_some (p : Char → Bool) (l a b : Str)
    (h : splitAtFirst p l = (a, some b)) :
    ∃ c, l = a ++ c :: b ∧ p c = true ∧ ∀ x ∈ a, p x = false := by
  induction l generalizing a with
  | nil =>
    simp only [splitAtFirst] at h
    exact absurd (congrArg Prod.snd h) (by simp)
  | cons c rest ih =>
    simp only [splitAtFirst] at h
    by_cases hc : p c
    · rw [if_pos hc] at h
      have h1 : a = [] := (congrArg Prod.fst h).symm
      have h2 : b = rest := by
        have := congrArg Prod.snd h
        simpa using this.symm
      subst h1
      subst h2
      exact ⟨c, rfl, hc, by simp⟩
    · rw [if_neg hc] at h
      rcases e : splitAtFirst p rest with ⟨a2, _ | b2⟩
      · rw [e] at h
        exact absurd (congrArg Prod.snd h) (by simp)
      · rw [e] at h
        have h1 : a = c :: a2 := (congrArg Prod.fst h).symm
        have h2 : b = b2 := by
          have := congrArg Prod.snd h
          simpa using this.symm
        subst h1
        subst h2
        obtain ⟨d, hd1, hd2, hd3⟩ := ih a2 e
        refine ⟨d, by rw [hd1]; rfl, hd2, ?_⟩
        intro x hx
        rcases List.mem_cons.mp hx with rfl | hx2
        · simpa using hc
        · exact hd3 x hx2

/-- splitLast yields none exactly on absent characters (one direction). -/
theorem splitLast_none_of_not_mem (ch : Char) (l : Str) (h : ch ∉ l) :
    splitLast ch l = none := by
  induction l with
  | nil => rfl
  | cons c rest ih =>
    have hc : c ≠ ch := fun hc => h (hc ▸ List.mem_cons_self c rest)
    simp only [splitLast, ih fun hm => h (List.mem_cons_of_mem c hm)]
    simp [hc]

/-- splitLast yields none only on absent characters. -/
theorem splitLast_none_not_mem (ch : Char) (l : Str) (h : splitLast ch l = none) :
    ch ∉ l := by
  intro hmem
  obtain ⟨pre, suf, hl⟩ := List.append_of_mem hmem
  rw [hl] at h
  exact splitLast_ch_mem ch pre suf h

/-- A string without semicolons has none in its last segment. -/
theorem noSemiLast_of_not_mem (p : Str) (h : ';' ∉ p) : noSemiLast p := by
  unfold noSemiLast
  rcases e : splitLast '/' p with _ | ⟨a, b⟩
  · exact h
  · obtain ⟨h1, _⟩ := splitLast_spec '/' p a b e
    intro hmem
    rw [h1] at h
    exact h (List.mem_append_right a (List.mem_cons_of_mem '/' hmem))

/-- splitparams is the identity on paths with a semicolon-free last
segment. -/
theorem splitparams_of_noSemiLast (p : Str) (h : noSemiLast p) :
    splitparams p = (p, []) := by
  unfold noSemiLast at h
  unfold splitparams
  split
  · rename_i a b e
    rw [e] at h
    split
    · rename_i b1 b2 e2
      obtain ⟨c, hb1, hbc, hall⟩ := splitAtFirst_spec_some _ b b1 b2 e2
      have hcs : c = ';' := by simpa using hbc
      subst hcs
      exact absurd (show (';') ∈ b by
        rw [hb1]; exact List.mem_append_right _ (List.mem_cons_self _ _)) h
    · rfl
  · rename_i e
    rw [e] at h
    split
    · rename_i u1 u2 e2
      obtain ⟨c, hp1, hpc, hall⟩ := splitAtFirst_spec_some _ p u1 u2 e2
      have hcs : c = ';' := by simpa using hpc
      subst hcs
      exact absurd (show (';') ∈ p by
        rw [hp1]; exact List.mem_append_right _ (List.mem_cons_self _ _)) h
    · rfl

/-- The path part returned by splitparams has a semicolon-free last
segment. -/
theorem noSemiLast_splitparams (p : Str) : noSemiLast (splitparams p).1 := by
  unfold splitparams
  split
  · rename_i a b e
    split
    · rename_i b1 b2 e2
      obtain ⟨c, hb1, hbc, hall⟩ := splitAtFirst_spec_some _ b b1 b2 e2
      obtain ⟨hp, hnb⟩ := splitLast_spec '/' p a b e
      have hnb1 : ';' ∉ b1 := fun hm => by simpa using hall ';' hm
      have hslash1 : '/' ∉ b1 := by
        intro hmem
        apply hnb
        rw [hb1]
        exact List.mem_append_left _ hmem
      show noSemiLast (a ++ '/' :: b1)
      unfold noSemiLast
      rw [splitLast_append_cons '/' a b1 hslash1]
      exact hnb1
    · rename_i b1 e2
      obtain ⟨hb1e, hall⟩ := splitAtFirst_spec_none _ b b1 e2
      show noSemiLast p
      unfold noSemiLast
      rw [e]
      exact fun hm => by simpa using hall ';' hm
  · rename_i e
    split
    · rename_i u1 u2 e2
      obtain ⟨c, hp1, hpc, hall⟩ := splitAtFirst_spec_some _ p u1 u2 e2
      have hnu : ';' ∉ u1 := fun hm => by simpa using hall ';' hm
      have hslash : '/' ∉ u1 := by
        intro hmem
        have hmp : '/' ∈ p := by
          rw [hp1]
          exact List.mem_append_left _ hmem
        obtain ⟨pre, suf, hps⟩ := List.append_of_mem hmp
        rw [hps] at e
        exact splitLast_ch_mem '/' pre suf e
      show noSemiLast u1
      unfold noSemiLast
      rw [splitLast_none_of_not_mem '/' u1 hslash]
      exact hnu
    · rename_i u1 e2
      obtain ⟨ha, hall⟩ := splitAtFirst_spec_none _ p u1 e2
      show noSemiLast p
      exact noSemiLast_of_not_mem p (fun hm => by simpa using hall ';' hm)

/-- Unsafe-byte removal is the identity on clean strings. -/
theorem removeUnsafe_eq_self (s : Str) (h : cleanStr s) : removeUnsafe s = s := by
  unfold removeUnsafe
  refine List.filter_eq_self.mpr ?_
  intro a ha
  obtain ⟨h1, h2, h3⟩ := h a ha
  simp [h1, h2, h3]

/-- urlsplit recovers the components of a well-formed constructed URL
with scheme, netloc, optional absolute path and optional query. -/
theorem pyUrlsplit_mk (s n p qp : Str)
    (hv : validScheme s) (hcs : ':' ∉ s)
    (hclean : cleanStr (s ++ ':' :: '/' :: '/' :: (n ++ (p ++ qp))))
    (hn : ∀ x ∈ n, isNetlocEnd x = false)
    (hp : p = [] ∨ ∃ p2, p = '/' :: p2)
    (hpf : '#' ∉ p) (hpq : '?' ∉ p)
    (hq : qp = [] ∨ ∃ q, qp = '?' :: q ∧ '#' ∉ q) :
    pyUrlsplit (s ++ ':' :: '/' :: '/' :: (n ++ (p ++ qp))) =
      ⟨lowerAscii s, n, p, qp.drop 1, []⟩ := by
  have hrest : p ++ qp = [] ∨
      ∃ c rest2, p ++ qp = c :: rest2 ∧ isNetlocEnd c = true := by
    rcases hp with rfl | ⟨p2, rfl⟩
    · rcases hq with rfl | ⟨q, rfl, _⟩
      · exact Or.inl rfl
      · exact Or.inr ⟨'?', q, rfl, by decide⟩
    · exact Or.inr ⟨'/', p2 ++ qp, rfl, by decide⟩
  have hnof : '#' ∉ p ++ qp := by
    intro hmem
    rcases List.mem_append.mp hmem with hm | hm
    · exact hpf hm
    · rcases hq with rfl | ⟨q, rfl, hqf⟩
      · simp at hm
      · rcases List.mem_cons.mp hm with he | hm2
        · exact absurd he (by decide)
        · exact hqf hm2
  simp only [pyUrlsplit]
  rw [removeUnsafe_eq_self _ hclean, schemeSplit_mk s _ hv hcs]
  dsimp only
  rw [netlocSplit_mk n (p ++ qp) hn hrest]
  dsimp only
  rw [cutAtFirst_no '#' (p ++ qp) hnof]
  dsimp only
  rcases hq with rfl | ⟨q, rfl, hqf⟩
  · rw [List.append_nil, cutAtFirst_no '?' p hpq]
    rfl
  · rw [cutAtFirst_found '?' p q hpq]
    rfl

/-- urlparse on a url whose split is known and whose path has a clean
last segment for params purposes. -/
theorem pyUrlparse_mk (u s n p q f : Str)
    (hsplit : pyUrlsplit u = ⟨s, n, p, q, f⟩)
    (hps : s ∈ usesParams → noSemiLast p) :
    pyUrlparse u = ⟨s, n, p, [], q, f⟩ := by
  simp only [pyUrlparse]
  rw [hsplit]
  dsimp only
  by_cases hc : s ∈ usesParams ∧ ';' ∈ p
  · rw [if_pos hc, splitparams_of_noSemiLast p (hps hc.1)]
  · rw [if_neg hc]

/-- Validity bounds of a character code point. -/
theorem char_valid_bounds (c : Char) :
    c.toNat < 0xD800 ∨ (0xDFFF < c.toNat ∧ c.toNat < 0x110000) := by
  have h := c.valid
  unfold UInt32.isValidChar Nat.isValidChar at h
  exact h

/-- Decoding inverts the UTF-8 encoding of one valid code point, in front
of any remaining byte stream. -/
theorem utf8Decode_encode (c : Char) (bs : List Nat) :
    utf8Decode (utf8EncodeChar c.toNat ++ bs) = c :: utf8Decode bs := by
  have hval := char_valid_bounds c
  have hofn := Char.ofNat_toNat c
  set m := c.toNat with hm
  have hlt : m < 0x110000 := by omega
  by_cases h1 : m < 0x80
  · have henc : utf8EncodeChar m = [m] := by
      simp only [utf8EncodeChar]
      rw [if_pos h1]
    rw [henc]
    show utf8Decode (m :: bs) = c :: utf8Decode bs
    conv_lhs => unfold utf8Decode
    rw [if_pos h1, hofn]
  · by_cases h2 : m < 0x800
    · have henc : utf8EncodeChar m = [0xC0 + m / 64, 0x80 + m % 64] := by
        simp only [utf8EncodeChar]
        rw [if_neg h1, if_pos h2]
      rw [henc]
      show utf8Decode ((0xC0 + m / 64) :: (0x80 + m % 64) :: bs) = c :: utf8Decode bs
      conv_lhs => unfold utf8Decode
      rw [if_neg (by omega), if_neg (by omega), if_pos (by omega)]
      dsimp only
      rw [if_pos (by simp only [utf8Cont, Bool.and_eq_true, decide_eq_true_eq]; omega)]
      have hv : (0xC0 + m / 64 - 0xC0) * 64 + (0x80 + m % 64 - 0x80) = m := by omega
      rw [hv, hofn]
    · by_cases h3 : m < 0x10000
      · have henc : utf8EncodeChar m =
            [0xE0 + m / 4096, 0x80 + (m / 64) % 64, 0x80 + m % 64] := by
          simp only [utf8EncodeChar]
          rw [if_neg h1, if_neg h2, if_pos h3]
        rw [henc]
        show utf8Decode ((0xE0 + m / 4096) :: (0x80 + (m / 64) % 64) ::
          (0x80 + m % 64) :: bs) = c :: utf8Decode bs
        conv_lhs => unfold utf8Decode
        rw [if_neg (by omega), if_neg (by omega), if_neg (by omega),
          if_pos (by omega)]
        dsimp only
        have hcond : (if 0xE0 + m / 4096 = 0xE0 then
            decide (0xA0 ≤ 0x80 + (m / 64) % 64) && decide (0x80 + (m / 64) % 64 < 0xC0)
          else if 0xE0 + m / 4096 = 0xED then
            decide (0x80 ≤ 0x80 + (m / 64) % 64) && decide (0x80 + (m / 64) % 64 < 0xA0)
          else utf8Cont (0x80 + (m / 64) % 64)) = true := by
          by_cases hE0 : 0xE0 + m / 4096 = 0xE0
          · rw [if_pos hE0]
            simp only [Bool.and_eq_true, decide_eq_true_eq]
            omega
          · rw [if_neg hE0]
            by_cases hED : 0xE0 + m / 4096 = 0xED
            · rw [if_pos hED]
              simp only [Bool.and_eq_true, decide_eq_true_eq]
              omega
            · rw [if_neg hED]
              simp only [utf8Cont, Bool.and_eq_true, decide_eq_true_eq]
              omega
        rw [if_pos hcond]
        rw [if_pos (by simp only [utf8Cont, Bool.and_eq_true, decide_eq_true_eq]; omega)]
        have hv : (0xE0 + m / 4096 - 0xE0) * 4096 + (0x80 + (m / 64) % 64 - 0x80) * 64 +
            (0x80 + m % 64 - 0x80) = m := by omega
        rw [hv, hofn]
      · have henc : utf8EncodeChar m = [0xF0 + m / 262144, 0x80 + (m / 4096) % 64,
            0x80 + (m / 64) % 64, 0x80 + m % 64] := by
          simp only [utf8EncodeChar]
          rw [if_neg h1, if_neg h2, if_neg h3]
        rw [henc]
        show utf8Decode ((0xF0 + m / 262144) :: (0x80 + (m / 4096) % 64) ::
          (0x80 + (m / 64) % 64) :: (0x80 + m % 64) :: bs) = c :: utf8Decode bs
        conv_lhs => unfold utf8Decode
        rw [if_neg (by omega), if_neg (by omega), if_neg (by omega),
          if_neg (by omega), if_pos (by omega)]
        dsimp only
        have hcond : (if 0xF0 + m / 262144 = 0xF0 then
            decide (0x90 ≤ 0x80 + (m / 4096) % 64) && decide (0x80 + (m / 4096) % 64 < 0xC0)
          else if 0xF0 + m / 262144 = 0xF4 then
            decide (0x80 ≤ 0x80 + (m / 4096) % 64) && decide (0x80 + (m / 4096) % 64 < 0x90)
          else utf8Cont (0x80 + (m / 4096) % 64)) = true := by
          by_cases hF0 : 0xF0 + m / 262144 = 0xF0
          · rw [if_pos hF0]
            simp only [Bool.and_eq_true, decide_eq_true_eq]
            omega
          · rw [if_neg hF0]
            by_cases hF4 : 0xF0 + m / 262144 = 0xF4
            · rw [if_pos hF4]
              simp only [Bool.and_eq_true, decide_eq_true_eq]
              omega
            · rw [if_neg hF4]
              simp only [utf8Cont, Bool.and_eq_true, decide_eq_true_eq]
              omega
        rw [if_pos hcond]
        rw [if_pos (by simp only [utf8Cont, Bool.and_eq_true, decide_eq_true_eq]; omega)]
        rw [if_pos (by simp only [utf8Cont, Bool.and_eq_true, decide_eq_true_eq]; omega)]
        have hv : (0xF0 + m / 262144 - 0xF0) * 262144 +
            (0x80 + (m / 4096) % 64 - 0x80) * 4096 +
            (0x80 + (m / 64) % 64 - 0x80) * 64 + (0x80 + m % 64 - 0x80) = m := by omega
        rw [hv, hofn]

/-- Decoding inverts the UTF-8 encoding of a whole string. -/
theorem utf8Decode_flatMap (s : Str) :
    utf8Decode (s.flatMap (fun c => utf8EncodeChar c.toNat)) = s := by
  induction s with
  | nil => rfl
  | cons c rest ih =>
    rw [List.flatMap_cons, utf8Decode_encode, ih]

/-- UTF-8 encodings are nonempty. -/
theorem utf8EncodeChar_ne_nil (n : Nat) : utf8EncodeChar n ≠ [] := by
  unfold utf8EncodeChar
  split
  · simp
  · split
    · simp
    · split <;> simp

/-- Bytes of a UTF-8 encoding are below 256. -/
theorem utf8EncodeChar_bytes_lt (n : Nat) (h : n < 0x110000) :
    ∀ b ∈ utf8EncodeChar n, b < 256 := by
  intro b hb
  unfold utf8EncodeChar at hb
  split at hb
  · simp at hb
    omega
  · split at hb
    · simp at hb
      rcases hb with rfl | rfl <;> omega
    · split at hb
      · simp at hb
        rcases hb with rfl | rfl | rfl <;> omega
      · simp at hb
        rcases hb with rfl | rfl | rfl | rfl <;> omega

/-- hexVal inverts the uppercase hex digit of a value below 16. -/
theorem hexVal_hexDigitChar (n : Nat) (h : n < 16) :
    hexVal (hexDigitChar n) = some n := by
  interval_cases n <;> decide

/-- pctBytes consumes one percent-encoded byte. -/
theorem pctBytes_pctEnc (b : Nat) (hb : b < 256) (rest : Str) :
    pctBytes (pctEncByte b ++ rest) = b :: pctBytes rest := by
  show pctBytes ('%' :: hexDigitChar (b / 16) :: hexDigitChar (b % 16) :: rest) = _
  conv_lhs => unfold pctBytes
  rw [if_pos rfl]
  dsimp only
  rw [hexVal_hexDigitChar _ (by omega), hexVal_hexDigitChar _ (by omega)]
  dsimp only
  have hv : b / 16 * 16 + b % 16 = b := by omega
  rw [hv]

/-- pctBytes consumes a whole percent-encoded byte list. -/
theorem pctBytes_pctEnc_list (bs : List Nat) (hb : ∀ b ∈ bs, b < 256) (rest : Str) :
    pctBytes (bs.flatMap pctEncByte ++ rest) = bs ++ pctBytes rest := by
  induction bs with
  | nil => simp
  | cons b bs2 ih =>
    rw [List.flatMap_cons, List.append_assoc,
      pctBytes_pctEnc b (hb b (List.mem_cons_self b bs2)) _,
      ih fun x hx => hb x (List.mem_cons_of_mem b hx)]
    rfl

/-- plusToSpace distributes over append. -/
theorem plusToSpace_append (a b : Str) :
    plusToSpace (a ++ b) = plusToSpace a ++ plusToSpace b :=
  List.map_append _ a b

/-- plusToSpace fixes strings with no plus sign. -/
theorem plusToSpace_of_not_mem (l : Str) (h : '+' ∉ l) : plusToSpace l = l := by
  induction l with
  | nil => rfl
  | cons c rest ih =>
    have hc : c ≠ '+' := fun hc => h (hc ▸ List.mem_cons_self c rest)
    have hrest : '+' ∉ rest := fun hm => h (List.mem_cons_of_mem c hm)
    simp only [plusToSpace, List.map_cons, if_neg hc]
    exact congrArg (c :: ·) (ih hrest)

/-- Hex digits of values below 16 are never the plus sign. -/
theorem hexDigitChar_ne_plus (n : Nat) (h : n < 16) : hexDigitChar n ≠ '+' := by
  interval_cases n <;> decide

/-- pctBytes turns one encoded character back into its UTF-8 bytes. -/
theorem pctBytes_quoteChar (c : Char) (rest : Str) :
    pctBytes (plusToSpace (quoteChar c) ++ rest) =
      utf8EncodeChar c.toNat ++ pctBytes rest := by
  unfold quoteChar
  by_cases hsp : c = ' '
  · rw [if_pos hsp]
    subst hsp
    show pctBytes (' ' :: rest) = _
    conv_lhs => unfold pctBytes
    rw [if_neg (by decide)]
  · rw [if_neg hsp]
    by_cases hsafe : isQuoteSafe c = true
    · rw [if_pos hsafe]
      have hplus : c ≠ '+' := by
        intro h
        rw [h] at hsafe
        exact absurd hsafe (by decide)
      have hpct : c ≠ '%' := by
        intro h
        rw [h] at hsafe
        exact absurd hsafe (by decide)
      have hmap : plusToSpace [c] = [c] := by
        simp [plusToSpace, hplus]
      rw [hmap]
      show pctBytes (c :: rest) = _
      conv_lhs => unfold pctBytes
      rw [if_neg hpct]
    · rw [if_neg hsafe]
      have hbytes : ∀ b ∈ utf8EncodeChar c.toNat, b < 256 :=
        utf8EncodeChar_bytes_lt _ (by
          have := char_valid_bounds c
          omega)
      have hnoplus : '+' ∉ (utf8EncodeChar c.toNat).flatMap pctEncByte := by
        intro hm
        rw [List.mem_flatMap] at hm
        obtain ⟨b, hb, hcm⟩ := hm
        have hblt : b < 256 := hbytes b hb
        simp only [pctEncByte, List.mem_cons, List.not_mem_nil, or_false] at hcm
        rcases hcm with h1 | h2 | h3
        · exact absurd h1 (by decide)
        · exact hexDigitChar_ne_plus (b / 16) (by omega) h2.symm
        · exact hexDigitChar_ne_plus (b % 16) (by omega) h3.symm
      rw [plusToSpace_of_not_mem _ hnoplus, pctBytes_pctEnc_list _ hbytes]

/-- Unquoting inverts quote_plus encoding. -/
theorem unquote_plus_quote_plus (v : Str) : unquote_plus (quote_plus v) = v := by
  have hgen : ∀ (w rest : Str), pctBytes (plusToSpace (quote_plus w) ++ rest) =
      w.flatMap (fun c => utf8EncodeChar c.toNat) ++ pctBytes rest := by
    intro w
    induction w with
    | nil =>
      intro rest
      simp [quote_plus, plusToSpace]
    | cons c w2 ih =>
      intro rest
      show pctBytes (plusToSpace (quoteChar c ++ quote_plus w2) ++ rest) = _
      rw [plusToSpace_append, List.append_assoc, pctBytes_quoteChar, ih rest]
      simp [List.flatMap_cons, List.append_assoc]
  have h := hgen v []
  simp only [List.append_nil] at h
  unfold unquote_plus pyUnquote
  rw [h]
  have hnil : pctBytes [] = [] := rfl
  rw [hnil, List.append_nil, utf8Decode_flatMap]

/-- Each quoted character block is nonempty. -/
theorem quoteChar_ne_nil (c : Char) : quoteChar c ≠ [] := by
  unfold quoteChar
  split
  · simp
  · split
    · simp
    · have hne := utf8EncodeChar_ne_nil c.toNat
      cases hu : utf8EncodeChar c.toNat with
      | nil => exact absurd hu hne
      | cons b bs => simp [pctEncByte]

/-- quote_plus of a nonempty string is nonempty. -/
theorem quote_plus_ne_nil (s : Str) (h : s ≠ []) : quote_plus s ≠ [] := by
  cases s with
  | nil => exact absurd rfl h
  | cons c r =>
    show quoteChar c ++ quote_plus r ≠ []
    exact fun hh => quoteChar_ne_nil c (List.append_eq_nil.mp hh).1

/-- pctBytes of a nonempty string is nonempty. -/
theorem pctBytes_ne_nil (l : Str) (h : l ≠ []) : pctBytes l ≠ [] := by
  cases l with
  | nil => exact absurd rfl h
  | cons c rest =>
    unfold pctBytes
    repeat' split
    all_goals simp [List.append_eq_nil, utf8EncodeChar_ne_nil]

/-- utf8Decode of a nonempty byte list is nonempty. -/
theorem utf8Decode_ne_nil (bs : List Nat) (h : bs ≠ []) : utf8Decode bs ≠ [] := by
  cases bs with
  | nil => exact absurd rfl h
  | cons b0 rest =>
    unfold utf8Decode
    repeat' split
    all_goals simp

/-- unquote_plus of a nonempty string is nonempty. -/
theorem unquote_plus_ne_nil (s : Str) (h : s ≠ []) : unquote_plus s ≠ [] := by
  unfold unquote_plus pyUnquote
  apply utf8Decode_ne_nil
  apply pctBytes_ne_nil
  cases s with
  | nil => exact absurd rfl h
  | cons c r => simp [plusToSpace]

/-- Hex digits of values below 16 are quote-safe characters. -/
theorem isQuoteSafe_hexDigitChar (n : Nat) (h : n < 16) :
    isQuoteSafe (hexDigitChar n) = true := by
  interval_cases n <;> decide

/-- Every character emitted by quote_plus is a plus, a safe character or a
percent sign (hex digits being safe). -/
theorem quote_plus_chars (v : Str) :
    ∀ c ∈ quote_plus v, c = '+' ∨ isQuoteSafe c = true ∨ c = '%' := by
  intro c hc
  rw [quote_plus, List.mem_flatMap] at hc
  obtain ⟨ch, hch, hcm⟩ := hc
  unfold quoteChar at hcm
  split at hcm
  · simp only [List.mem_singleton] at hcm
    exact Or.inl hcm
  · split at hcm
    · rename_i hsafe
      simp only [List.mem_singleton] at hcm
      exact Or.inr (Or.inl (hcm ▸ hsafe))
    · rw [List.mem_flatMap] at hcm
      obtain ⟨b, hb, hbm⟩ := hcm
      have hblt : b < 256 :=
        utf8EncodeChar_bytes_lt _ (by have := char_valid_bounds ch; omega) b hb
      simp only [pctEncByte, List.mem_cons, List.not_mem_nil, or_false] at hbm
      rcases hbm with rfl | rfl | rfl
      · exact Or.inr (Or.inr rfl)
      · exact Or.inr (Or.inl (isQuoteSafe_hexDigitChar _ (by omega)))
      · exact Or.inr (Or.inl (isQuoteSafe_hexDigitChar _ (by omega)))

/-- Characters failing all three output classes never occur in quote_plus
output. -/
theorem not_mem_quote_plus (v : Str) (c : Char) (h1 : c ≠ '+')
    (h2 : isQuoteSafe c = false) (h3 : c ≠ '%') : c ∉ quote_plus v := by
  intro hm
  rcases quote_plus_chars v c hm with hc | hc | hc
  · exact h1 hc
  · rw [hc] at h2
    cases h2
  · exact h3 hc

/-- Membership in a joined list comes from the separator or a field. -/
theorem mem_joinChar (ch : Char) (fs : List Str) (c : Char)
    (h : c ∈ joinChar ch fs) : c = ch ∨ ∃ f ∈ fs, c ∈ f := by
  induction fs with
  | nil => cases h
  | cons f fs2 ih =>
    cases fs2 with
    | nil =>
      exact Or.inr ⟨f, List.mem_cons_self f [], h⟩
    | cons g gs =>
      rw [show joinChar ch (f :: g :: gs) = f ++ ch :: joinChar ch (g :: gs) from rfl,
        List.mem_append, List.mem_cons] at h
      rcases h with h | h | h
      · exact Or.inr ⟨f, List.mem_cons_self f _, h⟩
      · exact Or.inl h
      · rcases ih h with h2 | ⟨f2, hf2, hc2⟩
        · exact Or.inl h2
        · exact Or.inr ⟨f2, List.mem_cons_of_mem f hf2, hc2⟩

/-- Every character of an encoded query is an ampersand, an equals sign,
a plus, a safe character or a percent sign. -/
theorem urlencodeItems_chars (items : List (Str × Str)) :
    ∀ c ∈ urlencodeItems items,
      c = '&' ∨ c = '=' ∨ c = '+' ∨ isQuoteSafe c = true ∨ c = '%' := by
  intro c hc
  rcases mem_joinChar _ _ _ hc with rfl | ⟨f, hf, hcf⟩
  · exact Or.inl rfl
  · rw [List.mem_map] at hf
    obtain ⟨kv, _, rfl⟩ := hf
    rw [List.mem_append, List.mem_cons] at hcf
    rcases hcf with h | h | h
    · rcases quote_plus_chars _ c h with h2 | h2 | h2
      · exact Or.inr (Or.inr (Or.inl h2))
      · exact Or.inr (Or.inr (Or.inr (Or.inl h2)))
      · exact Or.inr (Or.inr (Or.inr (Or.inr h2)))
    · exact Or.inr (Or.inl h)
    · rcases quote_plus_chars _ c h with h2 | h2 | h2
      · exact Or.inr (Or.inr (Or.inl h2))
      · exact Or.inr (Or.inr (Or.inr (Or.inl h2)))
      · exact Or.inr (Or.inr (Or.inr (Or.inr h2)))

/-- Characters failing all five output classes never occur in an encoded
query. -/
theorem not_mem_urlencodeItems (items : List (Str × Str)) (c : Char)
    (h0 : c ≠ '&') (h1 : c ≠ '=') (h2 : c ≠ '+') (h3 : isQuoteSafe c = false)
    (h4 : c ≠ '%') : c ∉ urlencodeItems items := by
  intro hm
  rcases urlencodeItems_chars items c hm with h | h | h | h | h
  · exact h0 h
  · exact h1 h
  · exact h2 h
  · rw [h] at h3
    cases h3
  · exact h4 h

/-- splitOnChar leaves a separator-free string whole. -/
theorem splitOnChar_no (ch : Char) (l : Str) (h : ch ∉ l) :
    splitOnChar ch l = [l] := by
  induction l with
  | nil => rfl
  | cons c rest ih =>
    have hc : c ≠ ch := fun hc => h (hc ▸ List.mem_cons_self c rest)
    have hrest := ih fun hm => h (List.mem_cons_of_mem c hm)
    simp only [splitOnChar, hrest, if_neg hc]

/-- splitOnChar peels one separator-free field before a separator. -/
theorem splitOnChar_app (ch : Char) (p rest : Str) (h : ch ∉ p) :
    splitOnChar ch (p ++ ch :: rest) = p :: splitOnChar ch rest := by
  induction p with
  | nil => simp [splitOnChar]
  | cons d p2 ih =>
    have hd : d ≠ ch := fun hc => h (hc ▸ List.mem_cons_self d p2)
    have hih := ih fun hm => h (List.mem_cons_of_mem d hm)
    simp only [List.cons_append, splitOnChar, hih, if_neg hd]
    have h2 : splitOnChar ch (List.append p2 (ch :: rest)) =
        p2 :: splitOnChar ch rest := hih
    rw [h2]

/-- str.join recovers the field list through str.split. -/
theorem splitOnChar_join (ch : Char) (fs : List Str) (hne : fs ≠ [])
    (h : ∀ f ∈ fs, ch ∉ f) : splitOnChar ch (joinChar ch fs) = fs := by
  induction fs with
  | nil => exact absurd rfl hne
  | cons f fs2 ih =>
    cases fs2 with
    | nil =>
      exact splitOnChar_no ch f (h f (List.mem_cons_self f []))
    | cons g gs =>
      rw [show joinChar ch (f :: g :: gs) = f ++ ch :: joinChar ch (g :: gs) from rfl,
        splitOnChar_app ch f _ (h f (List.mem_cons_self f _)),
        ih (by simp) fun x hx => h x (List.mem_cons_of_mem f hx)]

/-- parse_qsl inverts urlencode on items with nonempty values. -/
theorem parse_qsl_urlencodeItems (items : List (Str × Str))
    (hv : ∀ kv ∈ items, kv.2 ≠ []) :
    parse_qsl (urlencodeItems items) = items := by
  cases items with
  | nil => rfl
  | cons kv0 rest0 =>
    have hfields : splitOnChar '&' (urlencodeItems (kv0 :: rest0)) =
        (kv0 :: rest0).map (fun kv => quote_plus kv.1 ++ '=' :: quote_plus kv.2) := by
      apply splitOnChar_join
      · simp
      · intro f hf
        rw [List.mem_map] at hf
        obtain ⟨kv, _, rfl⟩ := hf
        intro hm
        rw [List.mem_append, List.mem_cons] at hm
        rcases hm with hm | hm | hm
        · exact not_mem_quote_plus _ '&' (by decide) (by decide) (by decide) hm
        · cases hm
        · exact not_mem_quote_plus _ '&' (by decide) (by decide) (by decide) hm
    rw [parse_qsl, hfields]
    generalize kv0 :: rest0 = items0 at hv
    clear hfields
    induction items0 with
    | nil => rfl
    | cons kv rest ih =>
      rw [List.map_cons, List.foldr_cons,
        ih fun x hx => hv x (List.mem_cons_of_mem kv hx)]
      have hnonnil : quote_plus kv.1 ++ '=' :: quote_plus kv.2 ≠ [] := by simp
      rw [if_neg hnonnil]
      have hsplit : splitAtFirst (fun c => c = '=')
          (quote_plus kv.1 ++ '=' :: quote_plus kv.2) =
          (quote_plus kv.1, some (quote_plus kv.2)) := by
        apply splitAtFirst_found
        · intro x hx
          exact decide_eq_false fun hx2 : x = '=' =>
            not_mem_quote_plus _ '=' (by decide) (by decide) (by decide) (hx2 ▸ hx)
        · simp
      rw [hsplit]
      dsimp only
      rw [if_neg (quote_plus_ne_nil _ (hv kv (List.mem_cons_self kv rest))),
        unquote_plus_quote_plus, unquote_plus_quote_plus]

/-- Inserting a fresh key appends a new singleton group. -/
theorem groupInsert_not_mem (k v : Str) (acc : List (Str × List Str))
    (h : k ∉ acc.map Prod.fst) : groupInsert k v acc = acc ++ [(k, [v])] := by
  induction acc with
  | nil => rfl
  | cons kv rest ih =>
    obtain ⟨k2, vs⟩ := kv
    simp only [List.map_cons, List.mem_cons, not_or] at h
    obtain ⟨hk, hrest⟩ := h
    simp only [groupInsert, if_neg (fun he : k2 = k => hk he.symm), ih hrest,
      List.cons_append]

/-- Inserting a key held by the last group appends to its values. -/
theorem groupInsert_last (k v : Str) (acc : List (Str × List Str)) (ws : List Str)
    (h : k ∉ acc.map Prod.fst) :
    groupInsert k v (acc ++ [(k, ws)]) = acc ++ [(k, ws ++ [v])] := by
  induction acc with
  | nil => simp [groupInsert]
  | cons kv rest ih =>
    obtain ⟨k2, vs⟩ := kv
    simp only [List.map_cons, List.mem_cons, not_or] at h
    obtain ⟨hk, hrest⟩ := h
    simp only [List.cons_append, groupInsert, if_neg (fun he : k2 = k => hk he.symm)]
    have h2 : groupInsert k v (List.append rest [(k, ws)]) =
        rest ++ [(k, ws ++ [v])] := ih hrest
    rw [h2]

/-- Folding one group's items extends the trailing group of that key. -/
theorem foldl_group_vals (k : Str) (vs : List Str) (acc : List (Str × List Str))
    (ws : List Str) (h : k ∉ acc.map Prod.fst) :
    (vs.map fun v => (k, v)).foldl (fun a kv => groupInsert kv.1 kv.2 a)
      (acc ++ [(k, ws)]) = acc ++ [(k, ws ++ vs)] := by
  induction vs generalizing ws with
  | nil => simp
  | cons v vs2 ih =>
    rw [List.map_cons, List.foldl_cons]
    dsimp only
    rw [groupInsert_last k v acc ws h, ih (ws ++ [v])]
    simp [List.append_assoc]

/-- Grouping the flattened items of a grouped query recovers the groups. -/
theorem foldl_groupInsert_flat (gl : List (Str × List Str)) :
    ∀ acc, ((gl.map Prod.fst).Nodup) → (∀ kv ∈ gl, kv.2 ≠ []) →
    (∀ kv ∈ gl, kv.1 ∉ acc.map Prod.fst) →
    (gl.flatMap fun kv => kv.2.map fun v => (kv.1, v)).foldl
      (fun a kv => groupInsert kv.1 kv.2 a) acc = acc ++ gl := by
  induction gl with
  | nil =>
    intro acc _ _ _
    simp
  | cons g gl2 ih =>
    intro acc hnd hvne hdisj
    obtain ⟨k, vs⟩ := g
    rcases vs with _ | ⟨v, vs2⟩
    · exact absurd rfl (hvne (k, []) (List.mem_cons_self _ _))
    rw [List.flatMap_cons, List.foldl_append, List.map_cons, List.foldl_cons]
    dsimp only
    have hkacc : k ∉ acc.map Prod.fst := hdisj (k, v :: vs2) (List.mem_cons_self _ _)
    rw [groupInsert_not_mem k v acc hkacc,
      show acc ++ [(k, [v])] = acc ++ [(k, [] ++ [v])] from rfl,
      foldl_group_vals k vs2 acc ([] ++ [v]) hkacc]
    rw [List.map_cons] at hnd
    have hk2 : k ∉ gl2.map Prod.fst := (List.nodup_cons.mp hnd).1
    have hnd2 : (gl2.map Prod.fst).Nodup := (List.nodup_cons.mp hnd).2
    rw [ih (acc ++ [(k, [] ++ [v] ++ vs2)]) hnd2
      (fun kv hm => hvne kv (List.mem_cons_of_mem _ hm))
      (by
        intro kv hm
        rw [List.map_append, List.mem_append]
        rintro (hin | hin)
        · exact hdisj kv (List.mem_cons_of_mem _ hm) hin
        · simp only [List.map_cons, List.map_nil, List.mem_singleton] at hin
          exact hk2 (hin ▸ List.mem_map_of_mem Prod.fst hm))]
    simp [List.append_assoc]

/-- Every value list of parse_qsl output is nonempty. -/
theorem parse_qsl_vals_ne_nil (qs : Str) : ∀ kv ∈ parse_qsl qs, kv.2 ≠ [] := by
  unfold parse_qsl
  generalize splitOnChar '&' qs = fields
  induction fields with
  | nil =>
    intro kv h
    cases h
  | cons f fs ih =>
    intro kv h
    rw [List.foldr_cons] at h
    split at h
    · exact ih kv h
    · split at h
      · exact ih kv h
      · split at h
        · exact ih kv h
        · rename_i v hsplit hv
          rw [List.mem_cons] at h
          rcases h with rfl | h
          · exact unquote_plus_ne_nil _ hv
          · exact ih kv h

/-- Keys of a grouped query after one insertion. -/
theorem groupInsert_keys (k v : Str) (acc : List (Str × List Str)) :
    (groupInsert k v acc).map Prod.fst =
      if k ∈ acc.map Prod.fst then acc.map Prod.fst
      else acc.map Prod.fst ++ [k] := by
  induction acc with
  | nil => simp [groupInsert]
  | cons kv rest ih =>
    obtain ⟨k2, vs⟩ := kv
    simp only [groupInsert, List.map_cons]
    by_cases hk : k2 = k
    · subst hk
      rw [if_pos rfl]
      simp
    · rw [if_neg hk, List.map_cons]
      dsimp only
      rw [ih]
      by_cases hm : k ∈ rest.map Prod.fst
      · rw [if_pos hm, if_pos (List.mem_cons_of_mem _ hm)]
      · rw [if_neg hm,
          if_neg (by
            simp only [List.mem_cons, not_or]
            exact ⟨fun h => hk h.symm, hm⟩), List.cons_append]

/-- Key distinctness of grouped queries is preserved by insertion. -/
theorem groupInsert_keys_nodup (k v : Str) (acc : List (Str × List Str))
    (h : (acc.map Prod.fst).Nodup) : ((groupInsert k v acc).map Prod.fst).Nodup := by
  rw [groupInsert_keys]
  by_cases hm : k ∈ acc.map Prod.fst
  · rw [if_pos hm]
    exact h
  · rw [if_neg hm, List.nodup_append]
    refine ⟨h, List.nodup_singleton k, fun a ha hb => ?_⟩
    rw [List.mem_singleton] at hb
    exact hm (hb ▸ ha)

/-- parse_qs yields groups with pairwise distinct keys. -/
theorem parse_qs_keys_nodup (qs : Str) : ((parse_qs qs).map Prod.fst).Nodup := by
  unfold parse_qs
  generalize parse_qsl qs = items
  have hgen : ∀ (its : List (Str × Str)) (acc : List (Str × List Str)),
      (acc.map Prod.fst).Nodup →
      ((its.foldl (fun a kv => groupInsert kv.1 kv.2 a) acc).map Prod.fst).Nodup := by
    intro its
    induction its with
    | nil => intro acc h; exact h
    | cons kv rest ih =>
      intro acc h
      rw [List.foldl_cons]
      exact ih _ (groupInsert_keys_nodup kv.1 kv.2 acc h)
  exact hgen items [] (by simp)

/-- Nonempty value lists of grouped queries are preserved by insertion. -/
theorem groupInsert_vals_ne_nil (k v : Str) (acc : List (Str × List Str))
    (h : ∀ kv ∈ acc, kv.2 ≠ []) : ∀ kv ∈ groupInsert k v acc, kv.2 ≠ [] := by
  induction acc with
  | nil =>
    intro kv hm
    rw [groupInsert, List.mem_singleton] at hm
    subst hm
    simp
  | cons g rest ih =>
    obtain ⟨k2, vs⟩ := g
    intro kv hm
    simp only [groupInsert] at hm
    by_cases hk : k2 = k
    · rw [if_pos hk, List.mem_cons] at hm
      rcases hm with rfl | hm
      · simp
      · exact h kv (List.mem_cons_of_mem _ hm)
    · rw [if_neg hk, List.mem_cons] at hm
      rcases hm with rfl | hm
      · exact h (k2, vs) (List.mem_cons_self _ _)
      · exact ih (fun x hx => h x (List.mem_cons_of_mem _ hx)) kv hm

/-- parse_qs yields groups with nonempty value lists. -/
theorem parse_qs_vals_ne_nil (qs : Str) : ∀ kv ∈ parse_qs qs, kv.2 ≠ [] := by
  unfold parse_qs
  generalize parse_qsl qs = items
  have hgen : ∀ (its : List (Str × Str)) (acc : List (Str × List Str)),
      (∀ kv ∈ acc, kv.2 ≠ []) →
      ∀ kv ∈ its.foldl (fun a kv => groupInsert kv.1 kv.2 a) acc, kv.2 ≠ [] := by
    intro its
    induction its with
    | nil => intro acc h; exact h
    | cons kv rest ih =>
      intro acc h
      rw [List.foldl_cons]
      exact ih _ (groupInsert_vals_ne_nil kv.1 kv.2 acc h)
  exact hgen items [] (by intro kv h; cases h)

/-- Nonempty value strings of grouped queries are preserved by insertion of
a nonempty value. -/
theorem groupInsert_vals_mem (k v : Str) (acc : List (Str × List Str))
    (hv : v ≠ []) (h : ∀ kv ∈ acc, ∀ w ∈ kv.2, w ≠ []) :
    ∀ kv ∈ groupInsert k v acc, ∀ w ∈ kv.2, w ≠ [] := by
  induction acc with
  | nil =>
    intro kv hm w hw
    rw [groupInsert, List.mem_singleton] at hm
    subst hm
    simp only [List.mem_singleton] at hw
    exact hw ▸ hv
  | cons g rest ih =>
    obtain ⟨k2, vs⟩ := g
    intro kv hm w hw
    simp only [groupInsert] at hm
    by_cases hk : k2 = k
    · rw [if_pos hk, List.mem_cons] at hm
      rcases hm with rfl | hm
      · simp only [List.mem_append, List.mem_singleton] at hw
        rcases hw with hw | rfl
        · exact h (k2, vs) (List.mem_cons_self _ _) w hw
        · exact hv
      · exact h kv (List.mem_cons_of_mem _ hm) w hw
    · rw [if_neg hk, List.mem_cons] at hm
      rcases hm with rfl | hm
      · exact h (k2, vs) (List.mem_cons_self _ _) w hw
      · exact ih (fun x hx => h x (List.mem_cons_of_mem _ hx)) kv hm w hw

/-- parse_qs yields only nonempty individual values. -/
theorem parse_qs_vals_mem_ne_nil (qs : Str) :
    ∀ kv ∈ parse_qs qs, ∀ w ∈ kv.2, w ≠ [] := by
  have hq := parse_qsl_vals_ne_nil qs
  unfold parse_qs
  have hgen : ∀ (its : List (Str × Str)), (∀ kv ∈ its, kv.2 ≠ []) →
      ∀ (acc : List (Str × List Str)), (∀ kv ∈ acc, ∀ w ∈ kv.2, w ≠ []) →
      ∀ kv ∈ its.foldl (fun a kv => groupInsert kv.1 kv.2 a) acc,
        ∀ w ∈ kv.2, w ≠ [] := by
    intro its
    induction its with
    | nil => intro _ acc h; exact h
    | cons kv rest ih =>
      intro hits acc h
      rw [List.foldl_cons]
      exact ih (fun x hx => hits x (List.mem_cons_of_mem _ hx)) _
        (groupInsert_vals_mem kv.1 kv.2 acc
          (hits kv (List.mem_cons_self _ _)) h)
  exact hgen _ hq [] (by intro kv h; cases h)

/-- A successful group lookup comes from a group of the list. -/
theorem qsLookup_mem (k : Str) (gl : List (Str × List Str)) (vs : List Str)
    (h : qsLookup k gl = some vs) : (k, vs) ∈ gl := by
  induction gl with
  | nil => cases h
  | cons g rest ih =>
    obtain ⟨k2, vs2⟩ := g
    rw [qsLookup] at h
    by_cases hk : k2 = k
    · rw [if_pos hk] at h
      cases h
      exact hk ▸ List.mem_cons_self _ _
    · rw [if_neg hk] at h
      exact List.mem_cons_of_mem _ (ih h)

/-- With distinct keys, lookup recovers each group. -/
theorem qsLookup_of_mem (gl : List (Str × List Str))
    (hnd : (gl.map Prod.fst).Nodup) (k : Str) (vs : List Str)
    (h : (k, vs) ∈ gl) : qsLookup k gl = some vs := by
  induction gl with
  | nil => cases h
  | cons g rest ih =>
    obtain ⟨k2, vs2⟩ := g
    rw [List.map_cons, List.nodup_cons] at hnd
    rw [List.mem_cons] at h
    rcases h with h | h
    · injection h with h1 h2
      rw [qsLookup, if_pos h1.symm]
      exact congrArg some h2.symm
    · have hk : k2 ≠ k := by
        intro he
        apply hnd.1
        rw [he]
        exact List.mem_map.mpr ⟨(k, vs), h, rfl⟩
      rw [qsLookup, if_neg hk]
      exact ih hnd.2 h

/-- Code-point order is reflexive. -/
theorem lexLe_refl (a : Str) : lexLe a a = true := by
  induction a with
  | nil => rfl
  | cons x xs ih => simp [lexLe, lt_irrefl, ih]

/-- Code-point order is total. -/
theorem lexLe_total (a b : Str) : lexLe a b = true ∨ lexLe b a = true := by
  induction a generalizing b with
  | nil => exact Or.inl rfl
  | cons x xs ih =>
    cases b with
    | nil => exact Or.inr rfl
    | cons y ys =>
      by_cases hxy : x < y
      · exact Or.inl (by simp [lexLe, hxy])
      · by_cases hyx : y < x
        · exact Or.inr (by simp [lexLe, hyx])
        · have hxy2 : x = y := le_antisymm (not_lt.mp hyx) (not_lt.mp hxy)
          subst hxy2
          rcases ih ys with h | h
          · exact Or.inl (by simp [lexLe, lt_irrefl, h])
          · exact Or.inr (by simp [lexLe, lt_irrefl, h])

/-- Code-point order is transitive. -/
theorem lexLe_trans (a b c : Str) (h1 : lexLe a b = true) (h2 : lexLe b c = true) :
    lexLe a c = true := by
  induction a generalizing b c with
  | nil => rfl
  | cons x xs ih =>
    cases b with
    | nil => simp [lexLe] at h1
    | cons y ys =>
      cases c with
      | nil => simp [lexLe] at h2
      | cons z zs =>
        by_cases hxy : x < y
        · by_cases hyz : y < z
          · simp [lexLe, lt_trans hxy hyz]
          · by_cases hyz2 : y = z
            · subst hyz2
              simp [lexLe, hxy]
            · simp [lexLe, hyz, hyz2] at h2
        · by_cases hxy2 : x = y
          · subst hxy2
            have h1b : lexLe xs ys = true := by simpa [lexLe, lt_irrefl] using h1
            by_cases hxz : x < z
            · simp [lexLe, hxz]
            · by_cases hxz2 : x = z
              · subst hxz2
                have h2b : lexLe ys zs = true := by simpa [lexLe, lt_irrefl] using h2
                simp [lexLe, lt_irrefl, ih ys zs h1b h2b]
              · simp [lexLe, hxz, hxz2] at h2
          · simp [lexLe, hxy, hxy2] at h1

/-- The key list of a grouped query, sorted and with listing-only keys
dropped, is unchanged by another sort. -/
theorem sortStrs_filter_fix (ks : List Str) :
    sortStrs ((sortStrs ks).filter (fun k => k ∉ dropKeys)) =
      (sortStrs ks).filter (fun k => k ∉ dropKeys) := by
  apply List.Sorted.insertionSort_eq
  exact List.Pairwise.sublist (List.filter_sublist _) (List.sorted_insertionSort lexLeP ks)

/-- Keys of the rebuilt query groups are the filtered sorted keys. -/
theorem buildQueryGroups_keys (g : List (Str × List Str)) :
    (buildQueryGroups g).map Prod.fst =
      (sortStrs (g.map Prod.fst)).filter (fun k => k ∉ dropKeys) := by
  unfold buildQueryGroups
  rw [List.map_map]
  exact List.map_id _

/-- Pairing each key with its lookup recovers a key-distinct group list. -/
theorem map_lookup_self (gl : List (Str × List Str))
    (hnd : (gl.map Prod.fst).Nodup) :
    (gl.map Prod.fst).map (fun k => (k, (qsLookup k gl).getD [])) = gl := by
  induction gl with
  | nil => rfl
  | cons g rest ih =>
    obtain ⟨k, vs⟩ := g
    rw [List.map_cons, List.nodup_cons] at hnd
    rw [List.map_cons, List.map_cons]
    dsimp only
    rw [qsLookup, if_pos rfl]
    dsimp only [Option.getD_some]
    have hcong : (rest.map Prod.fst).map
        (fun k2 => (k2, (qsLookup k2 ((k, vs) :: rest)).getD [])) =
        (rest.map Prod.fst).map (fun k2 => (k2, (qsLookup k2 rest).getD [])) := by
      apply List.map_congr_left
      intro k2 hk2
      have hne : k ≠ k2 := fun he => hnd.1 (he ▸ hk2)
      rw [qsLookup, if_neg hne]
    rw [hcong, ih hnd.2]

/-- Rebuilding the query groups is the identity on canonical group lists:
sorted distinct keys outside the dropped set. -/
theorem buildQueryGroups_fix (gl : List (Str × List Str))
    (hs : sortStrs (gl.map Prod.fst) = gl.map Prod.fst)
    (hf : (gl.map Prod.fst).filter (fun k => k ∉ dropKeys) = gl.map Prod.fst)
    (hnd : (gl.map Prod.fst).Nodup) : buildQueryGroups gl = gl := by
  unfold buildQueryGroups
  rw [hs, hf]
  exact map_lookup_self gl hnd

/-- Keys of the rebuilt groups of a parsed query are stable under another
sort. -/
theorem buildQueryGroups_sorted (qs : Str) :
    sortStrs ((buildQueryGroups (parse_qs qs)).map Prod.fst) =
      (buildQueryGroups (parse_qs qs)).map Prod.fst := by
  rw [buildQueryGroups_keys]
  exact sortStrs_filter_fix _

/-- Keys of the rebuilt groups of a parsed query survive the drop filter. -/
theorem buildQueryGroups_filtered (qs : Str) :
    ((buildQueryGroups (parse_qs qs)).map Prod.fst).filter (fun k => k ∉ dropKeys) =
      (buildQueryGroups (parse_qs qs)).map Prod.fst := by
  rw [buildQueryGroups_keys]
  apply List.filter_eq_self.mpr
  intro a ha
  exact (List.mem_filter.mp ha).2

/-- Keys of the rebuilt groups of a parsed query are distinct. -/
theorem buildQueryGroups_nodup (qs : Str) :
    ((buildQueryGroups (parse_qs qs)).map Prod.fst).Nodup := by
  rw [buildQueryGroups_keys]
  exact List.Nodup.sublist (List.filter_sublist _)
    ((List.perm_insertionSort lexLeP _).nodup_iff.mpr (parse_qs_keys_nodup qs))

/-- Every key of the rebuilt groups is a key of the parsed query. -/
theorem buildQueryGroups_key_mem (qs : Str) (k : Str)
    (h : k ∈ (buildQueryGroups (parse_qs qs)).map Prod.fst) :
    k ∈ (parse_qs qs).map Prod.fst := by
  rw [buildQueryGroups_keys] at h
  exact (List.perm_insertionSort lexLeP _).mem_iff.mp
    (List.Sublist.mem (List.mem_filter.mp h).1 (List.Sublist.refl _))

/-- Value lists of the rebuilt groups of a parsed query are nonempty. -/
theorem buildQueryGroups_vals (qs : Str) :
    ∀ kv ∈ buildQueryGroups (parse_qs qs), kv.2 ≠ [] ∧ ∀ w ∈ kv.2, w ≠ [] := by
  intro kv hkv
  unfold buildQueryGroups at hkv
  rw [List.mem_map] at hkv
  obtain ⟨k, hk, rfl⟩ := hkv
  have hkmem : k ∈ (parse_qs qs).map Prod.fst :=
    (List.perm_insertionSort lexLeP _).mem_iff.mp (List.mem_filter.mp hk).1
  rw [List.mem_map] at hkmem
  obtain ⟨kv0, hkv0, hfst⟩ := hkmem
  have hlk : qsLookup k (parse_qs qs) = some kv0.2 := by
    apply qsLookup_of_mem _ (parse_qs_keys_nodup qs)
    rw [← hfst]
    exact hkv0
  dsimp only
  rw [hlk, Option.getD_some]
  exact ⟨parse_qs_vals_ne_nil qs kv0 hkv0,
    fun w hw => parse_qs_vals_mem_ne_nil qs kv0 hkv0 w hw⟩

/-- Every item flattened from the rebuilt groups has a nonempty value. -/
theorem buildQueryItems_vals (qs : Str) :
    ∀ kv ∈ buildQueryItems (parse_qs qs), kv.2 ≠ [] := by
  intro kv hkv
  unfold buildQueryItems at hkv
  rw [List.mem_flatMap] at hkv
  obtain ⟨g, hg, hkvg⟩ := hkv
  rw [List.mem_map] at hkvg
  obtain ⟨v, hv, rfl⟩ := hkvg
  exact (buildQueryGroups_vals qs g hg).2 v hv

/-- The encoded canonical query re-parses and rebuilds to the same items:
idempotence of the query pipeline of normalize_detail_url. -/
theorem buildQueryItems_idem (qs : Str) :
    buildQueryItems (parse_qs (urlencodeItems (buildQueryItems (parse_qs qs)))) =
      buildQueryItems (parse_qs qs) := by
  have h1 : parse_qsl (urlencodeItems (buildQueryItems (parse_qs qs))) =
      buildQueryItems (parse_qs qs) :=
    parse_qsl_urlencodeItems _ (buildQueryItems_vals qs)
  have h2 : parse_qs (urlencodeItems (buildQueryItems (parse_qs qs))) =
      buildQueryGroups (parse_qs qs) := by
    rw [parse_qs, h1]
    rw [show buildQueryItems (parse_qs qs) =
      (buildQueryGroups (parse_qs qs)).flatMap
        (fun kv => kv.2.map (fun v => (kv.1, v))) from rfl]
    rw [foldl_groupInsert_flat (buildQueryGroups (parse_qs qs)) []
      (buildQueryGroups_nodup qs) (fun kv h => (buildQueryGroups_vals qs kv h).1)
      (by intro kv _ h; cases h)]
    rfl
  rw [h2]
  unfold buildQueryItems
  rw [buildQueryGroups_fix (buildQueryGroups (parse_qs qs))
    (buildQueryGroups_sorted qs) (buildQueryGroups_filtered qs)
    (buildQueryGroups_nodup qs)]

/-- toNat of a valid constructed character. -/
theorem charToNat_ofNat (n : Nat) (hv : n.isValidChar) : (Char.ofNat n).toNat = n := by
  unfold Char.ofNat
  rw [dif_pos hv]
  unfold Char.ofNatAux Char.toNat
  dsimp only
  simp [UInt32.toNat, BitVec.toNat_ofNatLt]

/-- Character order agrees with code-point order. -/
theorem char_le_iff (a b : Char) : a ≤ b ↔ a.toNat ≤ b.toNat :=
  ⟨fun h => by rw [Char.le_def] at h; exact h, fun h => by rw [Char.le_def]; exact h⟩

/-- Characters with distinct code points differ. -/
theorem char_ne_of_toNat_ne (c d : Char) (h : c.toNat ≠ d.toNat) : c ≠ d :=
  fun he => h (congrArg Char.toNat he)

/-- Lowercasing an upper-case letter adds 32 to the code point. -/
theorem lowerChar_toNat_upper (c : Char) (h1 : 65 ≤ c.toNat) (h2 : c.toNat ≤ 90) :
    (lowerChar c).toNat = c.toNat + 32 := by
  unfold lowerChar
  rw [if_pos ⟨(char_le_iff _ _).mpr h1, (char_le_iff _ _).mpr h2⟩,
    charToNat_ofNat _ (Or.inl (by omega))]

/-- Lowercasing fixes characters outside the upper-case range. -/
theorem lowerChar_eq_self (c : Char) (h : ¬(65 ≤ c.toNat ∧ c.toNat ≤ 90)) :
    lowerChar c = c := by
  unfold lowerChar
  rw [if_neg]
  intro hc
  exact h ⟨(char_le_iff _ _).mp hc.1, (char_le_iff _ _).mp hc.2⟩

/-- Lowercasing one character is idempotent. -/
theorem lowerChar_idem (c : Char) : lowerChar (lowerChar c) = lowerChar c := by
  by_cases h : 65 ≤ c.toNat ∧ c.toNat ≤ 90
  · have heq := lowerChar_toNat_upper c h.1 h.2
    exact lowerChar_eq_self _ (by omega)
  · rw [lowerChar_eq_self c h]
    exact lowerChar_eq_self c h

/-- Lowercasing a string is idempotent. -/
theorem lowerAscii_idem (s : Str) : lowerAscii (lowerAscii s) = lowerAscii s := by
  unfold lowerAscii
  rw [List.map_map]
  exact List.map_congr_left fun c _ => lowerChar_idem c

/-- ASCII letter test through code points. -/
theorem isAsciiAlpha_toNat (c : Char) : isAsciiAlpha c = true ↔
    (97 ≤ c.toNat ∧ c.toNat ≤ 122) ∨ (65 ≤ c.toNat ∧ c.toNat ≤ 90) := by
  unfold isAsciiAlpha
  simp only [Bool.or_eq_true, Bool.and_eq_true, decide_eq_true_eq]
  constructor
  · rintro (⟨h1, h2⟩ | ⟨h1, h2⟩)
    · exact Or.inl ⟨(char_le_iff _ _).mp h1, (char_le_iff _ _).mp h2⟩
    · exact Or.inr ⟨(char_le_iff _ _).mp h1, (char_le_iff _ _).mp h2⟩
  · rintro (⟨h1, h2⟩ | ⟨h1, h2⟩)
    · exact Or.inl ⟨(char_le_iff _ _).mpr h1, (char_le_iff _ _).mpr h2⟩
    · exact Or.inr ⟨(char_le_iff _ _).mpr h1, (char_le_iff _ _).mpr h2⟩

/-- Lowercasing preserves the letter class. -/
theorem isAsciiAlpha_lowerChar (c : Char) (h : isAsciiAlpha c = true) :
    isAsciiAlpha (lowerChar c) = true := by
  rcases (isAsciiAlpha_toNat c).mp h with ⟨h1, h2⟩ | ⟨h1, h2⟩
  · rw [lowerChar_eq_self c (by omega)]
    exact h
  · have heq := lowerChar_toNat_upper c h1 h2
    exact (isAsciiAlpha_toNat _).mpr (Or.inl (by omega))

/-- Digit test through code points. -/
theorem isDig_toNat (c : Char) : isDig c = true ↔ 48 ≤ c.toNat ∧ c.toNat ≤ 57 := by
  unfold isDig
  simp only [Bool.and_eq_true, decide_eq_true_eq]
  exact ⟨fun ⟨h1, h2⟩ => ⟨(char_le_iff _ _).mp h1, (char_le_iff _ _).mp h2⟩,
    fun ⟨h1, h2⟩ => ⟨(char_le_iff _ _).mpr h1, (char_le_iff _ _).mpr h2⟩⟩

/-- Lowercasing preserves the scheme-character class. -/
theorem isSchemeChar_lowerChar (c : Char) (h : isSchemeChar c = true) :
    isSchemeChar (lowerChar c) = true := by
  unfold isSchemeChar at h ⊢
  simp only [Bool.or_eq_true] at h ⊢
  rcases h with (((ha | hd) | hp) | hm) | hd2
  · exact Or.inl (Or.inl (Or.inl (Or.inl (isAsciiAlpha_lowerChar c ha))))
  · rw [lowerChar_eq_self c (by
      have := (isDig_toNat c).mp hd
      omega)]
    exact Or.inl (Or.inl (Or.inl (Or.inr hd)))
  · have he : c = '+' := of_decide_eq_true hp
    subst he
    exact Or.inl (Or.inl (Or.inr (by decide)))
  · have he : c = '-' := of_decide_eq_true hm
    subst he
    exact Or.inl (Or.inr (by decide))
  · have he : c = '.' := of_decide_eq_true hd2
    subst he
    exact Or.inr (by decide)

/-- Lowercasing preserves scheme well-formedness, and the result is fixed
by further lowercasing. -/
theorem validScheme_lowerAscii (s : Str) (h : validScheme s) :
    validScheme (lowerAscii s) := by
  cases s with
  | nil => exact absurd h (by simp [validScheme])
  | cons c cs =>
    obtain ⟨h1, h2⟩ := h
    refine ⟨isAsciiAlpha_lowerChar c h1, ?_⟩
    rw [List.all_eq_true] at h2 ⊢
    intro x hx
    rw [List.mem_map] at hx
    obtain ⟨d, hd, rfl⟩ := hx
    exact isSchemeChar_lowerChar d (h2 d hd)

/-- A well-formed scheme contains no colon. -/
theorem validScheme_no_colon (s : Str) (h : validScheme s) : ':' ∉ s := by
  cases s with
  | nil => simp
  | cons c cs =>
    obtain ⟨h1, h2⟩ := h
    intro hm
    rw [List.mem_cons] at hm
    rcases hm with hm | hm
    · rw [← hm] at h1
      exact absurd h1 (by decide)
    · rw [List.all_eq_true] at h2
      have := h2 ':' hm
      exact absurd this (by decide)

/-- A well-formed scheme contains no unsafe bytes. -/
theorem cleanStr_of_validScheme (s : Str) (h : validScheme s) : cleanStr s := by
  cases s with
  | nil => intro x hx; cases hx
  | cons c cs =>
    obtain ⟨h1, h2⟩ := h
    intro x hx
    rw [List.mem_cons] at hx
    rcases hx with rfl | hx
    · refine ⟨?_, ?_, ?_⟩ <;> intro he <;> rw [he] at h1 <;> exact absurd h1 (by decide)
    · rw [List.all_eq_true] at h2
      have hs := h2 x hx
      refine ⟨?_, ?_, ?_⟩ <;> intro he <;> rw [he] at hs <;> exact absurd hs (by decide)

/-- A letter is not whitespace, a hash, a slash or a colon. -/
theorem alpha_facts (c : Char) (h : isAsciiAlpha c = true) :
    pyWs c = false ∧ c ≠ '#' ∧ c ≠ '/' ∧ c ≠ ':' := by
  have hsp : c ≠ ' ' := fun he => by rw [he] at h; exact absurd h (by decide)
  have hta : c ≠ '\t' := fun he => by rw [he] at h; exact absurd h (by decide)
  have hnl : c ≠ '\n' := fun he => by rw [he] at h; exact absurd h (by decide)
  have hcr : c ≠ '\r' := fun he => by rw [he] at h; exact absurd h (by decide)
  have hvt : c ≠ '\x0b' := fun he => by rw [he] at h; exact absurd h (by decide)
  have hff : c ≠ '\x0c' := fun he => by rw [he] at h; exact absurd h (by decide)
  refine ⟨by simp [pyWs, hsp, hta, hnl, hcr, hvt, hff], ?_, ?_, ?_⟩ <;>
    intro he <;> rw [he] at h <;> exact absurd h (by decide)

/-- Unsafe-byte removal yields a clean string. -/
theorem removeUnsafe_clean (s : Str) : cleanStr (removeUnsafe s) := by
  intro x hx
  rw [removeUnsafe, List.mem_filter] at hx
  have := hx.2
  simp only [Bool.not_eq_true', Bool.or_eq_false_iff, decide_eq_false_iff_not] at this
  exact ⟨this.1.1, this.1.2, this.2⟩

/-- Mem-monotone transfer of cleanliness. -/
theorem cleanStr_mono (s t : Str) (h : ∀ c ∈ s, c ∈ t) (ht : cleanStr t) :
    cleanStr s := fun x hx => ht x (h x hx)

/-- Scheme extraction either refuses or splits at the first colon of a
well-formed scheme, lower-casing it. -/
theorem schemeSplit_cases (u : Str) :
    schemeSplit u = ([], u) ∨
    ∃ b a, u = b ++ ':' :: a ∧ validScheme b ∧ ':' ∉ b ∧
      schemeSplit u = (lowerAscii b, a) := by
  unfold schemeSplit
  rcases e : splitAtFirst (fun c => c = ':') u with ⟨before, _ | after⟩
  · exact Or.inl rfl
  · obtain ⟨c, hu, hc, hall⟩ := splitAtFirst_spec_some _ u before after e
    have hcol : c = ':' := of_decide_eq_true hc
    subst hcol
    have hnc : ':' ∉ before := fun hm => by
      have := hall ':' hm
      simp at this
    cases before with
    | nil => exact Or.inl rfl
    | cons c2 rest =>
      by_cases hval : isAsciiAlpha c2 && rest.all isSchemeChar
      · refine Or.inr ⟨c2 :: rest, after, hu, ?_, hnc, ?_⟩
        · rw [Bool.and_eq_true] at hval
          exact ⟨hval.1, hval.2⟩
        · dsimp only
          rw [if_pos hval]
      · dsimp only
        rw [if_neg hval]
        exact Or.inl rfl

/-- The remainder of scheme extraction is drawn from the input. -/
theorem schemeSplit_snd_mem (u : Str) : ∀ c ∈ (schemeSplit u).2, c ∈ u := by
  rcases schemeSplit_cases u with h | ⟨b, a, hu, _, _, h⟩
  · rw [h]
    exact fun c hc => hc
  · rw [h]
    intro c hc
    rw [hu]
    exact List.mem_append_right b (List.mem_cons_of_mem ':' hc)

/-- The first part of cutAtFirst never holds the separator. -/
theorem cutAtFirst_fst_not (ch : Char) (l : Str) : ch ∉ (cutAtFirst ch l).1 := by
  unfold cutAtFirst
  rcases e : splitAtFirst (fun c => c = ch) l with ⟨a, _ | b⟩
  · obtain ⟨ha, hall⟩ := splitAtFirst_spec_none _ l a e
    intro hm
    have := hall ch (ha ▸ hm)
    simp at this
  · obtain ⟨c, _, _, hall⟩ := splitAtFirst_spec_some _ l a b e
    intro hm
    have := hall ch hm
    simp at this

/-- The first part of cutAtFirst is a prefix of the input. -/
theorem cutAtFirst_fst_pre (ch : Char) (l : Str) : (cutAtFirst ch l).1 <+: l := by
  unfold cutAtFirst
  rcases e : splitAtFirst (fun c => c = ch) l with ⟨a, _ | b⟩
  · obtain ⟨ha, _⟩ := splitAtFirst_spec_none _ l a e
    rw [ha]
  · obtain ⟨c, hl, _, _⟩ := splitAtFirst_spec_some _ l a b e
    rw [hl]
    exact List.prefix_append a (c :: b)

/-- Both parts of cutAtFirst are drawn from the input. -/
theorem cutAtFirst_mem (ch : Char) (l : Str) :
    (∀ c ∈ (cutAtFirst ch l).1, c ∈ l) ∧ ∀ c ∈ (cutAtFirst ch l).2, c ∈ l := by
  unfold cutAtFirst
  rcases e : splitAtFirst (fun c => c = ch) l with ⟨a, _ | b⟩
  · obtain ⟨ha, _⟩ := splitAtFirst_spec_none _ l a e
    subst ha
    exact ⟨fun c hc => hc, fun c hc => by cases hc⟩
  · obtain ⟨c0, hl, _, _⟩ := splitAtFirst_spec_some _ l a b e
    subst hl
    exact ⟨fun c hc => List.mem_append_left _ hc,
      fun c hc => List.mem_append_right _ (List.mem_cons_of_mem c0 hc)⟩

/-- The head surviving a dropWhile fails the test. -/
theorem dropWhile_head_not (q : Char → Bool) (l : Str) (c : Char) (t : Str)
    (h : l.dropWhile q = c :: t) : q c = false := by
  induction l with
  | nil => cases h
  | cons d rest ih =>
    rw [List.dropWhile_cons] at h
    by_cases hd : q d
    · rw [if_pos hd] at h
      exact ih h
    · rw [if_neg hd] at h
      injection h with h1 _
      exact h1 ▸ (Bool.not_eq_true _).mp hd

/-- Structural invariants of every urlsplit result: lower-cased well-formed
scheme, delimiter-free netloc, hash- and question-free path, clean
components, and an absolute path whenever a netloc is present. -/
theorem pyUrlsplit_inv (u : Str) :
    ((pyUrlsplit u).scheme = [] ∨
      (validScheme (pyUrlsplit u).scheme ∧
        lowerAscii (pyUrlsplit u).scheme = (pyUrlsplit u).scheme)) ∧
    (∀ c ∈ (pyUrlsplit u).netloc, isNetlocEnd c = false) ∧
    '#' ∉ (pyUrlsplit u).path ∧ '?' ∉ (pyUrlsplit u).path ∧
    cleanStr (pyUrlsplit u).netloc ∧ cleanStr (pyUrlsplit u).path ∧
    cleanStr (pyUrlsplit u).query ∧
    ((pyUrlsplit u).netloc ≠ [] →
      ((pyUrlsplit u).path = [] ∨ ∃ p2, (pyUrlsplit u).path = '/' :: p2)) := by
  have hps : pyUrlsplit u = ⟨(schemeSplit (removeUnsafe u)).1,
      (netlocSplit (schemeSplit (removeUnsafe u)).2).1,
      (cutAtFirst '?'
        (cutAtFirst '#' (netlocSplit (schemeSplit (removeUnsafe u)).2).2).1).1,
      (cutAtFirst '?'
        (cutAtFirst '#' (netlocSplit (schemeSplit (removeUnsafe u)).2).2).1).2,
      (cutAtFirst '#' (netlocSplit (schemeSplit (removeUnsafe u)).2).2).2⟩ := rfl
  rw [hps]
  dsimp only
  have hc1 : cleanStr (removeUnsafe u) := removeUnsafe_clean u
  have hs2c : cleanStr (schemeSplit (removeUnsafe u)).2 :=
    cleanStr_mono _ _ (schemeSplit_snd_mem (removeUnsafe u)) hc1
  have hscheme : (schemeSplit (removeUnsafe u)).1 = [] ∨
      (validScheme (schemeSplit (removeUnsafe u)).1 ∧
        lowerAscii (schemeSplit (removeUnsafe u)).1 =
          (schemeSplit (removeUnsafe u)).1) := by
    rcases schemeSplit_cases (removeUnsafe u) with h | ⟨b, a, _, hvb, _, h⟩
    · rw [h]
      exact Or.inl rfl
    · rw [h]
      exact Or.inr ⟨validScheme_lowerAscii b hvb, lowerAscii_idem b⟩
  have hzfacts : ∀ z : Str, cleanStr z →
      '#' ∉ (cutAtFirst '?' (cutAtFirst '#' z).1).1 ∧
      '?' ∉ (cutAtFirst '?' (cutAtFirst '#' z).1).1 ∧
      cleanStr (cutAtFirst '?' (cutAtFirst '#' z).1).1 ∧
      cleanStr (cutAtFirst '?' (cutAtFirst '#' z).1).2 ∧
      (cutAtFirst '?' (cutAtFirst '#' z).1).1 <+: z := by
    intro z hcz
    have hpmem : ∀ c ∈ (cutAtFirst '?' (cutAtFirst '#' z).1).1, c ∈ z :=
      fun c hc => (cutAtFirst_mem '#' z).1 c ((cutAtFirst_mem '?' _).1 c hc)
    refine ⟨?_, cutAtFirst_fst_not '?' _, cleanStr_mono _ _ hpmem hcz, ?_, ?_⟩
    · intro hm
      exact cutAtFirst_fst_not '#' z ((cutAtFirst_mem '?' _).1 '#' hm)
    · exact cleanStr_mono _ _
        (fun c hc => (cutAtFirst_mem '#' z).1 c ((cutAtFirst_mem '?' _).2 c hc)) hcz
    · exact (cutAtFirst_fst_pre '?' _).trans (cutAtFirst_fst_pre '#' z)
  by_cases hnb : (schemeSplit (removeUnsafe u)).2.take 2 = ['/', '/']
  · have hnl : netlocSplit (schemeSplit (removeUnsafe u)).2 =
        (((schemeSplit (removeUnsafe u)).2.drop 2).takeWhile
          (fun c => !isNetlocEnd c),
         ((schemeSplit (removeUnsafe u)).2.drop 2).dropWhile
          (fun c => !isNetlocEnd c)) := by
      unfold netlocSplit
      rw [if_pos hnb]
    rw [hnl]
    dsimp only
    have hzc : cleanStr (((schemeSplit (removeUnsafe u)).2.drop 2).dropWhile
        (fun c => !isNetlocEnd c)) :=
      cleanStr_mono _ _
        (fun c hc => ((List.dropWhile_sublist _).trans (List.drop_sublist 2 _)).mem hc
          |> fun h => h) hs2c
    obtain ⟨hh, hq, hpc, hqc, hpre⟩ := hzfacts _ hzc
    refine ⟨hscheme, ?_, hh, hq, ?_, hpc, hqc, ?_⟩
    · intro c hc
      have := List.mem_takeWhile_imp hc
      simpa using this
    · exact cleanStr_mono _ _
        (fun c hc => ((List.takeWhile_sublist _).trans (List.drop_sublist 2 _)).mem hc)
        hs2c
    · intro _
      rcases hpath : (cutAtFirst '?' (cutAtFirst '#'
          (((schemeSplit (removeUnsafe u)).2.drop 2).dropWhile
            (fun c => !isNetlocEnd c))).1).1 with _ | ⟨c, t⟩
      · exact Or.inl rfl
      · rw [hpath] at hpre hh hq
        obtain ⟨r, hr⟩ := hpre
        rw [List.cons_append] at hr
        have hcend := dropWhile_head_not _ _ _ _ hr.symm
        have hcend2 : isNetlocEnd c = true := by simpa using hcend
        have hch : c ≠ '#' := fun he => hh (he ▸ List.mem_cons_self c t)
        have hcq : c ≠ '?' := fun he => hq (he ▸ List.mem_cons_self c t)
        unfold isNetlocEnd at hcend2
        simp only [Bool.or_eq_true, decide_eq_true_eq] at hcend2
        rcases hcend2 with (h | h) | h
        · exact Or.inr ⟨t, by rw [h]⟩
        · exact absurd h hcq
        · exact absurd h hch
  · have hnl : netlocSplit (schemeSplit (removeUnsafe u)).2 =
        ([], (schemeSplit (removeUnsafe u)).2) := by
      unfold netlocSplit
      rw [if_neg hnb]
    rw [hnl]
    dsimp only
    obtain ⟨hh, hq, hpc, hqc, _⟩ := hzfacts _ hs2c
    refine ⟨hscheme, ?_, hh, hq, ?_, hpc, hqc, ?_⟩
    · intro c hc
      cases hc
    · intro c hc
      cases hc
    · intro hne
      exact absurd rfl hne

/-- urlparse only rewrites the path and params fields of urlsplit. -/
theorem pyUrlparse_proj (u : Str) :
    (pyUrlparse u).scheme = (pyUrlsplit u).scheme ∧
    (pyUrlparse u).netloc = (pyUrlsplit u).netloc ∧
    (pyUrlparse u).query = (pyUrlsplit u).query ∧
    (pyUrlparse u).fragment = (pyUrlsplit u).fragment := by
  simp only [pyUrlparse]
  split <;> exact ⟨rfl, rfl, rfl, rfl⟩

/-- The urlparse path is the urlsplit path, possibly with params split off. -/
theorem pyUrlparse_path_cases (u : Str) :
    (pyUrlparse u).path = (pyUrlsplit u).path ∨
    (pyUrlparse u).path = (splitparams (pyUrlsplit u).path).1 := by
  simp only [pyUrlparse]
  split
  · exact Or.inr rfl
  · exact Or.inl rfl

/-- For param-splitting schemes the urlparse path has a semicolon-free
last segment. -/
theorem pyUrlparse_params_inv (u : Str) :
    (pyUrlparse u).scheme ∈ usesParams → noSemiLast (pyUrlparse u).path := by
  simp only [pyUrlparse]
  split
  · intro _
    exact noSemiLast_splitparams _
  · rename_i hc
    intro hs
    exact noSemiLast_of_not_mem _ fun hm => hc ⟨hs, hm⟩

/-- The params-free part of a path is drawn from the path. -/
theorem splitparams_fst_mem (p : Str) : ∀ c ∈ (splitparams p).1, c ∈ p := by
  unfold splitparams
  split
  · rename_i a b e
    split
    · rename_i b1 b2 e2
      obtain ⟨hp, _⟩ := splitLast_spec '/' p a b e
      obtain ⟨c0, hb, _, _⟩ := splitAtFirst_spec_some _ b b1 b2 e2
      intro c hc
      dsimp only at hc
      rw [List.mem_append] at hc
      rw [hp]
      rcases hc with hc | hc
      · exact List.mem_append_left _ hc
      · rw [List.mem_cons] at hc
        rcases hc with rfl | hc
        · exact List.mem_append_right _ (List.mem_cons_self _ _)
        · refine List.mem_append_right _ (List.mem_cons_of_mem _ ?_)
          rw [hb]
          exact List.mem_append_left _ hc
    · intro c hc
      exact hc
  · split
    · rename_i u1 u2 e2
      obtain ⟨c0, hp, _, _⟩ := splitAtFirst_spec_some _ p u1 u2 e2
      intro c hc
      rw [hp]
      exact List.mem_append_left _ hc
    · intro c hc
      exact hc

/-- Splitting params preserves absoluteness of the path. -/
theorem splitparams_fst_abs (p : Str) (h : p = [] ∨ ∃ p2, p = '/' :: p2) :
    (splitparams p).1 = [] ∨ ∃ p2, (splitparams p).1 = '/' :: p2 := by
  unfold splitparams
  split
  · rename_i a b e
    split
    · rename_i b1 b2 e2
      obtain ⟨hp, _⟩ := splitLast_spec '/' p a b e
      dsimp only
      cases a with
      | nil => exact Or.inr ⟨b1, rfl⟩
      | cons c a2 =>
        rcases h with rfl | ⟨p2, hpp⟩
        · simp at hp
        · rw [hpp, List.cons_append] at hp
          injection hp with h1 _
          exact Or.inr ⟨a2 ++ '/' :: b1, by rw [List.cons_append, ← h1]⟩
    · exact h
  · rename_i e
    have hnp : '/' ∉ p := splitLast_none_not_mem '/' p e
    rcases h with rfl | ⟨p2, rfl⟩
    · exact Or.inl rfl
    · exact absurd (List.mem_cons_self '/' p2) hnp

/-- Structural invariants of urlparse output with scheme and netloc
present: the shape that normalize_detail_url rebuilds from. -/
theorem pyUrlparse_inv (U : Str) (hs : (pyUrlparse U).scheme ≠ [])
    (hn : (pyUrlparse U).netloc ≠ []) :
    validScheme (pyUrlparse U).scheme ∧
    lowerAscii (pyUrlparse U).scheme = (pyUrlparse U).scheme ∧
    (∀ c ∈ (pyUrlparse U).netloc, isNetlocEnd c = false) ∧
    cleanStr (pyUrlparse U).netloc ∧
    ((pyUrlparse U).path = [] ∨ ∃ p2, (pyUrlparse U).path = '/' :: p2) ∧
    '#' ∉ (pyUrlparse U).path ∧ '?' ∉ (pyUrlparse U).path ∧
    cleanStr (pyUrlparse U).path ∧
    ((pyUrlparse U).scheme ∈ usesParams → noSemiLast (pyUrlparse U).path) := by
  obtain ⟨hsc, hne, hph, hpq, hnc, hpc, _, habs⟩ := pyUrlsplit_inv U
  obtain ⟨hps, hpn, _, _⟩ := pyUrlparse_proj U
  rw [hps] at hs ⊢
  rw [hpn] at hn ⊢
  have hpabs := habs hn
  have hpath := pyUrlparse_path_cases U
  refine ⟨?_, ?_, hne, hnc, ?_, ?_, ?_, ?_, hps ▸ pyUrlparse_params_inv U⟩
  · rcases hsc with h | h
    · exact absurd h hs
    · exact h.1
  · rcases hsc with h | h
    · exact absurd h hs
    · exact h.2
  · rcases hpath with h | h
    · rw [h]
      exact hpabs
    · rw [h]
      exact splitparams_fst_abs _ hpabs
  · rcases hpath with h | h
    · rw [h]
      exact hph
    · rw [h]
      exact fun hm => hph (splitparams_fst_mem _ '#' hm)
  · rcases hpath with h | h
    · rw [h]
      exact hpq
    · rw [h]
      exact fun hm => hpq (splitparams_fst_mem _ '?' hm)
  · rcases hpath with h | h
    · rw [h]
      exact hpc
    · rw [h]
      exact cleanStr_mono _ _ (splitparams_fst_mem _) hpc

/-- Rebuilding with netloc, absolute path, no params and no fragment is
plain concatenation. -/
theorem urlunparse_mk (s n pth q : Str) (hs : s ≠ []) (hn : n ≠ [])
    (habs : pth = [] ∨ ∃ p2, pth = '/' :: p2) :
    urlunparse s n pth [] q [] =
      s ++ ':' :: '/' :: '/' :: (n ++ (pth ++ (if q = [] then [] else '?' :: q))) := by
  have hfix : ¬(pth ≠ [] ∧ pth.take 1 ≠ ['/']) := by
    rintro ⟨hp1, hp2⟩
    rcases habs with rfl | ⟨p2, rfl⟩
    · exact hp1 rfl
    · exact hp2 rfl
  unfold urlunparse
  rw [if_neg (fun h : ([] : Str) ≠ [] => h rfl)]
  simp only [urlunsplit]
  rw [if_pos (Or.inl hn), if_neg hfix, if_pos hs,
    if_neg (fun h : ([] : Str) ≠ [] => h rfl)]
  by_cases hq : q = []
  · subst hq
    rw [if_neg (fun h : ([] : Str) ≠ [] => h rfl), if_pos rfl]
    simp [List.append_assoc]
  · rw [if_pos hq, if_neg hq]
    simp [List.append_assoc]

/-- Appending preserves cleanliness. -/
theorem cleanStr_append (a b : Str) (ha : cleanStr a) (hb : cleanStr b) :
    cleanStr (a ++ b) := fun x hx => (List.mem_append.mp hx).elim (ha x) (hb x)

/-- Consing a safe character preserves cleanliness. -/
theorem cleanStr_cons (c : Char) (h1 : c ≠ '\t' ∧ c ≠ '\r' ∧ c ≠ '\n') (t : Str)
    (ht : cleanStr t) : cleanStr (c :: t) := by
  intro x hx
  rw [List.mem_cons] at hx
  rcases hx with rfl | hx
  · exact h1
  · exact ht x hx

/-- A quote-safe character is not an unsafe byte. -/
theorem isQuoteSafe_clean (c : Char) (h : isQuoteSafe c = true) :
    c ≠ '\t' ∧ c ≠ '\r' ∧ c ≠ '\n' := by
  refine ⟨?_, ?_, ?_⟩ <;> intro he <;> rw [he] at h <;> exact absurd h (by decide)

/-- Encoded queries contain no unsafe bytes. -/
theorem urlencodeItems_clean (items : List (Str × Str)) :
    cleanStr (urlencodeItems items) := by
  intro x hx
  rcases urlencodeItems_chars items x hx with rfl | rfl | rfl | h | rfl
  · exact ⟨by decide, by decide, by decide⟩
  · exact ⟨by decide, by decide, by decide⟩
  · exact ⟨by decide, by decide, by decide⟩
  · exact isQuoteSafe_clean x h
  · exact ⟨by decide, by decide, by decide⟩

/-- Strings with non-whitespace ends are fixed by strip. -/
theorem pyStrip_eq_self (s : Str)
    (hh : ∀ c, s.head? = some c → pyWs c = false)
    (hl : ∀ c, s.getLast? = some c → pyWs c = false) : pyStrip s = s := by
  unfold pyStrip
  have h1 : s.dropWhile pyWs = s := by
    cases s with
    | nil => rfl
    | cons c t =>
      have := hh c rfl
      simp [List.dropWhile_cons, this]
  rw [h1]
  have h2 : s.reverse.dropWhile pyWs = s.reverse := by
    cases hrev : s.reverse with
    | nil => rfl
    | cons c t =>
      have hlast : s.getLast? = some c := by
        rw [← List.head?_reverse, hrev]
        rfl
      have := hl c hlast
      simp [List.dropWhile_cons, this]
  rw [h2, List.reverse_reverse]

/-- The first colon determines the split of a colon-free prefix. -/
theorem colon_split_unique (a1 b1 a2 b2 : Str) (h : a1 ++ ':' :: b1 = a2 ++ ':' :: b2)
    (h1 : ':' ∉ a1) (h2 : ':' ∉ a2) : a1 = a2 ∧ b1 = b2 := by
  have e1 : splitAtFirst (fun c => c = ':') (a1 ++ ':' :: b1) = (a1, some b1) :=
    splitAtFirst_found _ a1 ':' b1
      (fun x hx => decide_eq_false (fun hc : x = ':' => h1 (hc ▸ hx))) (by simp)
  have e2 : splitAtFirst (fun c => c = ':') (a2 ++ ':' :: b2) = (a2, some b2) :=
    splitAtFirst_found _ a2 ':' b2
      (fun x hx => decide_eq_false (fun hc : x = ':' => h2 (hc ▸ hx))) (by simp)
  rw [h, e2] at e1
  injection e1 with ha hb
  injection hb with hb2
  exact ⟨ha.symm, hb2.symm⟩

/-- A colon-terminated prefix of a colon-split string is the scheme. -/
theorem prefix_colon_eq (w s t : Str) (hw : ':' ∉ w) (hs : ':' ∉ s)
    (h : (w ++ [':']) <+: (s ++ ':' :: t)) : w = s := by
  obtain ⟨r, hr⟩ := h
  rw [List.append_assoc, List.singleton_append] at hr
  exact (colon_split_unique w r s t hr hw hs).1

/-- Scheme and netloc of the base-joined URL built by normalize_detail_url
for root-relative inputs. -/
theorem base_join_fields (t : Str) :
    (pyUrlparse ((pyUrlparse baseUrlStr).scheme ++ ':' :: '/' :: '/' ::
        (pyUrlparse baseUrlStr).netloc ++ ('/' :: t))).scheme = "https".toList ∧
    (pyUrlparse ((pyUrlparse baseUrlStr).scheme ++ ':' :: '/' :: '/' ::
        (pyUrlparse baseUrlStr).netloc ++ ('/' :: t))).netloc =
      "www.sogang.ac.kr".toList := by
  have harg : (pyUrlparse baseUrlStr).scheme ++ ':' :: '/' :: '/' ::
      (pyUrlparse baseUrlStr).netloc ++ ('/' :: t) =
      "https://www.sogang.ac.kr/".toList ++ t := rfl
  rw [harg]
  have h1 : removeUnsafe ("https://www.sogang.ac.kr/".toList ++ t) =
      "https://www.sogang.ac.kr/".toList ++ removeUnsafe t := by
    rw [removeUnsafe_append,
      show removeUnsafe "https://www.sogang.ac.kr/".toList =
        "https://www.sogang.ac.kr/".toList from rfl]
  have h2 : "https://www.sogang.ac.kr/".toList ++ removeUnsafe t =
      "https".toList ++ ':' ::
        ('/' :: '/' :: ("www.sogang.ac.kr".toList ++ ('/' :: removeUnsafe t))) := rfl
  have hss := schemeSplit_mk "https".toList
    ('/' :: '/' :: ("www.sogang.ac.kr".toList ++ ('/' :: removeUnsafe t)))
    ⟨by decide, by decide⟩ (by decide)
  have hns := netlocSplit_mk "www.sogang.ac.kr".toList ('/' :: removeUnsafe t)
    (by decide) (Or.inr ⟨'/', removeUnsafe t, rfl, by decide⟩)
  obtain ⟨hps, hpn, _, _⟩ := pyUrlparse_proj ("https://www.sogang.ac.kr/".toList ++ t)
  have hsplitU : pyUrlsplit ("https://www.sogang.ac.kr/".toList ++ t) =
      ⟨(schemeSplit (removeUnsafe ("https://www.sogang.ac.kr/".toList ++ t))).1,
       (netlocSplit (schemeSplit
          (removeUnsafe ("https://www.sogang.ac.kr/".toList ++ t))).2).1,
       (cutAtFirst '?' (cutAtFirst '#' (netlocSplit (schemeSplit
          (removeUnsafe ("https://www.sogang.ac.kr/".toList ++ t))).2).2).1).1,
       (cutAtFirst '?' (cutAtFirst '#' (netlocSplit (schemeSplit
          (removeUnsafe ("https://www.sogang.ac.kr/".toList ++ t))).2).2).1).2,
       (cutAtFirst '#' (netlocSplit (schemeSplit
          (removeUnsafe ("https://www.sogang.ac.kr/".toList ++ t))).2).2).2⟩ := rfl
  constructor
  · rw [hps, hsplitU]
    dsimp only
    rw [h1, h2, hss]
    show lowerAscii "https".toList = "https".toList
    decide
  · rw [hpn, hsplitU]
    dsimp only
    rw [h1, h2, hss]
    dsimp only
    rw [hns]

/-- Every non-absent normalize_detail_url result is the rebuilt form of a
parsed URL with nonempty scheme and netloc and a non-rejected scheme. -/
theorem normalize_shape (x y : Str) (h : normalize_detail_url (some x) = some y) :
    ∃ U, (pyUrlparse U).scheme ≠ [] ∧ (pyUrlparse U).netloc ≠ [] ∧
      (pyUrlparse U).scheme ∉ rejectSchemes ∧
      y = urlunparse (pyUrlparse U).scheme (pyUrlparse U).netloc
        (pyUrlparse U).path []
        (urlencodeItems (buildQueryItems (parse_qs (pyUrlparse U).query))) [] := by
  simp only [normalize_detail_url] at h
  by_cases hx : x = []
  · rw [if_pos hx] at h
    cases h
  rw [if_neg hx] at h
  by_cases hex : lowerAscii (pyStrip x) ∈ rejectExact
  · rw [if_pos hex] at h
    cases h
  rw [if_neg hex] at h
  by_cases hpre : rejectPrefixes.any (fun p => p.isPrefixOf (lowerAscii (pyStrip x))) = true
  · rw [if_pos hpre] at h
    cases h
  rw [if_neg hpre] at h
  set r2 := if ['/', '/'].isPrefixOf (pyStrip x) then "https:".toList ++ pyStrip x
    else pyStrip x with hr2
  by_cases hrej : (pyUrlparse r2).scheme ∈ rejectSchemes
  · rw [if_pos hrej] at h
    cases h
  rw [if_neg hrej] at h
  by_cases hguard : (pyUrlparse r2).scheme = [] ∨ (pyUrlparse r2).netloc = []
  · rw [if_pos hguard] at h
    by_cases hslash : ['/'].isPrefixOf r2 = true
    · rw [if_pos hslash] at h
      obtain ⟨t, ht⟩ := isPrefixOf_spec.mp hslash
      have ht2 : r2 = '/' :: t := by
        rw [← ht]
        rfl
      rw [ht2] at h
      dsimp only at h
      injection h with hy
      refine ⟨(pyUrlparse baseUrlStr).scheme ++ ':' :: '/' :: '/' ::
        (pyUrlparse baseUrlStr).netloc ++ ('/' :: t), ?_, ?_, ?_, hy.symm⟩
      · rw [(base_join_fields t).1]
        decide
      · rw [(base_join_fields t).2]
        decide
      · rw [(base_join_fields t).1]
        decide
    · rw [if_neg hslash] at h
      cases h
  · rw [if_neg hguard] at h
    dsimp only at h
    injection h with hy
    push_neg at hguard
    exact ⟨r2, hguard.1, hguard.2, hrej, hy.symm⟩

/-- A rebuilt URL whose components satisfy the parser invariants and whose
text has no trailing whitespace is a fixed point of normalize_detail_url. -/
theorem normalize_fix (s n pth q0 y : Str)
    (hv : validScheme s) (hlow : lowerAscii s = s) (hrej : s ∉ rejectSchemes)
    (hn : n ≠ []) (hnend : ∀ c ∈ n, isNetlocEnd c = false) (hncln : cleanStr n)
    (habs : pth = [] ∨ ∃ p2, pth = '/' :: p2) (hph : '#' ∉ pth) (hpq : '?' ∉ pth)
    (hpcln : cleanStr pth) (hpar : s ∈ usesParams → noSemiLast pth)
    (hy : y = urlunparse s n pth []
      (urlencodeItems (buildQueryItems (parse_qs q0))) [])
    (hws : ∀ c, y.getLast? = some c → pyWs c = false) :
    normalize_detail_url (some y) = some y := by
  obtain ⟨c0, s2, hs2⟩ : ∃ c0 s2, s = c0 :: s2 := by
    cases s with
    | nil => exact absurd hv (by simp [validScheme])
    | cons a b => exact ⟨a, b, rfl⟩
  have halpha : isAsciiAlpha c0 = true := by
    rw [hs2] at hv
    exact hv.1
  obtain ⟨hc0ws, hc0hash, hc0sl, hc0col⟩ := alpha_facts c0 halpha
  have hscol : ':' ∉ s := validScheme_no_colon s hv
  have hsnil : s ≠ [] := by
    rw [hs2]
    simp
  have hqch := urlencodeItems_chars (buildQueryItems (parse_qs q0))
  have hqhash : '#' ∉ urlencodeItems (buildQueryItems (parse_qs q0)) :=
    not_mem_urlencodeItems _ '#' (by decide) (by decide) (by decide) (by decide)
      (by decide)
  have hqcln : cleanStr (urlencodeItems (buildQueryItems (parse_qs q0))) :=
    urlencodeItems_clean _
  have hyflat : y = s ++ ':' :: '/' :: '/' :: (n ++ (pth ++
      (if urlencodeItems (buildQueryItems (parse_qs q0)) = [] then []
       else '?' :: urlencodeItems (buildQueryItems (parse_qs q0))))) := by
    rw [hy]
    exact urlunparse_mk s n pth _ hsnil hn habs
  have hqp : (if urlencodeItems (buildQueryItems (parse_qs q0)) = [] then []
      else '?' :: urlencodeItems (buildQueryItems (parse_qs q0))) = [] ∨
      ∃ qq, (if urlencodeItems (buildQueryItems (parse_qs q0)) = [] then []
        else '?' :: urlencodeItems (buildQueryItems (parse_qs q0))) = '?' :: qq ∧
        '#' ∉ qq := by
    by_cases hqe : urlencodeItems (buildQueryItems (parse_qs q0)) = []
    · rw [if_pos hqe]
      exact Or.inl rfl
    · rw [if_neg hqe]
      exact Or.inr ⟨_, rfl, hqhash⟩
  have hqpcln : cleanStr (if urlencodeItems (buildQueryItems (parse_qs q0)) = []
      then [] else '?' :: urlencodeItems (buildQueryItems (parse_qs q0))) := by
    by_cases hqe : urlencodeItems (buildQueryItems (parse_qs q0)) = []
    · rw [if_pos hqe]
      intro xx hxx
      cases hxx
    · rw [if_neg hqe]
      exact cleanStr_cons '?' ⟨by decide, by decide, by decide⟩ _ hqcln
  have hclean : cleanStr (s ++ ':' :: '/' :: '/' :: (n ++ (pth ++
      (if urlencodeItems (buildQueryItems (parse_qs q0)) = [] then []
       else '?' :: urlencodeItems (buildQueryItems (parse_qs q0)))))) := by
    refine cleanStr_append _ _ (cleanStr_of_validScheme s hv) ?_
    refine cleanStr_cons ':' ⟨by decide, by decide, by decide⟩ _ ?_
    refine cleanStr_cons '/' ⟨by decide, by decide, by decide⟩ _ ?_
    refine cleanStr_cons '/' ⟨by decide, by decide, by decide⟩ _ ?_
    exact cleanStr_append _ _ hncln (cleanStr_append _ _ hpcln hqpcln)
  have hynil : y ≠ [] := by
    rw [hyflat, hs2]
    simp
  have hhead : y.head? = some c0 := by
    rw [hyflat, hs2]
    rfl
  have hstrip : pyStrip y = y :=
    pyStrip_eq_self y
      (fun c hc => by
        rw [hhead] at hc
        injection hc with hc2
        exact hc2 ▸ hc0ws) hws
  have hlow2 : List.map lowerChar s = s := hlow
  have hlowy : lowerAscii y = s ++ ':' :: '/' :: '/' ::
      lowerAscii (n ++ (pth ++
        (if urlencodeItems (buildQueryItems (parse_qs q0)) = [] then []
         else '?' :: urlencodeItems (buildQueryItems (parse_qs q0))))) := by
    rw [hyflat]
    unfold lowerAscii
    rw [List.map_append, List.map_cons, List.map_cons, List.map_cons,
      show lowerChar ':' = ':' from by decide,
      show lowerChar '/' = '/' from by decide, hlow2]
  have hexact : lowerAscii y ∉ rejectExact := by
    intro hm
    simp only [rejectExact, List.map_cons, List.map_nil, List.mem_cons,
      List.not_mem_nil, or_false] at hm
    rcases hm with hm | hm | hm | hm
    · have := congrArg List.head? hm
      rw [hlowy, hs2] at this
      injection this with h2
      exact hc0hash h2
    · have := congrArg List.head? hm
      rw [hlowy, hs2] at this
      injection this with h2
      exact hc0hash h2
    · rw [hlowy] at hm
      have hm2 : s ++ ':' :: '/' :: '/' :: lowerAscii (n ++ (pth ++
          (if urlencodeItems (buildQueryItems (parse_qs q0)) = [] then []
           else '?' :: urlencodeItems (buildQueryItems (parse_qs q0))))) =
          "javascript".toList ++ ':' :: "void(0)".toList := hm
      have h9 := (colon_split_unique _ _ _ _ hm2 hscol (by decide)).2
      injection h9 with h91 h92
      exact absurd h91 (by decide)
    · rw [hlowy] at hm
      have hm2 : s ++ ':' :: '/' :: '/' :: lowerAscii (n ++ (pth ++
          (if urlencodeItems (buildQueryItems (parse_qs q0)) = [] then []
           else '?' :: urlencodeItems (buildQueryItems (parse_qs q0))))) =
          "javascript".toList ++ ':' :: "void(0);".toList := hm
      have h9 := (colon_split_unique _ _ _ _ hm2 hscol (by decide)).2
      injection h9 with h91 h92
      exact absurd h91 (by decide)
  have hpfx : rejectPrefixes.any
      (fun p => p.isPrefixOf (lowerAscii y)) = false := by
    rw [List.any_eq_false]
    intro p hp
    simp only [rejectPrefixes, List.map_cons, List.map_nil, List.mem_cons,
      List.not_mem_nil, or_false] at hp
    have hgen : ∀ w : Str, ':' ∉ w → w ∈ rejectSchemes →
        (w ++ [':']).isPrefixOf (lowerAscii y) = false := by
      intro w hwc hwr
      rw [Bool.eq_false_iff]
      intro hpref
      have hpre2 := isPrefixOf_spec.mp hpref
      rw [hlowy] at hpre2
      have hws2 := prefix_colon_eq w s _ hwc hscol hpre2
      exact hrej (hws2 ▸ hwr)
    rcases hp with rfl | rfl | rfl | rfl
    · exact Bool.eq_false_iff.mp (hgen "javascript".toList (by decide) (by decide))
    · exact Bool.eq_false_iff.mp (hgen "mailto".toList (by decide) (by decide))
    · exact Bool.eq_false_iff.mp (hgen "tel".toList (by decide) (by decide))
    · exact Bool.eq_false_iff.mp (hgen "data".toList (by decide) (by decide))
  have hprefneg : ¬(rejectPrefixes.any
      (fun p => p.isPrefixOf (lowerAscii y)) = true) := by
    rw [hpfx]
    simp
  have hss2 : ¬(['/', '/'].isPrefixOf y = true) := by
    intro hh
    obtain ⟨t, ht⟩ := isPrefixOf_spec.mp hh
    have h2 := hhead
    rw [← ht] at h2
    injection h2 with h3
    exact hc0sl h3.symm
  have hsplit := pyUrlsplit_mk s n pth
    (if urlencodeItems (buildQueryItems (parse_qs q0)) = [] then []
     else '?' :: urlencodeItems (buildQueryItems (parse_qs q0)))
    hv hscol hclean hnend habs hph hpq hqp
  have hsplity : pyUrlsplit y =
      ⟨s, n, pth, urlencodeItems (buildQueryItems (parse_qs q0)), []⟩ := by
    rw [hyflat, hsplit, hlow]
    by_cases hqe : urlencodeItems (buildQueryItems (parse_qs q0)) = []
    · rw [if_pos hqe, hqe]
      rfl
    · rw [if_neg hqe]
      rfl
  have hparsey : pyUrlparse y =
      ⟨s, n, pth, [], urlencodeItems (buildQueryItems (parse_qs q0)), []⟩ :=
    pyUrlparse_mk y s n pth _ [] hsplity hpar
  simp only [normalize_detail_url]
  rw [if_neg hynil, hstrip, if_neg hexact, if_neg hprefneg, if_neg hss2, hparsey]
  dsimp only
  rw [if_neg hrej]
  rw [if_neg (by
    rintro (h | h)
    · exact hsnil h
    · exact hn h)]
  dsimp only
  rw [buildQueryItems_idem q0, ← hy]

/-- splitAtFirst passes over a prefix with no match. -/
theorem splitAtFirst_append_no (p : Char → Bool) (a b : Str)
    (ha : ∀ x ∈ a, p x = false) :
    splitAtFirst p (a ++ b) =
      (a ++ (splitAtFirst p b).1, (splitAtFirst p b).2) := by
  induction a with
  | nil => rfl
  | cons c a2 ih =>
    have hc := ha c (List.mem_cons_self c a2)
    simp only [List.cons_append, splitAtFirst, hc, Bool.false_eq_true, if_false]
    have h2 : splitAtFirst p (List.append a2 b) =
        (a2 ++ (splitAtFirst p b).1, (splitAtFirst p b).2) :=
      ih fun x hx => ha x (List.mem_cons_of_mem c hx)
    rw [h2]

/-- Appending a fragment does not change the extracted scheme, and shifts
the remainder. -/
theorem schemeSplit_hash (z w : Str) (hz : '#' ∉ z) :
    (schemeSplit (z ++ '#' :: w)).1 = (schemeSplit z).1 ∧
    (schemeSplit (z ++ '#' :: w)).2 = (schemeSplit z).2 ++ '#' :: w := by
  rcases e : splitAtFirst (fun c => c = ':') z with ⟨before, _ | after⟩
  · obtain ⟨hbz, hall⟩ := splitAtFirst_spec_none _ z before e
    subst hbz
    have e2 : splitAtFirst (fun c => c = ':') (before ++ '#' :: w) =
        (before ++ (splitAtFirst (fun c => c = ':') ('#' :: w)).1,
         (splitAtFirst (fun c => c = ':') ('#' :: w)).2) :=
      splitAtFirst_append_no _ before ('#' :: w) hall
    unfold schemeSplit
    rw [e, e2]
    rcases e3 : splitAtFirst (fun c => c = ':') ('#' :: w) with ⟨b3, _ | a3⟩
    · exact ⟨rfl, rfl⟩
    · have hb3 : ∃ t3, b3 = '#' :: t3 := by
        rw [splitAtFirst] at e3
        rw [if_neg (by decide)] at e3
        injection e3 with e4 _
        exact ⟨_, e4.symm⟩
      obtain ⟨t3, rfl⟩ := hb3
      cases before with
      | nil => exact ⟨rfl, rfl⟩
      | cons c0 cs =>
        have hcond : ¬(isAsciiAlpha c0 = true ∧ (∀ x ∈ cs, isSchemeChar x = true) ∧
            isSchemeChar '#' = true ∧ ∀ x ∈ t3, isSchemeChar x = true) := by
          rintro ⟨_, _, h3, _⟩
          exact absurd h3 (by decide)
        refine ⟨?_, ?_⟩ <;> simp <;> rw [if_neg hcond]
  · obtain ⟨c, hzb, hc, hall⟩ := splitAtFirst_spec_some _ z before after e
    have hcol : c = ':' := of_decide_eq_true hc
    subst hcol
    subst hzb
    have e2 : splitAtFirst (fun c => c = ':')
        ((before ++ ':' :: after) ++ '#' :: w) =
        (before, some (after ++ '#' :: w)) := by
      rw [List.append_assoc, List.cons_append]
      exact splitAtFirst_found _ before ':' (after ++ '#' :: w) hall (by simp)
    unfold schemeSplit
    rw [e, e2]
    cases before with
    | nil => exact ⟨rfl, rfl⟩
    | cons c0 cs =>
      by_cases hval : (isAsciiAlpha c0 && cs.all isSchemeChar) = true
      · refine ⟨?_, ?_⟩ <;> simp [hval]
      · have hvf := Bool.eq_false_iff.mpr hval
        refine ⟨?_, ?_⟩ <;> simp [hvf, List.append_assoc]

/-- Appending a fragment does not change the netloc split prefix and
shifts the remainder. -/
theorem netlocSplit_hash (r w : Str) (hr : '#' ∉ r) :
    (netlocSplit (r ++ '#' :: w)).1 = (netlocSplit r).1 ∧
    (netlocSplit (r ++ '#' :: w)).2 = (netlocSplit r).2 ++ '#' :: w := by
  unfold netlocSplit
  by_cases hb : r.take 2 = ['/', '/']
  · have hr3 : ∃ r3, r = '/' :: '/' :: r3 := by
      cases r with
      | nil => simp at hb
      | cons c1 rest1 =>
        cases rest1 with
        | nil => simp [List.take] at hb
        | cons c2 rest2 =>
          have h1 : c1 = '/' ∧ c2 = '/' := by simpa [List.take] using hb
          exact ⟨rest2, by rw [h1.1, h1.2]⟩
    obtain ⟨r3, rfl⟩ := hr3
    have hbL : (('/' :: '/' :: r3) ++ '#' :: w).take 2 = ['/', '/'] := rfl
    rw [if_pos hb, if_pos hbL]
    have hd : (('/' :: '/' :: r3) ++ '#' :: w).drop 2 = r3 ++ '#' :: w := rfl
    rw [hd]
    constructor
    · show (r3 ++ '#' :: w).takeWhile (fun c => !isNetlocEnd c) =
        (('/' :: '/' :: r3).drop 2).takeWhile (fun c => !isNetlocEnd c)
      exact takeWhile_append_sep _ r3 '#' w (by decide)
    · show (r3 ++ '#' :: w).dropWhile (fun c => !isNetlocEnd c) =
        (('/' :: '/' :: r3).drop 2).dropWhile (fun c => !isNetlocEnd c) ++ '#' :: w
      exact dropWhile_append_sep _ r3 '#' w (by decide)
  · have hbL : ¬((r ++ '#' :: w).take 2 = ['/', '/']) := by
      intro hh
      cases r with
      | nil => simp at hh
      | cons c1 rest1 =>
        cases rest1 with
        | nil =>
          have hh2 : [c1, '#'] = ['/', '/'] := hh
          injection hh2 with h1 h3
          injection h3 with h4 _
          exact absurd h4 (by decide)
        | cons c2 rest2 => exact hb hh
    rw [if_neg hb, if_neg hbL]
    exact ⟨rfl, rfl⟩

/-- The netloc remainder is drawn from the input. -/
theorem netlocSplit_snd_mem (u : Str) : ∀ c ∈ (netlocSplit u).2, c ∈ u := by
  unfold netlocSplit
  by_cases hb : u.take 2 = ['/', '/']
  · rw [if_pos hb]
    intro c hc
    exact ((List.dropWhile_sublist _).trans (List.drop_sublist 2 u)).mem hc
  · rw [if_neg hb]
    exact fun c hc => hc

/-- Appending a fragment changes only the fragment component of urlsplit. -/
theorem pyUrlsplit_hash (z w : Str) (hz : '#' ∉ z) :
    (pyUrlsplit (z ++ '#' :: w)).scheme = (pyUrlsplit z).scheme ∧
    (pyUrlsplit (z ++ '#' :: w)).netloc = (pyUrlsplit z).netloc ∧
    (pyUrlsplit (z ++ '#' :: w)).path = (pyUrlsplit z).path ∧
    (pyUrlsplit (z ++ '#' :: w)).query = (pyUrlsplit z).query := by
  have hrm : removeUnsafe (z ++ '#' :: w) =
      removeUnsafe z ++ '#' :: removeUnsafe w := by
    rw [removeUnsafe_append]
    congr 1
  have hz1 : '#' ∉ removeUnsafe z := fun hm => hz (List.mem_filter.mp hm).1
  obtain ⟨hs1, hs2⟩ := schemeSplit_hash (removeUnsafe z) (removeUnsafe w) hz1
  have hz2 : '#' ∉ (schemeSplit (removeUnsafe z)).2 :=
    fun hm => hz1 (schemeSplit_snd_mem _ '#' hm)
  obtain ⟨hn1, hn2⟩ :=
    netlocSplit_hash (schemeSplit (removeUnsafe z)).2 (removeUnsafe w) hz2
  have hz3 : '#' ∉ (netlocSplit (schemeSplit (removeUnsafe z)).2).2 :=
    fun hm => hz2 (netlocSplit_snd_mem _ '#' hm)
  have hfr : cutAtFirst '#' ((netlocSplit (schemeSplit (removeUnsafe z)).2).2 ++
      '#' :: removeUnsafe w) =
      ((netlocSplit (schemeSplit (removeUnsafe z)).2).2, removeUnsafe w) :=
    cutAtFirst_found '#' _ _ hz3
  have hfz : cutAtFirst '#' ((netlocSplit (schemeSplit (removeUnsafe z)).2).2) =
      ((netlocSplit (schemeSplit (removeUnsafe z)).2).2, []) :=
    cutAtFirst_no '#' _ hz3
  refine ⟨?_, ?_, ?_, ?_⟩
  · show (schemeSplit (removeUnsafe (z ++ '#' :: w))).1 =
      (schemeSplit (removeUnsafe z)).1
    rw [hrm]
    exact hs1
  · show (netlocSplit (schemeSplit (removeUnsafe (z ++ '#' :: w))).2).1 =
      (netlocSplit (schemeSplit (removeUnsafe z)).2).1
    rw [hrm, hs2]
    exact hn1
  · show (cutAtFirst '?' (cutAtFirst '#'
      (netlocSplit (schemeSplit (removeUnsafe (z ++ '#' :: w))).2).2).1).1 =
      (cutAtFirst '?' (cutAtFirst '#'
        (netlocSplit (schemeSplit (removeUnsafe z)).2).2).1).1
    rw [hrm, hs2, hn2, hfr, hfz]
  · show (cutAtFirst '?' (cutAtFirst '#'
      (netlocSplit (schemeSplit (removeUnsafe (z ++ '#' :: w))).2).2).1).2 =
      (cutAtFirst '?' (cutAtFirst '#'
        (netlocSplit (schemeSplit (removeUnsafe z)).2).2).1).2
    rw [hrm, hs2, hn2, hfr, hfz]

/-- Appending a fragment changes only the fragment component of urlparse. -/
theorem pyUrlparse_hash (z w : Str) (hz : '#' ∉ z) :
    (pyUrlparse (z ++ '#' :: w)).scheme = (pyUrlparse z).scheme ∧
    (pyUrlparse (z ++ '#' :: w)).netloc = (pyUrlparse z).netloc ∧
    (pyUrlparse (z ++ '#' :: w)).path = (pyUrlparse z).path ∧
    (pyUrlparse (z ++ '#' :: w)).query = (pyUrlparse z).query := by
  obtain ⟨h1, h2, h3, h4⟩ := pyUrlsplit_hash z w hz
  simp only [pyUrlparse]
  rw [h1, h3, h4, h2]
  split <;> exact ⟨rfl, rfl, rfl, rfl⟩

/-- A separator-free prefix of a separated string is a prefix of the part
before the separator. -/
theorem prefix_through_sep (p a b : Str) (sep : Char) (hp : sep ∉ p)
    (h : p <+: a ++ sep :: b) (ha : sep ∉ a) : p <+: a := by
  induction p generalizing a with
  | nil => exact List.nil_prefix
  | cons c p2 ih =>
    cases a with
    | nil =>
      rw [List.nil_append, List.cons_prefix_cons] at h
      apply absurd _ hp
      rw [← h.1]
      exact List.mem_cons_self c p2
    | cons d a2 =>
      rw [List.cons_append, List.cons_prefix_cons] at h
      rw [List.cons_prefix_cons]
      exact ⟨h.1, ih a2 (fun hm => hp (List.mem_cons_of_mem c hm)) h.2
        (fun hm => ha (List.mem_cons_of_mem d hm))⟩

/-- Links differing only by a fragment normalize identically, provided the
fragment-free link is nonempty and strip-stable. -/
theorem normalize_drop_fragment (u f : Str) (hne : u ≠ []) (hu : '#' ∉ u)
    (hh : ∀ c, u.head? = some c → pyWs c = false)
    (hl : ∀ c, u.getLast? = some c → pyWs c = false) :
    normalize_detail_url (some (u ++ '#' :: f)) = normalize_detail_url (some u) := by
  obtain ⟨c0, u2, hu0⟩ : ∃ c0 u2, u = c0 :: u2 := by
    cases u with
    | nil => exact absurd rfl hne
    | cons a b => exact ⟨a, b, rfl⟩
  have hstripR : pyStrip u = u := pyStrip_eq_self u hh hl
  have hstripL : pyStrip (u ++ '#' :: f) =
      u ++ '#' :: (f.reverse.dropWhile pyWs).reverse := by
    unfold pyStrip
    have h1 : (u ++ '#' :: f).dropWhile pyWs = u ++ '#' :: f := by
      rw [hu0]
      have hcw : pyWs c0 = false := hh c0 (by rw [hu0]; rfl)
      rw [List.cons_append, List.dropWhile_cons]
      simp [hcw]
    rw [h1]
    have h2 : (u ++ '#' :: f).reverse = f.reverse ++ '#' :: u.reverse := by
      rw [show ('#' :: f : Str) = ['#'] ++ f from rfl, List.reverse_append,
        List.reverse_append, List.append_assoc]
      rfl
    rw [h2, dropWhile_append_sep pyWs f.reverse '#' u.reverse (by decide),
      List.reverse_append, List.reverse_cons, List.reverse_reverse,
      List.append_assoc, List.singleton_append]
  have hneL : u ++ '#' :: f ≠ [] := by
    rw [hu0]
    simp
  have hc0h : c0 ≠ '#' := fun he => hu (by rw [hu0, he]; exact List.mem_cons_self _ _)
  have hlc0 : lowerChar c0 ≠ '#' := by
    intro he
    by_cases hup : 65 ≤ c0.toNat ∧ c0.toNat ≤ 90
    · have h1 := lowerChar_toNat_upper c0 hup.1 hup.2
      have h2 := congrArg Char.toNat he
      rw [h1] at h2
      have h3 : Char.toNat '#' = 35 := rfl
      omega
    · rw [lowerChar_eq_self c0 hup] at he
      exact hc0h he
  have hhashu : '#' ∉ lowerAscii u := by
    intro hm
    rw [lowerAscii, List.mem_map] at hm
    obtain ⟨d, hd, hde⟩ := hm
    have hd2 : d = '#' := by
      by_cases hup : 65 ≤ d.toNat ∧ d.toNat ≤ 90
      · have h1 := lowerChar_toNat_upper d hup.1 hup.2
        have h2 := congrArg Char.toNat hde
        rw [h1] at h2
        have h3 : Char.toNat '#' = 35 := rfl
        omega
      · rw [lowerChar_eq_self d hup] at hde
        exact hde
    exact hu (hd2 ▸ hd)
  have hlowL : lowerAscii (u ++ '#' :: (f.reverse.dropWhile pyWs).reverse) =
      lowerAscii u ++ '#' :: lowerAscii (f.reverse.dropWhile pyWs).reverse := by
    unfold lowerAscii
    rw [List.map_append, List.map_cons, show lowerChar '#' = '#' from by decide]
  simp only [normalize_detail_url]
  rw [if_neg hneL, if_neg hne, hstripL, hstripR, hlowL]
  have hexactL : lowerAscii u ++ '#' ::
      lowerAscii (f.reverse.dropWhile pyWs).reverse ∉ rejectExact := by
    intro hm
    simp only [rejectExact, List.map_cons, List.map_nil, List.mem_cons,
      List.not_mem_nil, or_false] at hm
    have hhd : (lowerAscii u ++ '#' ::
        lowerAscii (f.reverse.dropWhile pyWs).reverse).head? =
        some (lowerChar c0) := by
      rw [hu0]
      rfl
    rcases hm with hm | hm | hm | hm
    · rw [hm] at hhd
      injection hhd with h9
      exact hlc0 h9.symm
    · rw [hm] at hhd
      injection hhd with h9
      exact hlc0 h9.symm
    · have hx : '#' ∈ lowerAscii u ++ '#' ::
          lowerAscii (f.reverse.dropWhile pyWs).reverse :=
        List.mem_append_right _ (List.mem_cons_self _ _)
      rw [hm] at hx
      exact absurd hx (by decide)
    · have hx : '#' ∈ lowerAscii u ++ '#' ::
          lowerAscii (f.reverse.dropWhile pyWs).reverse :=
        List.mem_append_right _ (List.mem_cons_self _ _)
      rw [hm] at hx
      exact absurd hx (by decide)
  rw [if_neg hexactL]
  by_cases hexR : lowerAscii u ∈ rejectExact
  · rw [if_pos hexR]
    simp only [rejectExact, List.map_cons, List.map_nil, List.mem_cons,
      List.not_mem_nil, or_false] at hexR
    have hjs : "javascript:".toList <+: lowerAscii u := by
      rcases hexR with hm | hm | hm | hm
      · rw [hm] at hhashu
        exact absurd (by decide : '#' ∈ "#".toList) hhashu
      · rw [hm] at hhashu
        exact absurd (by decide : '#' ∈ "#/".toList) hhashu
      · rw [hm]
        decide
      · rw [hm]
        decide
    have hanyL : rejectPrefixes.any (fun p => p.isPrefixOf (lowerAscii u ++ '#' ::
        lowerAscii (f.reverse.dropWhile pyWs).reverse)) = true := by
      rw [List.any_eq_true]
      refine ⟨"javascript:".toList, by simp [rejectPrefixes], ?_⟩
      exact isPrefixOf_spec.mpr (hjs.trans (List.prefix_append _ _))
    rw [if_pos hanyL]
  · rw [if_neg hexR]
    have hgenpre : ∀ w : Str, '#' ∉ w →
        w.isPrefixOf (lowerAscii u ++ '#' ::
          lowerAscii (f.reverse.dropWhile pyWs).reverse) =
        w.isPrefixOf (lowerAscii u) := by
      intro w hw
      by_cases hp : w.isPrefixOf (lowerAscii u) = true
      · rw [hp]
        exact isPrefixOf_spec.mpr
          ((isPrefixOf_spec.mp hp).trans (List.prefix_append _ _))
      · rw [Bool.eq_false_iff.mpr hp, Bool.eq_false_iff]
        intro hc
        apply hp
        exact isPrefixOf_spec.mpr
          (prefix_through_sep w (lowerAscii u) _ '#' hw
            (isPrefixOf_spec.mp hc) hhashu)
    have hpreiff : rejectPrefixes.any (fun p => p.isPrefixOf (lowerAscii u ++ '#' ::
        lowerAscii (f.reverse.dropWhile pyWs).reverse)) =
        rejectPrefixes.any (fun p => p.isPrefixOf (lowerAscii u)) := by
      simp only [rejectPrefixes, List.map_cons, List.map_nil, List.any_cons,
        List.any_nil]
      rw [hgenpre _ (by decide), hgenpre _ (by decide), hgenpre _ (by decide),
        hgenpre _ (by decide)]
    rw [hpreiff]
    by_cases hpre : rejectPrefixes.any
        (fun p => p.isPrefixOf (lowerAscii u)) = true
    · rw [if_pos hpre, if_pos hpre]
    · rw [if_neg hpre, if_neg hpre]
      have hssiff : ['/', '/'].isPrefixOf (u ++ '#' ::
          (f.reverse.dropWhile pyWs).reverse) = ['/', '/'].isPrefixOf u := by
        by_cases hp : ['/', '/'].isPrefixOf u = true
        · rw [hp]
          exact isPrefixOf_spec.mpr
            ((isPrefixOf_spec.mp hp).trans (List.prefix_append _ _))
        · rw [Bool.eq_false_iff.mpr hp, Bool.eq_false_iff]
          intro hc
          apply hp
          exact isPrefixOf_spec.mpr
            (prefix_through_sep _ u _ '#' (by decide)
              (isPrefixOf_spec.mp hc) hu)
      rw [hssiff]
      by_cases hss : ['/', '/'].isPrefixOf u = true
      · rw [if_pos hss, if_pos hss]
        have hb : "https:".toList ++ (u ++ '#' ::
            (f.reverse.dropWhile pyWs).reverse) =
            ("https:".toList ++ u) ++ '#' ::
              (f.reverse.dropWhile pyWs).reverse :=
          (List.append_assoc _ _ _).symm
        rw [hb]
        have hz2 : '#' ∉ "https:".toList ++ u := by
          intro hm
          rcases List.mem_append.mp hm with hm | hm
          · exact absurd hm (by decide)
          · exact hu hm
        obtain ⟨e1, e2, e3, e4⟩ :=
          pyUrlparse_hash ("https:".toList ++ u) _ hz2
        rw [e1]
        by_cases hrej : (pyUrlparse ("https:".toList ++ u)).scheme ∈ rejectSchemes
        · rw [if_pos hrej, if_pos hrej]
        · rw [if_neg hrej, if_neg hrej, e2]
          by_cases hguard : (pyUrlparse ("https:".toList ++ u)).scheme = [] ∨
              (pyUrlparse ("https:".toList ++ u)).netloc = []
          · rw [if_pos hguard, if_pos hguard]
            have hsl : ['/'].isPrefixOf (("https:".toList ++ u) ++ '#' ::
                (f.reverse.dropWhile pyWs).reverse) =
                ['/'].isPrefixOf ("https:".toList ++ u) := by
              by_cases hp : ['/'].isPrefixOf ("https:".toList ++ u) = true
              · rw [hp]
                exact isPrefixOf_spec.mpr
                  ((isPrefixOf_spec.mp hp).trans
                    (List.prefix_append _ _))
              · rw [Bool.eq_false_iff.mpr hp, Bool.eq_false_iff]
                intro hc
                apply hp
                exact isPrefixOf_spec.mpr
                  (prefix_through_sep _ _ _ '#' (by decide)
                    (isPrefixOf_spec.mp hc) hz2)
            rw [hsl]
            by_cases hsl2 : ['/'].isPrefixOf ("https:".toList ++ u) = true
            · rw [if_pos hsl2, if_pos hsl2]
              have hb2 : ((pyUrlparse baseUrlStr).scheme ++ ':' :: '/' :: '/' ::
                  (pyUrlparse baseUrlStr).netloc) ++ (("https:".toList ++ u) ++
                    '#' :: (f.reverse.dropWhile pyWs).reverse) =
                  (((pyUrlparse baseUrlStr).scheme ++ ':' :: '/' :: '/' ::
                    (pyUrlparse baseUrlStr).netloc) ++ ("https:".toList ++ u)) ++
                    '#' :: (f.reverse.dropWhile pyWs).reverse :=
                (List.append_assoc _ _ _).symm
              rw [hb2]
              have hz3 : '#' ∉ ((pyUrlparse baseUrlStr).scheme ++ ':' :: '/' ::
                  '/' :: (pyUrlparse baseUrlStr).netloc) ++
                  ("https:".toList ++ u) := by
                intro hm
                rcases List.mem_append.mp hm with hm | hm
                · exact absurd hm (by decide)
                · exact hz2 hm
              obtain ⟨g1, g2, g3, g4⟩ := pyUrlparse_hash _ _ hz3
              dsimp only
              rw [g1, g2, g3, g4]
            · rw [if_neg hsl2, if_neg hsl2]
          · rw [if_neg hguard, if_neg hguard]
            dsimp only
            rw [e1, e2, e3, e4]
      · rw [if_neg hss, if_neg hss]
        have hz2 : '#' ∉ u := hu
        obtain ⟨e1, e2, e3, e4⟩ := pyUrlparse_hash u _ hz2
        rw [e1]
        by_cases hrej : (pyUrlparse u).scheme ∈ rejectSchemes
        · rw [if_pos hrej, if_pos hrej]
        · rw [if_neg hrej, if_neg hrej, e2]
          by_cases hguard : (pyUrlparse u).scheme = [] ∨ (pyUrlparse u).netloc = []
          · rw [if_pos hguard, if_pos hguard]
            have hsl : ['/'].isPrefixOf (u ++ '#' ::
                (f.reverse.dropWhile pyWs).reverse) = ['/'].isPrefixOf u := by
              by_cases hp : ['/'].isPrefixOf u = true
              · rw [hp]
                exact isPrefixOf_spec.mpr
                  ((isPrefixOf_spec.mp hp).trans
                    (List.prefix_append _ _))
              · rw [Bool.eq_false_iff.mpr hp, Bool.eq_false_iff]
                intro hc
                apply hp
                exact isPrefixOf_spec.mpr
                  (prefix_through_sep _ _ _ '#' (by decide)
                    (isPrefixOf_spec.mp hc) hu)
            rw [hsl]
            by_cases hsl2 : ['/'].isPrefixOf u = true
            · rw [if_pos hsl2, if_pos hsl2]
              have hb2 : ((pyUrlparse baseUrlStr).scheme ++ ':' :: '/' :: '/' ::
                  (pyUrlparse baseUrlStr).netloc) ++ (u ++
                    '#' :: (f.reverse.dropWhile pyWs).reverse) =
                  (((pyUrlparse baseUrlStr).scheme ++ ':' :: '/' :: '/' ::
                    (pyUrlparse baseUrlStr).netloc) ++ u) ++
                    '#' :: (f.reverse.dropWhile pyWs).reverse :=
                (List.append_assoc _ _ _).symm
              rw [hb2]
              have hz3 : '#' ∉ ((pyUrlparse baseUrlStr).scheme ++ ':' :: '/' ::
                  '/' :: (pyUrlparse baseUrlStr).netloc) ++ u := by
                intro hm
                rcases List.mem_append.mp hm with hm | hm
                · exact absurd hm (by decide)
                · exact hu hm
              obtain ⟨g1, g2, g3, g4⟩ := pyUrlparse_hash _ _ hz3
              dsimp only
              rw [g1, g2, g3, g4]
            · rw [if_neg hsl2, if_neg hsl2]
          · rw [if_neg hguard, if_neg hguard]
            dsimp only
            rw [e1, e2, e3, e4]

/-- Keys of flattened grouped items come from the group keys. -/
theorem flat_keys_mem (gl : List (Str × List Str)) (b : Str)
    (h : b ∈ ((gl.flatMap fun kv => kv.2.map fun v => (kv.1, v)).map Prod.fst)) :
    b ∈ gl.map Prod.fst := by
  rw [List.mem_map] at h
  obtain ⟨kv2, hkv2, rfl⟩ := h
  rw [List.mem_flatMap] at hkv2
  obtain ⟨g, hg, hin⟩ := hkv2
  rw [List.mem_map] at hin
  obtain ⟨v, _, rfl⟩ := hin
  exact List.mem_map_of_mem Prod.fst hg

/-- Flattening grouped items with sorted keys yields items with sorted
keys. -/
theorem flat_keys_sorted (gl : List (Str × List Str))
    (h : List.Sorted lexLeP (gl.map Prod.fst)) :
    List.Sorted lexLeP
      ((gl.flatMap fun kv => kv.2.map fun v => (kv.1, v)).map Prod.fst) := by
  induction gl with
  | nil => simp
  | cons g gl2 ih =>
    obtain ⟨k, vs⟩ := g
    rw [List.map_cons, List.sorted_cons] at h
    rw [List.flatMap_cons, List.map_append]
    rw [List.Sorted, List.pairwise_append]
    refine ⟨?_, ih h.2, ?_⟩
    · have hmem : ∀ a ∈ ((vs.map fun v => (k, v)).map Prod.fst), a = k := by
        intro a ha
        rw [List.map_map, List.mem_map] at ha
        obtain ⟨v, _, rfl⟩ := ha
        rfl
      have hpw : ∀ (l : List Str), (∀ a ∈ l, a = k) → List.Pairwise lexLeP l := by
        intro l
        induction l with
        | nil => intro _; exact List.Pairwise.nil
        | cons a l2 ih2 =>
          intro hall
          refine List.Pairwise.cons ?_
            (ih2 fun x hx => hall x (List.mem_cons_of_mem a hx))
          intro b hb
          rw [hall a (List.mem_cons_self a l2),
            hall b (List.mem_cons_of_mem a hb)]
          exact lexLe_refl k
      exact hpw _ hmem
    · intro a ha b hb
      have hak : a = k := by
        rw [List.map_map, List.mem_map] at ha
        obtain ⟨v, _, rfl⟩ := ha
        rfl
      have hbk : b ∈ gl2.map Prod.fst := flat_keys_mem gl2 b hb
      rw [hak]
      exact h.1 b hbk

/-- Keys of the rebuilt groups of a parsed query are sorted. -/
theorem buildQueryGroups_keys_sorted (qs : Str) :
    List.Sorted lexLeP ((buildQueryGroups (parse_qs qs)).map Prod.fst) := by
  rw [buildQueryGroups_keys]
  exact List.Pairwise.sublist (List.filter_sublist _)
    (List.sorted_insertionSort lexLeP _)

/-- Decoded keys of the canonical query are sorted. -/
theorem canonical_query_keys_sorted (qs : Str) :
    List.Sorted lexLeP
      ((parse_qsl (urlencodeItems (buildQueryItems (parse_qs qs)))).map
        Prod.fst) := by
  rw [parse_qsl_urlencodeItems _ (buildQueryItems_vals qs)]
  unfold buildQueryItems
  exact flat_keys_sorted _ (buildQueryGroups_keys_sorted qs)

/-- Parsing the rebuilt URL recovers its components, with empty params and
fragment. -/
theorem rebuilt_parse (s n pth q0 : Str)
    (hv : validScheme s) (hlow : lowerAscii s = s)
    (hn : n ≠ []) (hnend : ∀ c ∈ n, isNetlocEnd c = false) (hncln : cleanStr n)
    (habs : pth = [] ∨ ∃ p2, pth = '/' :: p2) (hph : '#' ∉ pth) (hpq : '?' ∉ pth)
    (hpcln : cleanStr pth) (hpar : s ∈ usesParams → noSemiLast pth) :
    pyUrlparse (urlunparse s n pth []
      (urlencodeItems (buildQueryItems (parse_qs q0))) []) =
      ⟨s, n, pth, [], urlencodeItems (buildQueryItems (parse_qs q0)), []⟩ := by
  have hsnil : s ≠ [] := by
    cases s with
    | nil => exact absurd hv (by simp [validScheme])
    | cons a b => simp
  have hqhash : '#' ∉ urlencodeItems (buildQueryItems (parse_qs q0)) :=
    not_mem_urlencodeItems _ '#' (by decide) (by decide) (by decide) (by decide)
      (by decide)
  have hqcln : cleanStr (urlencodeItems (buildQueryItems (parse_qs q0))) :=
    urlencodeItems_clean _
  have hyflat : urlunparse s n pth []
      (urlencodeItems (buildQueryItems (parse_qs q0))) [] =
      s ++ ':' :: '/' :: '/' :: (n ++ (pth ++
        (if urlencodeItems (buildQueryItems (parse_qs q0)) = [] then []
         else '?' :: urlencodeItems (buildQueryItems (parse_qs q0))))) :=
    urlunparse_mk s n pth _ hsnil hn habs
  have hqp : (if urlencodeItems (buildQueryItems (parse_qs q0)) = [] then []
      else '?' :: urlencodeItems (buildQueryItems (parse_qs q0))) = [] ∨
      ∃ qq, (if urlencodeItems (buildQueryItems (parse_qs q0)) = [] then []
        else '?' :: urlencodeItems (buildQueryItems (parse_qs q0))) = '?' :: qq ∧
        '#' ∉ qq := by
    by_cases hqe : urlencodeItems (buildQueryItems (parse_qs q0)) = []
    · rw [if_pos hqe]
      exact Or.inl rfl
    · rw [if_neg hqe]
      exact Or.inr ⟨_, rfl, hqhash⟩
  have hqpcln : cleanStr (if urlencodeItems (buildQueryItems (parse_qs q0)) = []
      then [] else '?' :: urlencodeItems (buildQueryItems (parse_qs q0))) := by
    by_cases hqe : urlencodeItems (buildQueryItems (parse_qs q0)) = []
    · rw [if_pos hqe]
      intro xx hxx
      cases hxx
    · rw [if_neg hqe]
      exact cleanStr_cons '?' ⟨by decide, by decide, by decide⟩ _ hqcln
  have hclean : cleanStr (s ++ ':' :: '/' :: '/' :: (n ++ (pth ++
      (if urlencodeItems (buildQueryItems (parse_qs q0)) = [] then []
       else '?' :: urlencodeItems (buildQueryItems (parse_qs q0)))))) := by
    refine cleanStr_append _ _ (cleanStr_of_validScheme s hv) ?_
    refine cleanStr_cons ':' ⟨by decide, by decide, by decide⟩ _ ?_
    refine cleanStr_cons '/' ⟨by decide, by decide, by decide⟩ _ ?_
    refine cleanStr_cons '/' ⟨by decide, by decide, by decide⟩ _ ?_
    exact cleanStr_append _ _ hncln (cleanStr_append _ _ hpcln hqpcln)
  have hsplit := pyUrlsplit_mk s n pth
    (if urlencodeItems (buildQueryItems (parse_qs q0)) = [] then []
     else '?' :: urlencodeItems (buildQueryItems (parse_qs q0)))
    hv (validScheme_no_colon s hv) hclean hnend habs hph hpq hqp
  have hsplity : pyUrlsplit (urlunparse s n pth []
      (urlencodeItems (buildQueryItems (parse_qs q0))) []) =
      ⟨s, n, pth, urlencodeItems (buildQueryItems (parse_qs q0)), []⟩ := by
    rw [hyflat, hsplit, hlow]
    by_cases hqe : urlencodeItems (buildQueryItems (parse_qs q0)) = []
    · rw [if_pos hqe, hqe]
      rfl
    · rw [if_neg hqe]
      rfl
  exact pyUrlparse_mk _ s n pth _ [] hsplity hpar

/-- Counterexample to unconditional idempotence of URL normalization: an
input whose first normalization ends in a space (the query juncture kept
the padded path), which the second normalization strips. -/
theorem normalize_not_idempotent :
    normalize_detail_url (some sampleC8) = some "https://h/a ".toList ∧
    normalize_detail_url (some "https://h/a ".toList) =
      some "https://h/a".toList ∧
    some "https://h/a ".toList ≠ some "https://h/a".toList := by
  refine ⟨by decide, by decide, by decide⟩

/-- C8: URL normalization is idempotent on every non-absent result whose
text does not end in whitespace: if normalize(x) = y and y has no trailing
whitespace character, then normalize(y) = y.  (Unconditional idempotence
is refuted by normalize_not_idempotent: a result with a trailing space is
stripped further by the second pass.) -/
theorem normalize_idempotent_amended (x y : Str)
    (h : normalize_detail_url (some x) = some y)
    (hws : ∀ c, y.getLast? = some c → pyWs c = false) :
    normalize_detail_url (some y) = some y := by
  obtain ⟨U, hs, hn, hrej, hy⟩ := normalize_shape x y h
  obtain ⟨hv, hlow, hnend, hncln, habs, hph, hpq, hpcln, hpar⟩ :=
    pyUrlparse_inv U hs hn
  exact normalize_fix _ _ _ _ y hv hlow hrej hn hnend hncln habs hph hpq hpcln
    hpar hy hws

/-- Concrete idempotence run: a link with unsorted query keys and a
fragment normalizes to a sorted fragment-free form that is a fixed point. -/
theorem normalize_idempotent_amended_witness :
    normalize_detail_url (some "https://h/a?b=2&a=1#frag".toList) =
      some "https://h/a?a=1&b=2".toList ∧
    (∀ c, ("https://h/a?a=1&b=2".toList).getLast? = some c → pyWs c = false) ∧
    normalize_detail_url (some "https://h/a?a=1&b=2".toList) =
      some "https://h/a?a=1&b=2".toList :=
  ⟨by decide, by decide,
    normalize_idempotent_amended "https://h/a?b=2&a=1#frag".toList
      "https://h/a?a=1&b=2".toList (by decide) (by decide)⟩

/-- C10: every non-absent normalization result parses with an empty
fragment and an empty params component, and its query keys appear sorted;
links differing only in a fragment normalize identically provided the
fragment-free link is nonempty, hash-free and strip-stable (without
strip-stability the claim fails: see fragment_not_invariant). -/
theorem normalize_canonical_invariants :
    (∀ x y, normalize_detail_url (some x) = some y →
      (pyUrlparse y).fragment = [] ∧ (pyUrlparse y).params = [] ∧
      List.Sorted lexLeP ((parse_qsl (pyUrlparse y).query).map Prod.fst)) ∧
    (∀ u f, u ≠ [] → '#' ∉ u →
      (∀ c, u.head? = some c → pyWs c = false) →
      (∀ c, u.getLast? = some c → pyWs c = false) →
      normalize_detail_url (some (u ++ '#' :: f)) =
        normalize_detail_url (some u)) := by
  constructor
  · intro x y h
    obtain ⟨U, hs, hn, hrej, hy⟩ := normalize_shape x y h
    obtain ⟨hv, hlow, hnend, hncln, habs, hph, hpq, hpcln, hpar⟩ :=
      pyUrlparse_inv U hs hn
    have hp := rebuilt_parse (pyUrlparse U).scheme (pyUrlparse U).netloc
      (pyUrlparse U).path (pyUrlparse U).query hv hlow hn hnend hncln habs hph
      hpq hpcln hpar
    rw [hy, hp]
    refine ⟨rfl, rfl, ?_⟩
    exact canonical_query_keys_sorted _
  · intro u f h1 h2 h3 h4
    exact normalize_drop_fragment u f h1 h2 h3 h4

/-- Counterexample to unconditional fragment-invariance: on a link with a
trailing space, adding a fragment shields the space from the strip of the
second link, so the two normalize differently. -/
theorem fragment_not_invariant :
    "https://h/a #z".toList = "https://h/a ".toList ++ '#' :: "z".toList ∧
    normalize_detail_url (some "https://h/a #z".toList) =
      some "https://h/a ".toList ∧
    normalize_detail_url (some "https://h/a ".toList) =
      some "https://h/a".toList ∧
    some "https://h/a ".toList ≠ some "https://h/a".toList := by
  refine ⟨by decide, by decide, by decide, by decide⟩

/-- Concrete canonical-output run: the normalized sample parses without
fragment or params, has sorted query keys, and fragment variants of a
strip-stable link coincide. -/
theorem normalize_canonical_invariants_witness :
    ((pyUrlparse "https://h/a?a=1&b=2".toList).fragment = [] ∧
      (pyUrlparse "https://h/a?a=1&b=2".toList).params = [] ∧
      List.Sorted lexLeP
        ((parse_qsl (pyUrlparse "https://h/a?a=1&b=2".toList).query).map
          Prod.fst)) ∧
    normalize_detail_url
        (some ("https://h/a?b=2&a=1".toList ++ '#' :: "zz".toList)) =
      normalize_detail_url (some "https://h/a?b=2&a=1".toList) :=
  ⟨normalize_canonical_invariants.1 "https://h/a?b=2&a=1".toList
      "https://h/a?a=1&b=2".toList (by decide),
    normalize_canonical_invariants.2 "https://h/a?b=2&a=1".toList "zz".toList
      (by decide) (by decide) (by decide) (by decide)⟩
